import Mathlib

/-!
Verification of the Kernighan & Ritchie storage allocator in
src/user/umalloc.c (functions free, morecore, malloc and the static
variables base and freep).

The embedding works at the granularity of one header unit
(sizeof(Header) bytes): addresses and sizes are counted in header
units, exactly as the C code does its pointer arithmetic on
Header*.  Memory is a total function from unit addresses to header
contents; the C null pointer is the address 0.  The unit size in
bytes (sizeof(Header)) is 16, matching the RV64 (LP64) target of
this xv6-riscv tree: Align = long is 8 bytes, and union header —
an 8-byte next pointer and a 4-byte uint size — is padded to 16
bytes by the 8-byte alignment.  In malloc's unit-count expression
(nbytes + sizeof(Header) - 1) / sizeof(Header) + 1 the operand
sizeof(Header) has type size_t (64-bit), so the uint nbytes is
promoted to 64 bits, the computation never wraps for any uint
input, and its value (at most 2^28 + 1) is assigned back to the
uint nunits without truncation; the model therefore computes it
with exact natural arithmetic.
The sbrk growth primitive is modelled by a break pointer and a hard
limit brkMax: sbrk succeeds exactly when the extended break stays
within the limit, returning the old break (the new region is
contiguous and monotonically increasing, as the spec's Growth
Provider contract requires).

The two loops of the C code (the insertion-point scan in free and
the next-fit search in malloc) are modelled with an explicit fuel
argument; returning none means the fuel was exhausted.  The
development proves that, under the free-list invariant, a fuel of
one full traversal suffices, so none is a modelling artifact and
never occurs in the verified runs.
-/

namespace UMalloc

/-- One block header, mirroring the s member of union header:
ptr is the address of the next free block (in header units),
size is the block length in header units, header included. -/
structure Header where
  ptr : Nat
  size : Nat
deriving DecidableEq

/-- Allocator state: mem is the managed memory (one Header per unit
address), freep the free-list cursor (0 = C null), base the address of
the static sentinel Header, brk the current program break in units and
brkMax the point beyond which sbrk fails. -/
structure St where
  mem : Nat → Header
  freep : Nat
  base : Nat
  brk : Nat
  brkMax : Nat

/-- Store to the ptr field of the header at address a. -/
def setPtr (s : St) (a v : Nat) : St :=
  { s with mem := fun x => if x = a then { s.mem a with ptr := v } else s.mem x }

/-- Store to the size field of the header at address a. -/
def setSize (s : St) (a v : Nat) : St :=
  { s with mem := fun x => if x = a then { s.mem a with size := v } else s.mem x }

@[simp] theorem setPtr_freep (s : St) (a v : Nat) : (setPtr s a v).freep = s.freep := rfl
@[simp] theorem setPtr_base (s : St) (a v : Nat) : (setPtr s a v).base = s.base := rfl
@[simp] theorem setPtr_brk (s : St) (a v : Nat) : (setPtr s a v).brk = s.brk := rfl
@[simp] theorem setPtr_brkMax (s : St) (a v : Nat) : (setPtr s a v).brkMax = s.brkMax := rfl
@[simp] theorem setSize_freep (s : St) (a v : Nat) : (setSize s a v).freep = s.freep := rfl
@[simp] theorem setSize_base (s : St) (a v : Nat) : (setSize s a v).base = s.base := rfl
@[simp] theorem setSize_brk (s : St) (a v : Nat) : (setSize s a v).brk = s.brk := rfl
@[simp] theorem setSize_brkMax (s : St) (a v : Nat) : (setSize s a v).brkMax = s.brkMax := rfl

theorem setPtr_mem (s : St) (a v x : Nat) :
    (setPtr s a v).mem x = if x = a then { s.mem a with ptr := v } else s.mem x := rfl

theorem setSize_mem (s : St) (a v x : Nat) :
    (setSize s a v).mem x = if x = a then { s.mem a with size := v } else s.mem x := rfl

@[simp] theorem setPtr_mem_same (s : St) (a v : Nat) :
    (setPtr s a v).mem a = { s.mem a with ptr := v } := by simp [setPtr_mem]

@[simp] theorem setPtr_mem_ne (s : St) (a v x : Nat) (h : x ≠ a) :
    (setPtr s a v).mem x = s.mem x := by simp [setPtr_mem, h]

@[simp] theorem setSize_mem_same (s : St) (a v : Nat) :
    (setSize s a v).mem a = { s.mem a with size := v } := by simp [setSize_mem]

@[simp] theorem setSize_mem_ne (s : St) (a v x : Nat) (h : x ≠ a) :
    (setSize s a v).mem x = s.mem x := by simp [setSize_mem, h]

@[simp] theorem setPtr_size (s : St) (a v x : Nat) :
    ((setPtr s a v).mem x).size = (s.mem x).size := by
  by_cases h : x = a <;> simp [setPtr_mem, h]

@[simp] theorem setSize_ptr (s : St) (a v x : Nat) :
    ((setSize s a v).mem x).ptr = (s.mem x).ptr := by
  by_cases h : x = a <;> simp [setSize_mem, h]

/-- 2^32, the number of values of the C uint type: the uint argument
nbytes ranges over the naturals below U32. -/
def U32 : Nat := 4294967296

/-- sizeof(Header) in bytes: 16 on the RV64 (LP64) xv6-riscv target
(an 8-byte next pointer and a 4-byte uint size, padded to the 8-byte
alignment of Align = long). -/
def hsize : Nat := 16

/-- The unit count malloc computes:
nunits = (nbytes + sizeof(Header) - 1) / sizeof(Header) + 1.
sizeof(Header) has type size_t (64-bit), so the uint nbytes is promoted
and the arithmetic never wraps; the result assigns back to uint
exactly. -/
def nunitsOf (nbytes : Nat) : Nat :=
  (nbytes + hsize - 1) / hsize + 1

/-- The insertion-point scan of free:
for(p = freep; !(bp > p && bp < p->s.ptr); p = p->s.ptr)
  if(p >= p->s.ptr && (bp > p || bp < p->s.ptr)) break;
Returns the block p after which bp is to be spliced, or none if the
fuel ran out. -/
def findSpot (s : St) (bp : Nat) : Nat → Nat → Option Nat
  | 0, _ => none
  | fuel + 1, p =>
    if p < bp ∧ bp < (s.mem p).ptr then some p
    else if (s.mem p).ptr ≤ p ∧ (p < bp ∨ bp < (s.mem p).ptr) then some p
    else findSpot s bp fuel ((s.mem p).ptr)

/-- The forward-merge statement of free, a read-then-write on current
memory:
  if(bp + bp->s.size == p->s.ptr){ bp->s.size += p->s.ptr->s.size;
                                   bp->s.ptr = p->s.ptr->s.ptr; }
  else bp->s.ptr = p->s.ptr;  -/
def freeFwd (s : St) (bp p : Nat) : St :=
  if bp + (s.mem bp).size = (s.mem p).ptr then
    let sa := setSize s bp ((s.mem bp).size + (s.mem ((s.mem p).ptr)).size)
    setPtr sa bp ((sa.mem ((sa.mem p).ptr)).ptr)
  else
    setPtr s bp ((s.mem p).ptr)

/-- The backward-merge statement of free:
  if(p + p->s.size == bp){ p->s.size += bp->s.size; p->s.ptr = bp->s.ptr; }
  else p->s.ptr = bp;  -/
def freeBwd (s : St) (bp p : Nat) : St :=
  if p + (s.mem p).size = bp then
    let sb := setSize s p ((s.mem p).size + (s.mem bp).size)
    setPtr sb p ((sb.mem bp).ptr)
  else
    setPtr s p bp

/-- The merge-and-splice tail of free, once the insertion point p has
been found: the forward merge, then the backward merge, then freep = p. -/
def freeCore (s : St) (bp p : Nat) : St :=
  { freeBwd (freeFwd s bp p) bp p with freep := p }

/-- void free(void *ap): bp = (Header*)ap - 1, then scan and splice. -/
def free (s : St) (ap : Nat) (fuel : Nat) : Option St :=
  (findSpot s (ap - 1) fuel s.freep).map (freeCore s (ap - 1))

/-- The sbrk growth primitive (modelled in header units): extends the
break by n units and returns the old break, or fails (none) when the
limit would be exceeded. -/
def sbrk (s : St) (n : Nat) : Option (St × Nat) :=
  if s.brk + n ≤ s.brkMax then some ({ s with brk := s.brk + n }, s.brk)
  else none

/-- static Header* morecore(uint nu).  Returns the address holding the
C return value: 0 when sbrk failed, the new freep otherwise.  none is
fuel exhaustion inside the free call. -/
def morecore (s : St) (nu fuel : Nat) : Option (St × Nat) :=
  let nu' := if nu < 4096 then 4096 else nu
  match sbrk s nu' with
  | none => some (s, 0)
  | some (s1, p) =>
    let s2 := setSize s1 p nu'
    match free s2 (p + 1) fuel with
    | none => none
    | some s3 => some (s3, s3.freep)

/-- The next-fit search loop of malloc.  prevp and p are the C loop
variables; one fuel is consumed per visited block.  Returns the final
state and the C return value (0 = out of memory). -/
def mallocLoop (nunits : Nat) : Nat → St → Nat → Nat → Option (St × Nat)
  | 0, _, _, _ => none
  | fuel + 1, s, prevp, p =>
    if nunits ≤ (s.mem p).size then
      if (s.mem p).size = nunits then
        some ({ setPtr s prevp ((s.mem p).ptr) with freep := prevp }, p + 1)
      else
        let s1 := setSize s p ((s.mem p).size - nunits)
        let p2 := p + ((s1.mem p).size)
        let s2 := setSize s1 p2 nunits
        some ({ s2 with freep := prevp }, p2 + 1)
    else
      if p = s.freep then
        match morecore s nunits fuel with
        | none => none
        | some (s', pNew) =>
          if pNew = 0 then some (s', 0)
          else mallocLoop nunits fuel s' pNew ((s'.mem pNew).ptr)
      else
        mallocLoop nunits fuel s p ((s.mem p).ptr)

/-- void* malloc(uint nbytes): compute nunits, lazily initialize the
sentinel list, then run the next-fit search from the cursor. -/
def malloc (s : St) (nbytes fuel : Nat) : Option (St × Nat) :=
  let nunits := nunitsOf nbytes
  let s1 :=
    if s.freep = 0 then
      { setSize (setPtr s s.base s.base) s.base 0 with freep := s.base }
    else s
  mallocLoop nunits fuel s1 s1.freep ((s1.mem s1.freep).ptr)

/-- Run a sequence of malloc calls (no intervening free), collecting the
returned pointers; fails if any call reports out of memory. -/
def mallocSeq (fuel : Nat) : St → List Nat → Option (St × List Nat)
  | s, [] => some (s, [])
  | s, nb :: rest =>
    match malloc s nb fuel with
    | none => none
    | some (s', r) =>
      if r = 0 then none
      else (mallocSeq fuel s' rest).map (fun q => (q.1, r :: q.2))

/-- isChain s p L q: starting at address p, following the ptr links
visits exactly the addresses in L, in order, and ends at q. -/
def isChain (s : St) : Nat → List Nat → Nat → Prop
  | p, [], q => p = q
  | p, a :: r, q => p = a ∧ isChain s ((s.mem a).ptr) r q

instance isChain.dec (s : St) : (L : List Nat) → (p q : Nat) → Decidable (isChain s p L q)
  | [], p, q => inferInstanceAs (Decidable (p = q))
  | a :: r, p, q =>
    haveI := isChain.dec s r ((s.mem a).ptr) q
    inferInstanceAs (Decidable (p = a ∧ isChain s ((s.mem a).ptr) r q))

/-- The free-list invariant.  R lists the heap free blocks in
increasing address order (the sentinel base, of size 0, is kept
separate at the head of the circle); A lists the live allocated blocks
as (header address, size in units) pairs. -/
structure Inv (s : St) (R : List Nat) (A : List (Nat × Nat)) : Prop where
  circ : isChain s s.base (s.base :: R) s.base
  gap : List.Pairwise (fun a b => a + (s.mem a).size < b) (s.base :: R)
  base_size : (s.mem s.base).size = 0
  base_pos : 0 < s.base
  base_brk : s.base < s.brk
  freep_mem : s.freep ∈ s.base :: R
  size_pos : ∀ a ∈ R, 1 ≤ (s.mem a).size
  heap : ∀ a ∈ R, a + (s.mem a).size ≤ s.brk
  aRange : ∀ x ∈ A, 0 < x.2 ∧ s.base < x.1 ∧ x.1 + x.2 ≤ s.brk
  aSize : ∀ x ∈ A, (s.mem x.1).size = x.2
  aFree : ∀ x ∈ A, ∀ b ∈ R, x.1 + x.2 ≤ b ∨ b + (s.mem b).size ≤ x.1
  aPair : List.Pairwise (fun x y : Nat × Nat => x.1 + x.2 ≤ y.1 ∨ y.1 + y.2 ≤ x.1) A

/-! ### Chain lemmas -/

theorem isChain_nil (s : St) (p q : Nat) : isChain s p [] q ↔ p = q := Iff.rfl

theorem isChain_cons (s : St) (p a q : Nat) (r : List Nat) :
    isChain s p (a :: r) q ↔ p = a ∧ isChain s ((s.mem a).ptr) r q := Iff.rfl

theorem isChain_append (s : St) (X Y : List Nat) (p q : Nat) :
    isChain s p (X ++ Y) q ↔ ∃ m, isChain s p X m ∧ isChain s m Y q := by
  induction X generalizing p with
  | nil =>
    constructor
    · intro h; exact ⟨p, rfl, h⟩
    · rintro ⟨m, hm, h2⟩; cases hm; exact h2
  | cons a r ih =>
    simp only [List.cons_append, isChain_cons, ih]
    constructor
    · rintro ⟨hpa, m, h1, h2⟩; exact ⟨m, ⟨hpa, h1⟩, h2⟩
    · rintro ⟨m, ⟨hpa, h1⟩, h2⟩; exact ⟨hpa, m, h1, h2⟩

theorem isChain_congr {s s' : St} {L : List Nat} {p q : Nat}
    (hmem : ∀ a ∈ L, (s'.mem a).ptr = (s.mem a).ptr)
    (h : isChain s p L q) : isChain s' p L q := by
  induction L generalizing p with
  | nil => exact h
  | cons a r ih =>
    obtain ⟨hpa, hrest⟩ := h
    refine ⟨hpa, ?_⟩
    rw [hmem a (List.mem_cons_self a r)]
    exact ih (fun x hx => hmem x (List.mem_cons_of_mem a hx)) hrest

/-- Rotating a circular chain: if the circle anchored at b lists f
somewhere, the same circle can be anchored at f. -/
theorem isChain_rotate (s : St) (P Q : List Nat) (b f : Nat)
    (h : isChain s b (P ++ f :: Q) b) :
    isChain s f ((f :: Q) ++ P) f := by
  rw [isChain_append] at h
  obtain ⟨m, h1, h2⟩ := h
  obtain ⟨hmf, h3⟩ := h2
  subst hmf
  rw [isChain_append]
  exact ⟨b, ⟨rfl, h3⟩, h1⟩

theorem isChain_next (s : St) (X Y : List Nat) (p q a b : Nat)
    (h : isChain s p (X ++ a :: b :: Y) q) : (s.mem a).ptr = b := by
  rw [isChain_append] at h
  obtain ⟨m, -, h2⟩ := h
  rw [isChain_cons] at h2
  obtain ⟨rfl, h3⟩ := h2
  rw [isChain_cons] at h3
  exact h3.1

theorem isChain_last (s : St) (X : List Nat) (p q a : Nat)
    (h : isChain s p (X ++ [a]) q) : (s.mem a).ptr = q := by
  rw [isChain_append] at h
  obtain ⟨m, -, h2⟩ := h
  rw [isChain_cons] at h2
  obtain ⟨rfl, h3⟩ := h2
  exact h3

theorem isChain_ptr_mem (s : St) (L : List Nat) (p q a : Nat)
    (h : isChain s p L q) (hq : q ∈ L) (ha : a ∈ L) : (s.mem a).ptr ∈ L := by
  obtain ⟨X, Y, rfl⟩ := List.append_of_mem ha
  cases Y with
  | nil => rw [isChain_last s X p q a h]; exact hq
  | cons b Y' =>
    rw [isChain_next s X Y' p q a b h]
    exact List.mem_append_right X (List.mem_cons_of_mem a (List.mem_cons_self b Y'))

/-- In a duplicate-free circular chain anchored at b, a member other
than b never links to itself. -/
theorem isChain_no_selfloop (s : St) (L : List Nat) (b a : Nat)
    (h : isChain s b L b) (hnd : L.Nodup) (ha : a ∈ L)
    (hab : a ≠ b) : (s.mem a).ptr ≠ a := by
  obtain ⟨X, Y, rfl⟩ := List.append_of_mem ha
  cases Y with
  | nil => rw [isChain_last s X b b a h]; exact fun hba => hab hba.symm
  | cons c Y' =>
    rw [isChain_next s X Y' b b a c h]
    intro hca
    have htail : (a :: c :: Y').Nodup :=
      hnd.sublist (List.sublist_append_right X (a :: c :: Y'))
    rw [hca] at htail
    exact (List.nodup_cons.1 htail).1 (List.mem_cons_self a Y')

/-! ### Facts derived from the invariant -/

theorem Inv.sorted {s : St} {R : List Nat} {A : List (Nat × Nat)} (hI : Inv s R A) :
    List.Pairwise (· < ·) (s.base :: R) :=
  hI.gap.imp (fun {a b} h => Nat.lt_of_le_of_lt (Nat.le_add_right a ((s.mem a).size)) h)

theorem Inv.nodup {s : St} {R : List Nat} {A : List (Nat × Nat)} (hI : Inv s R A) :
    (s.base :: R).Nodup :=
  hI.sorted.imp (fun {a b} h => Nat.ne_of_lt h)

theorem Inv.base_lt {s : St} {R : List Nat} {A : List (Nat × Nat)} (hI : Inv s R A) :
    ∀ a ∈ R, s.base < a :=
  fun a ha => (List.pairwise_cons.1 hI.sorted).1 a ha

theorem Inv.pos {s : St} {R : List Nat} {A : List (Nat × Nat)} (hI : Inv s R A) :
    ∀ a ∈ s.base :: R, 0 < a := by
  intro a ha
  rcases List.mem_cons.1 ha with rfl | ha'
  · exact hI.base_pos
  · exact Nat.lt_trans hI.base_pos (hI.base_lt a ha')

theorem Inv.freep_pos {s : St} {R : List Nat} {A : List (Nat × Nat)} (hI : Inv s R A) :
    0 < s.freep := hI.pos s.freep hI.freep_mem

theorem Inv.ptr_mem {s : St} {R : List Nat} {A : List (Nat × Nat)} (hI : Inv s R A) :
    ∀ a ∈ s.base :: R, (s.mem a).ptr ∈ s.base :: R :=
  fun a ha =>
    isChain_ptr_mem s (s.base :: R) s.base s.base a hI.circ (List.mem_cons_self _ _) ha

/-! ### Splitting a sorted list around a fresh address -/

theorem sorted_split (x : Nat) :
    ∀ (L : List Nat), List.Pairwise (· < ·) L → x ∉ L → (∃ a ∈ L, a < x) →
    ∃ P p Q, L = P ++ p :: Q ∧ p < x ∧ (∀ y ∈ P, y < x) ∧ (∀ y ∈ Q, x < y) := by
  intro L
  induction L with
  | nil => rintro - - ⟨a, ha, -⟩; exact absurd ha (List.not_mem_nil a)
  | cons a rest ih =>
    intro hso hx hlow
    have hax : a < x := by
      obtain ⟨b, hb, hbx⟩ := hlow
      rcases List.mem_cons.1 hb with rfl | hb'
      · exact hbx
      · exact Nat.lt_trans ((List.pairwise_cons.1 hso).1 b hb') hbx
    by_cases hrest : ∃ b ∈ rest, b < x
    · obtain ⟨P, p, Q, heq, hpx, hP, hQ⟩ :=
        ih (List.pairwise_cons.1 hso).2 (fun hm => hx (List.mem_cons_of_mem a hm)) hrest
      refine ⟨a :: P, p, Q, by rw [heq, List.cons_append], hpx, ?_, hQ⟩
      intro y hy
      rcases List.mem_cons.1 hy with rfl | hy'
      · exact hax
      · exact hP y hy'
    · refine ⟨[], a, rest, rfl, hax, fun y hy => absurd hy (List.not_mem_nil y), ?_⟩
      intro y hy
      rcases Nat.lt_or_ge x y with h | h
      · exact h
      · exfalso
        rcases Nat.lt_or_ge y x with h' | h'
        · exact hrest ⟨y, hy, h'⟩
        · have : y = x := Nat.le_antisymm h h'
          exact hx (this ▸ List.mem_cons_of_mem a hy)

/-! ### The insertion-point scan -/

/-- The condition under which free's scan stops at block p: either bp
lies strictly between p and its successor, or p is the wrap pair and bp
lies above the highest or below the lowest block. -/
def stopCond (s : St) (bp p : Nat) : Prop :=
  (p < bp ∧ bp < (s.mem p).ptr) ∨ ((s.mem p).ptr ≤ p ∧ (p < bp ∨ bp < (s.mem p).ptr))

instance (s : St) (bp p : Nat) : Decidable (stopCond s bp p) := by
  unfold stopCond; infer_instance

theorem findSpot_succ (s : St) (bp f p : Nat) :
    findSpot s bp (f + 1) p =
      if stopCond s bp p then some p else findSpot s bp f ((s.mem p).ptr) := by
  by_cases h1 : p < bp ∧ bp < (s.mem p).ptr <;>
    by_cases h2 : (s.mem p).ptr ≤ p ∧ (p < bp ∨ bp < (s.mem p).ptr) <;>
      simp [findSpot, stopCond, h1, h2]

theorem findSpot_stop (s : St) (bp f p : Nat) (h : stopCond s bp p) :
    findSpot s bp (f + 1) p = some p := by
  rw [findSpot_succ, if_pos h]

theorem findSpot_skip (s : St) (bp : Nat) :
    ∀ (V : List Nat) (p r f : Nat), isChain s p V r →
      (∀ x ∈ V, ¬ stopCond s bp x) →
      findSpot s bp (V.length + f) p = findSpot s bp f r := by
  intro V
  induction V with
  | nil => intro p r f h _; cases h; simp
  | cons a W ih =>
    intro p r f h hns
    rw [isChain_cons] at h
    obtain ⟨rfl, hrest⟩ := h
    have hlen : W.length + f + 1 = (p :: W).length + f := by
      simp [Nat.add_comm, Nat.add_assoc]
    rw [← hlen, findSpot_succ, if_neg (hns p (List.mem_cons_self p W))]
    exact ih ((s.mem p).ptr) r f hrest (fun x hx => hns x (List.mem_cons_of_mem p hx))

theorem findSpot_mono (s : St) (bp : Nat) :
    ∀ (f f' p x : Nat), findSpot s bp f p = some x → f ≤ f' →
      findSpot s bp f' p = some x := by
  intro f
  induction f with
  | zero => intro f' p x h; cases h
  | succ g ih =>
    intro f' p x h hle
    obtain ⟨g', rfl⟩ : ∃ g', f' = g' + 1 :=
      ⟨f' - 1, by omega⟩
    rw [findSpot_succ] at h ⊢
    by_cases hst : stopCond s bp p
    · rw [if_pos hst] at h ⊢; exact h
    · rw [if_neg hst] at h ⊢
      exact ih g' ((s.mem p).ptr) x h (by omega)

/-- The successor of x in the circular chain anchored at b. -/
theorem circle_next (s : St) (C : List Nat) (b x : Nat) (X Y : List Nat)
    (hch : isChain s b C b) (hC : C = X ++ x :: Y) : (s.mem x).ptr = Y.headD b := by
  subst hC
  cases Y with
  | nil => exact isChain_last s X b b x hch
  | cons y Y' => exact isChain_next s X Y' b b x y hch

theorem sorted_rel_later {r : Nat → Nat → Prop} {L X D : List Nat} {x : Nat}
    (h : List.Pairwise r L) (hL : L = X ++ x :: D) : ∀ y ∈ D, r x y := by
  subst hL
  exact (List.pairwise_cons.1 (List.pairwise_append.1 h).2.1).1

theorem sorted_rel_earlier {r : Nat → Nat → Prop} {L X D : List Nat} {x : Nat}
    (h : List.Pairwise r L) (hL : L = X ++ x :: D) : ∀ y ∈ X, r y x := by
  subst hL
  intro y hy
  exact (List.pairwise_append.1 h).2.2 y hy x (List.mem_cons_self x D)

theorem rot_mem {x f : Nat} {P Q : List Nat} :
    x ∈ (f :: Q) ++ P ↔ x ∈ P ++ f :: Q := by
  simp only [List.mem_append, List.mem_cons]
  tauto

/-- The scan's stop condition holds at exactly one block of the circle:
the address-order predecessor of bp (the wrap pair when bp is above the
highest block). -/
theorem straddle {s : St} {R : List Nat} {A : List (Nat × Nat)} (hI : Inv s R A)
    {bp : Nat} (hbp : s.base < bp) (hnot : bp ∉ s.base :: R) :
    ∃ P p Q, s.base :: R = P ++ p :: Q ∧ p < bp ∧ (∀ y ∈ P, y < bp) ∧
      (∀ y ∈ Q, bp < y) ∧ stopCond s bp p ∧
      (∀ x ∈ s.base :: R, stopCond s bp x → x = p) := by
  obtain ⟨P, p, Q, hC, hpx, hP, hQ⟩ :=
    sorted_split bp (s.base :: R) hI.sorted hnot ⟨s.base, List.mem_cons_self _ _, hbp⟩
  refine ⟨P, p, Q, hC, hpx, hP, hQ, ?_, ?_⟩
  · have hnext : (s.mem p).ptr = Q.headD s.base :=
      circle_next s (s.base :: R) s.base p P Q hI.circ hC
    cases Q with
    | nil =>
      right
      rw [hnext]
      simp only [List.headD_nil]
      refine ⟨?_, Or.inl hpx⟩
      cases P with
      | nil =>
        have hb : s.base = p := by
          simp only [List.nil_append, List.cons.injEq] at hC
          exact hC.1
        exact Nat.le_of_eq hb
      | cons b P' =>
        have hb : b = s.base := by
          simp only [List.cons_append, List.cons.injEq] at hC
          exact hC.1.symm
        have : s.base < p := by
          refine sorted_rel_earlier hI.sorted hC s.base ?_
          rw [← hb]; exact List.mem_cons_self b P'
        exact Nat.le_of_lt this
    | cons q Q' =>
      left
      rw [hnext]
      exact ⟨hpx, hQ q (List.mem_cons_self q Q')⟩
  · intro x hx hstop
    have hx' : x ∈ P ++ p :: Q := hC ▸ hx
    rcases List.mem_append.1 hx' with hxP | hxpQ
    · exfalso
      obtain ⟨P1, P2, rfl⟩ := List.append_of_mem hxP
      have hC' : s.base :: R = P1 ++ x :: (P2 ++ p :: Q) := by
        rw [hC]; simp [List.append_assoc]
      have hnext : (s.mem x).ptr = (P2 ++ p :: Q).headD s.base :=
        circle_next s (s.base :: R) s.base x P1 (P2 ++ p :: Q) hI.circ hC'
      have hxp : x < p := sorted_rel_earlier hI.sorted hC x hxP
      cases P2 with
      | nil =>
        simp only [List.nil_append, List.headD_cons] at hnext
        rcases hstop with ⟨h1, h2⟩ | ⟨h1, h2⟩
        · rw [hnext] at h2; omega
        · rw [hnext] at h1; omega
      | cons c P2' =>
        simp only [List.cons_append, List.headD_cons] at hnext
        have hcbp : c < bp := hP c (by simp)
        have hxc : x < c :=
          sorted_rel_later hI.sorted hC' c (by simp)
        rcases hstop with ⟨h1, h2⟩ | ⟨h1, h2⟩
        · rw [hnext] at h2; omega
        · rw [hnext] at h1; omega
    · rcases List.mem_cons.1 hxpQ with rfl | hxQ
      · rfl
      exfalso
      have hbpx : bp < x := hQ x hxQ
      obtain ⟨Q1, Q2, rfl⟩ := List.append_of_mem hxQ
      have hC' : s.base :: R = (P ++ p :: Q1) ++ x :: Q2 := by
        rw [hC]; simp [List.append_assoc]
      have hnext : (s.mem x).ptr = Q2.headD s.base :=
        circle_next s (s.base :: R) s.base x (P ++ p :: Q1) Q2 hI.circ hC'
      cases Q2 with
      | nil =>
        simp only [List.headD_nil] at hnext
        rcases hstop with ⟨h1, h2⟩ | ⟨h1, h2⟩
        · omega
        · rw [hnext] at h2
          rcases h2 with h2 | h2 <;> omega
      | cons y Q2' =>
        simp only [List.headD_cons] at hnext
        have hxy : x < y :=
          sorted_rel_later hI.sorted hC' y (List.mem_cons_self y Q2')
        rcases hstop with ⟨h1, h2⟩ | ⟨h1, h2⟩
        · omega
        · rw [hnext] at h1; omega

/-- The insertion-point scan, started at the cursor, terminates within
one full traversal of the circular list and returns the unique
straddling predecessor of bp. -/
theorem findSpot_main {s : St} {R : List Nat} {A : List (Nat × Nat)} (hI : Inv s R A)
    {bp : Nat} (hbp : s.base < bp) (hnot : bp ∉ s.base :: R)
    (F : Nat) (hF : R.length + 1 ≤ F) :
    ∃ p P Q, findSpot s bp F s.freep = some p ∧ s.base :: R = P ++ p :: Q ∧
      p < bp ∧ (∀ y ∈ P, y < bp) ∧ (∀ y ∈ Q, bp < y) := by
  obtain ⟨P, p, Q, hC, hpx, hP, hQ, hstop, huniq⟩ := straddle hI hbp hnot
  refine ⟨p, P, Q, ?_, hC, hpx, hP, hQ⟩
  obtain ⟨P0, Q0, hC0⟩ := List.append_of_mem hI.freep_mem
  have hrot : isChain s s.freep ((s.freep :: Q0) ++ P0) s.freep :=
    isChain_rotate s P0 Q0 s.base s.freep (hC0 ▸ hI.circ)
  have hVnd : ((s.freep :: Q0) ++ P0).Nodup :=
    (@List.perm_append_comm _ P0 (s.freep :: Q0)).nodup (hC0 ▸ hI.nodup)
  have hpV : p ∈ (s.freep :: Q0) ++ P0 := by
    rw [rot_mem, ← hC0, hC]
    exact List.mem_append_right P (List.mem_cons_self p Q)
  obtain ⟨V1, V2, hV⟩ := List.append_of_mem hpV
  have hchainV1 : isChain s s.freep V1 p := by
    have := hrot
    rw [hV, isChain_append] at this
    obtain ⟨m, h1, h2⟩ := this
    rw [isChain_cons] at h2
    exact h2.1 ▸ h1
  have hnostop : ∀ x ∈ V1, ¬ stopCond s bp x := by
    intro x hx hst
    have hxC : x ∈ s.base :: R := by
      rw [hC0, ← rot_mem, hV]
      exact List.mem_append_left _ hx
    have hxp : x = p := huniq x hxC hst
    subst hxp
    have : x ∉ V1 := by
      rw [hV] at hVnd
      have hnd2 := (List.nodup_append.1 hVnd).2.2
      intro hmem
      exact hnd2 hmem (List.mem_cons_self x V2)
    exact this hx
  have hfuel : V1.length + 1 ≤ F := by
    have hlenV : ((s.freep :: Q0) ++ P0).length = R.length + 1 := by
      have : (P0 ++ s.freep :: Q0).length = (s.base :: R).length := by rw [hC0]
      simp only [List.length_append, List.length_cons] at this ⊢
      omega
    rw [hV] at hlenV
    simp only [List.length_append, List.length_cons] at hlenV
    omega
  have hskip : findSpot s bp (V1.length + 1) s.freep = findSpot s bp 1 p :=
    findSpot_skip s bp V1 s.freep p 1 hchainV1 hnostop
  have hstop1 : findSpot s bp 1 p = some p := findSpot_stop s bp 0 p hstop
  exact findSpot_mono s bp (V1.length + 1) F s.freep p (by rw [hskip, hstop1]) hfuel

/-! ### Pointwise characterization of freeCore -/

@[simp] theorem freeFwd_freep (s : St) (bp p : Nat) : (freeFwd s bp p).freep = s.freep := by
  unfold freeFwd; split_ifs <;> rfl

@[simp] theorem freeFwd_base (s : St) (bp p : Nat) : (freeFwd s bp p).base = s.base := by
  unfold freeFwd; split_ifs <;> rfl

@[simp] theorem freeFwd_brk (s : St) (bp p : Nat) : (freeFwd s bp p).brk = s.brk := by
  unfold freeFwd; split_ifs <;> rfl

@[simp] theorem freeFwd_brkMax (s : St) (bp p : Nat) :
    (freeFwd s bp p).brkMax = s.brkMax := by
  unfold freeFwd; split_ifs <;> rfl

@[simp] theorem freeBwd_freep (s : St) (bp p : Nat) : (freeBwd s bp p).freep = s.freep := by
  unfold freeBwd; split_ifs <;> rfl

@[simp] theorem freeBwd_base (s : St) (bp p : Nat) : (freeBwd s bp p).base = s.base := by
  unfold freeBwd; split_ifs <;> rfl

@[simp] theorem freeBwd_brk (s : St) (bp p : Nat) : (freeBwd s bp p).brk = s.brk := by
  unfold freeBwd; split_ifs <;> rfl

@[simp] theorem freeBwd_brkMax (s : St) (bp p : Nat) :
    (freeBwd s bp p).brkMax = s.brkMax := by
  unfold freeBwd; split_ifs <;> rfl

@[simp] theorem freeCore_freep (s : St) (bp p : Nat) : (freeCore s bp p).freep = p := rfl

@[simp] theorem freeCore_base (s : St) (bp p : Nat) : (freeCore s bp p).base = s.base := by
  unfold freeCore; simp

@[simp] theorem freeCore_brk (s : St) (bp p : Nat) : (freeCore s bp p).brk = s.brk := by
  unfold freeCore; simp

@[simp] theorem freeCore_brkMax (s : St) (bp p : Nat) :
    (freeCore s bp p).brkMax = s.brkMax := by
  unfold freeCore; simp

theorem freeFwd_mem_other (s : St) (bp p a : Nat) (ha1 : a ≠ bp) :
    (freeFwd s bp p).mem a = s.mem a := by
  unfold freeFwd; split_ifs <;> simp [ha1]

theorem freeBwd_mem_other (s : St) (bp p a : Nat) (ha2 : a ≠ p) :
    (freeBwd s bp p).mem a = s.mem a := by
  unfold freeBwd; split_ifs <;> simp [ha2]

theorem freeFwd_mem_bp_pos (s : St) (bp p : Nat) (hpbp : p ≠ bp)
    (hf : bp + (s.mem bp).size = (s.mem p).ptr) :
    (freeFwd s bp p).mem bp =
      ⟨(s.mem ((s.mem p).ptr)).ptr, (s.mem bp).size + (s.mem ((s.mem p).ptr)).size⟩ := by
  unfold freeFwd
  rw [if_pos hf]
  simp [Ne.symm hpbp]

theorem freeFwd_mem_bp_neg (s : St) (bp p : Nat)
    (hnf : ¬ bp + (s.mem bp).size = (s.mem p).ptr) :
    (freeFwd s bp p).mem bp = ⟨(s.mem p).ptr, (s.mem bp).size⟩ := by
  unfold freeFwd
  rw [if_neg hnf]
  simp

theorem freeBwd_mem_p_pos (s : St) (bp p : Nat) (hpbp : p ≠ bp)
    (hb : p + (s.mem p).size = bp) :
    (freeBwd s bp p).mem p =
      ⟨(s.mem bp).ptr, (s.mem p).size + (s.mem bp).size⟩ := by
  unfold freeBwd
  rw [if_pos hb]
  simp [Ne.symm hpbp, setSize_mem, hpbp]

theorem freeBwd_mem_p_neg (s : St) (bp p : Nat)
    (hnb : ¬ p + (s.mem p).size = bp) :
    (freeBwd s bp p).mem p = ⟨bp, (s.mem p).size⟩ := by
  unfold freeBwd
  rw [if_neg hnb]
  simp

theorem freeCore_mem_other (s : St) (bp p a : Nat) (ha1 : a ≠ bp) (ha2 : a ≠ p) :
    (freeCore s bp p).mem a = s.mem a := by
  show (freeBwd (freeFwd s bp p) bp p).mem a = s.mem a
  rw [freeBwd_mem_other _ _ _ _ ha2, freeFwd_mem_other _ _ _ _ ha1]

theorem freeFwd_mem_p (s : St) (bp p : Nat) (hpbp : p ≠ bp) :
    (freeFwd s bp p).mem p = s.mem p :=
  freeFwd_mem_other s bp p p hpbp

theorem freeCore_mem_bp_fwd (s : St) (bp p : Nat) (hpbp : p ≠ bp)
    (hf : bp + (s.mem bp).size = (s.mem p).ptr) :
    (freeCore s bp p).mem bp =
      ⟨(s.mem ((s.mem p).ptr)).ptr, (s.mem bp).size + (s.mem ((s.mem p).ptr)).size⟩ := by
  show (freeBwd (freeFwd s bp p) bp p).mem bp = _
  rw [freeBwd_mem_other _ _ _ _ (Ne.symm hpbp), freeFwd_mem_bp_pos s bp p hpbp hf]

theorem freeCore_mem_bp_nofwd (s : St) (bp p : Nat) (hpbp : p ≠ bp)
    (hnf : ¬ bp + (s.mem bp).size = (s.mem p).ptr) :
    (freeCore s bp p).mem bp = ⟨(s.mem p).ptr, (s.mem bp).size⟩ := by
  show (freeBwd (freeFwd s bp p) bp p).mem bp = _
  rw [freeBwd_mem_other _ _ _ _ (Ne.symm hpbp), freeFwd_mem_bp_neg s bp p hnf]

theorem freeCore_mem_p_nobwd (s : St) (bp p : Nat) (hpbp : p ≠ bp)
    (hnb : ¬ p + (s.mem p).size = bp) :
    (freeCore s bp p).mem p = ⟨bp, (s.mem p).size⟩ := by
  show (freeBwd (freeFwd s bp p) bp p).mem p = _
  rw [freeBwd_mem_p_neg, freeFwd_mem_p s bp p hpbp]
  rw [freeFwd_mem_p s bp p hpbp]
  exact hnb

theorem freeCore_mem_p_bwd_nofwd (s : St) (bp p : Nat) (hpbp : p ≠ bp)
    (hb : p + (s.mem p).size = bp)
    (hnf : ¬ bp + (s.mem bp).size = (s.mem p).ptr) :
    (freeCore s bp p).mem p =
      ⟨(s.mem p).ptr, (s.mem p).size + (s.mem bp).size⟩ := by
  show (freeBwd (freeFwd s bp p) bp p).mem p = _
  rw [freeBwd_mem_p_pos _ _ _ hpbp, freeFwd_mem_p s bp p hpbp,
    freeFwd_mem_bp_neg s bp p hnf]
  rw [freeFwd_mem_p s bp p hpbp]
  exact hb

theorem freeCore_mem_p_bwd_fwd (s : St) (bp p : Nat) (hpbp : p ≠ bp)
    (hb : p + (s.mem p).size = bp)
    (hf : bp + (s.mem bp).size = (s.mem p).ptr) :
    (freeCore s bp p).mem p =
      ⟨(s.mem ((s.mem p).ptr)).ptr,
        (s.mem p).size + ((s.mem bp).size + (s.mem ((s.mem p).ptr)).size)⟩ := by
  show (freeBwd (freeFwd s bp p) bp p).mem p = _
  rw [freeBwd_mem_p_pos _ _ _ hpbp, freeFwd_mem_p s bp p hpbp,
    freeFwd_mem_bp_pos s bp p hpbp hf]
  rw [freeFwd_mem_p s bp p hpbp]
  exact hb

/-- Only the sizes at bp and p can change across freeCore. -/
theorem freeCore_size_other (s : St) (bp p a : Nat) (ha1 : a ≠ bp) (ha2 : a ≠ p) :
    ((freeCore s bp p).mem a).size = (s.mem a).size := by
  rw [freeCore_mem_other s bp p a ha1 ha2]

/-- Re-head a decomposition of the circle at an arbitrary suffix. -/
theorem head_base {R P Q : List Nat} {b p : Nat} (hC : b :: R = P ++ p :: Q)
    (X : List Nat) : ∃ R', b :: R' = P ++ p :: X := by
  cases P with
  | nil =>
    simp only [List.nil_append, List.cons.injEq] at hC
    exact ⟨X, by rw [hC.1]; rfl⟩
  | cons c P' =>
    simp only [List.cons_append, List.cons.injEq] at hC
    exact ⟨P' ++ p :: X, by rw [hC.1]; rfl⟩

theorem pairwise_extract {r : Nat → Nat → Prop} {P Q : List Nat} {p : Nat}
    (hpw : List.Pairwise r (P ++ p :: Q)) :
    List.Pairwise r P ∧ List.Pairwise r Q ∧ (∀ y ∈ P, r y p) ∧
      (∀ y ∈ P, ∀ z ∈ Q, r y z) ∧ (∀ z ∈ Q, r p z) := by
  rw [List.pairwise_append] at hpw
  obtain ⟨h1, h2, h3⟩ := hpw
  rw [List.pairwise_cons] at h2
  exact ⟨h1, h2.2, fun y hy => h3 y hy p (List.mem_cons_self p Q),
    fun y hy z hz => h3 y hy z (List.mem_cons_of_mem p hz), h2.1⟩

theorem pairwise_build {r : Nat → Nat → Prop} {P X : List Nat} {p : Nat}
    (h1 : List.Pairwise r P) (h2 : List.Pairwise r X)
    (h3 : ∀ y ∈ P, r y p) (h4 : ∀ y ∈ P, ∀ z ∈ X, r y z)
    (h5 : ∀ z ∈ X, r p z) : List.Pairwise r (P ++ p :: X) := by
  rw [List.pairwise_append]
  refine ⟨h1, ?_, ?_⟩
  · rw [List.pairwise_cons]; exact ⟨h5, h2⟩
  · intro a ha b hb
    rcases List.mem_cons.1 hb with rfl | hb'
    · exact h3 a ha
    · exact h4 a ha b hb'

theorem chain_extract {s : St} {P Q : List Nat} {b p : Nat}
    (h : isChain s b (P ++ p :: Q) b) :
    isChain s b P p ∧ isChain s ((s.mem p).ptr) Q b := by
  rw [isChain_append] at h
  obtain ⟨m, h1, h2⟩ := h
  rw [isChain_cons] at h2
  exact ⟨h2.1 ▸ h1, h2.2⟩

theorem chain_build {s : St} {P X : List Nat} {b p : Nat}
    (h1 : isChain s b P p) (h2 : isChain s ((s.mem p).ptr) X b) :
    isChain s b (P ++ p :: X) b := by
  rw [isChain_append]
  exact ⟨p, h1, rfl, h2⟩

/-- A live allocated block's header address never coincides with a
free-list block address. -/
theorem alloc_ne_block {s : St} {R : List Nat} {A : List (Nat × Nat)} (hI : Inv s R A)
    {x : Nat × Nat} (hx : x ∈ A) {b : Nat} (hb : b ∈ s.base :: R) : x.1 ≠ b := by
  rcases List.mem_cons.1 hb with rfl | hb'
  · have := (hI.aRange x hx).2.1
    omega
  · have h1 := hI.aFree x hx b hb'
    have h2 := (hI.aRange x hx).1
    have h3 := hI.size_pos b hb'
    omega

/-- free, case: the freed block is adjacent to neither neighbour.  It
is spliced in between the straddling pair. -/
theorem free_leaf_neither {s : St} {R : List Nat} {A : List (Nat × Nat)} (hI : Inv s R A)
    {bp p : Nat} {P Q : List Nat}
    (hC : s.base :: R = P ++ p :: Q)
    (hsz : 1 ≤ (s.mem bp).size)
    (hbp : s.base < bp)
    (hbrk : bp + (s.mem bp).size ≤ s.brk)
    (hdF : ∀ a ∈ s.base :: R, a + (s.mem a).size ≤ bp ∨ bp + (s.mem bp).size ≤ a)
    (hdA : ∀ x ∈ A, x.1 + x.2 ≤ bp ∨ bp + (s.mem bp).size ≤ x.1)
    (hnotin : bp ∉ s.base :: R)
    (hpbp : p < bp)
    (hPlt : ∀ y ∈ P, y < bp) (hQgt : ∀ y ∈ Q, bp < y)
    (hb : ¬ p + (s.mem p).size = bp)
    (hf : ¬ bp + (s.mem bp).size = (s.mem p).ptr) :
    ∃ R', s.base :: R' = P ++ p :: bp :: Q ∧ Inv (freeCore s bp p) R' A := by
  obtain ⟨R', hshape⟩ := head_base hC (bp :: Q)
  refine ⟨R', hshape, ?_⟩
  have hpbp' : p ≠ bp := Nat.ne_of_lt hpbp
  have hpC : p ∈ s.base :: R := by
    rw [hC]; exact List.mem_append_right P (List.mem_cons_self p Q)
  have hplesz : p + (s.mem p).size ≤ bp := by
    rcases hdF p hpC with h | h
    · exact h
    · omega
  have hndC : (P ++ p :: Q).Nodup := hC ▸ hI.nodup
  have hpnotP : p ∉ P := by
    intro hmem
    exact (List.nodup_append.1 hndC).2.2 hmem (List.mem_cons_self p Q)
  have hmemP : ∀ a ∈ P, a ∈ s.base :: R := fun a ha => by
    rw [hC]; exact List.mem_append_left _ ha
  have hmemQ : ∀ a ∈ Q, a ∈ s.base :: R := fun a ha => by
    rw [hC]; exact List.mem_append_right _ (List.mem_cons_of_mem p ha)
  have hothers : ∀ a, a ∈ P ∨ a ∈ Q → (freeCore s bp p).mem a = s.mem a := by
    intro a ha
    have ha1 : a ≠ bp := by
      intro h; subst h
      exact hnotin (by rcases ha with h | h; exacts [hmemP _ h, hmemQ _ h])
    have ha2 : a ≠ p := by
      rcases ha with h | h
      · intro he; subst he; exact hpnotP h
      · intro he; subst he
        have hnd2 : (a :: Q).Nodup := (List.nodup_append.1 hndC).2.1
        exact (List.nodup_cons.1 hnd2).1 h
    exact freeCore_mem_other s bp p a ha1 ha2
  have hmem_p : (freeCore s bp p).mem p = ⟨bp, (s.mem p).size⟩ :=
    freeCore_mem_p_nobwd s bp p hpbp' hb
  have hmem_bp : (freeCore s bp p).mem bp = ⟨(s.mem p).ptr, (s.mem bp).size⟩ :=
    freeCore_mem_bp_nofwd s bp p hpbp' hf
  obtain ⟨hchP, hchQ⟩ := chain_extract (hC ▸ hI.circ)
  have hchP' : isChain (freeCore s bp p) s.base P p :=
    isChain_congr (fun a ha => by rw [hothers a (Or.inl ha)]) hchP
  have hchQ' : isChain (freeCore s bp p) ((s.mem p).ptr) Q s.base :=
    isChain_congr (fun a ha => by rw [hothers a (Or.inr ha)]) hchQ
  obtain ⟨hgP, hgQ, hgPp, hgPQ, hgpQ⟩ := pairwise_extract (hC ▸ hI.gap)
  have hbpQ : ∀ z ∈ Q, bp + (s.mem bp).size < z := by
    intro z hz
    have hle : bp + (s.mem bp).size ≤ z := by
      rcases hdF z (hmemQ z hz) with h | h
      · have := hQgt z hz; omega
      · exact h
    cases Q with
    | nil => cases hz
    | cons q0 Q' =>
      have hq0 : (s.mem p).ptr = q0 := by
        have := circle_next s (s.base :: R) s.base p P (q0 :: Q') hI.circ hC
        simpa using this
      have hleq0 : bp + (s.mem bp).size ≤ q0 := by
        rcases hdF q0 (hmemQ q0 (List.mem_cons_self q0 Q')) with h | h
        · have := hQgt q0 (List.mem_cons_self q0 Q'); omega
        · exact h
      rw [hq0] at hf
      rcases List.mem_cons.1 hz with rfl | hz'
      · omega
      · have hq0z : q0 + (s.mem q0).size < z := (List.pairwise_cons.1 hgQ).1 z hz'
        omega
  have hg' : List.Pairwise (fun a b => a + (((freeCore s bp p).mem a).size) < b)
      (P ++ p :: (bp :: Q)) := by
    apply pairwise_build
    · exact hgP.imp_of_mem (fun {a b} ha hb' hr => by rw [hothers a (Or.inl ha)]; exact hr)
    · rw [List.pairwise_cons]
      constructor
      · intro z hz; rw [hmem_bp]; exact hbpQ z hz
      · exact hgQ.imp_of_mem (fun {a b} ha hb' hr => by rw [hothers a (Or.inr ha)]; exact hr)
    · intro y hy; rw [hothers y (Or.inl hy)]; exact hgPp y hy
    · intro y hy z hz
      rw [hothers y (Or.inl hy)]
      rcases List.mem_cons.1 hz with rfl | hz'
      · have := hgPp y hy; omega
      · exact hgPQ y hy z hz'
    · intro z hz
      rw [hmem_p]
      rcases List.mem_cons.1 hz with rfl | hz'
      · show p + (s.mem p).size < z; omega
      · show p + (s.mem p).size < z; have := hgpQ z hz'; omega
  have hnd' : (s.base :: R').Nodup := by
    rw [hshape]
    exact (hg'.imp (fun {a b} h => by omega : ∀ {a b : Nat},
      a + (((freeCore s bp p).mem a).size) < b → a ≠ b))
  have hbase_notR' : s.base ∉ R' := (List.nodup_cons.1 hnd').1
  have hclass : ∀ a ∈ R', (a ∈ P ∧ a ≠ s.base) ∨ a = p ∨ a = bp ∨ a ∈ Q := by
    intro a ha
    have haC : a ∈ P ++ p :: bp :: Q := by
      rw [← hshape]; exact List.mem_cons_of_mem _ ha
    have hane : a ≠ s.base := fun he => hbase_notR' (he ▸ ha)
    rcases List.mem_append.1 haC with h | h
    · exact Or.inl ⟨h, hane⟩
    · rcases List.mem_cons.1 h with rfl | h2
      · exact Or.inr (Or.inl rfl)
      rcases List.mem_cons.1 h2 with rfl | h3
      · exact Or.inr (Or.inr (Or.inl rfl))
      · exact Or.inr (Or.inr (Or.inr h3))
  have hPmemR : ∀ a ∈ P, a ≠ s.base → a ∈ R := by
    intro a ha hane
    rcases List.mem_cons.1 (hmemP a ha) with h | h
    · exact absurd h hane
    · exact h
  have hQmemR : ∀ a ∈ Q, a ∈ R := by
    intro a ha
    rcases List.mem_cons.1 (hmemQ a ha) with h | h
    · exfalso; have h1 := hQgt a ha; omega
    · exact h
  refine ⟨?_, ?_, ?_, ?_, ?_, ?_, ?_, ?_, ?_, ?_, ?_, ?_⟩
  · simp only [freeCore_base]
    rw [hshape]
    apply chain_build hchP'
    rw [isChain_cons]
    constructor
    · rw [hmem_p]
    · rw [hmem_bp]; exact hchQ'
  · simp only [freeCore_base]
    rw [hshape]
    exact hg'
  · simp only [freeCore_base]
    by_cases hpb : p = s.base
    · rw [← hpb, hmem_p]
      show (s.mem p).size = 0
      rw [hpb]; exact hI.base_size
    · rw [freeCore_mem_other s bp p s.base (by omega) (fun he => hpb he.symm)]
      exact hI.base_size
  · simp only [freeCore_base]; exact hI.base_pos
  · simp only [freeCore_base, freeCore_brk]; exact hI.base_brk
  · simp only [freeCore_base, freeCore_freep]
    rw [hshape]
    exact List.mem_append_right P (List.mem_cons_self p (bp :: Q))
  · intro a ha
    rcases hclass a ha with ⟨haP, hane⟩ | rfl | rfl | haQ
    · rw [hothers a (Or.inl haP)]; exact hI.size_pos a (hPmemR a haP hane)
    · rw [hmem_p]
      have hne : a ≠ s.base := fun he => hbase_notR' (he ▸ ha)
      have haR : a ∈ R := by
        rcases List.mem_cons.1 hpC with h | h
        · exact absurd h hne
        · exact h
      exact hI.size_pos a haR
    · rw [hmem_bp]; exact hsz
    · rw [hothers a (Or.inr haQ)]; exact hI.size_pos a (hQmemR a haQ)
  · intro a ha
    simp only [freeCore_brk]
    rcases hclass a ha with ⟨haP, hane⟩ | rfl | rfl | haQ
    · rw [hothers a (Or.inl haP)]; exact hI.heap a (hPmemR a haP hane)
    · rw [hmem_p]
      show a + (s.mem a).size ≤ s.brk
      omega
    · rw [hmem_bp]; exact hbrk
    · rw [hothers a (Or.inr haQ)]; exact hI.heap a (hQmemR a haQ)
  · intro x hx
    simp only [freeCore_base, freeCore_brk]
    exact hI.aRange x hx
  · intro x hx
    have hx1 : x.1 ≠ bp := by
      have h1 := hdA x hx
      have h2 := (hI.aRange x hx).1
      omega
    have hx2 : x.1 ≠ p := alloc_ne_block hI hx hpC
    rw [freeCore_mem_other s bp p x.1 hx1 hx2]
    exact hI.aSize x hx
  · intro x hx b hb'
    rcases hclass b hb' with ⟨hbP, hbne⟩ | rfl | rfl | hbQ
    · rw [hothers b (Or.inl hbP)]; exact hI.aFree x hx b (hPmemR b hbP hbne)
    · rw [hmem_p]
      have hne : b ≠ s.base := fun he => hbase_notR' (he ▸ hb')
      have hbR : b ∈ R := by
        rcases List.mem_cons.1 hpC with h | h
        · exact absurd h hne
        · exact h
      exact hI.aFree x hx b hbR
    · rw [hmem_bp]; exact hdA x hx
    · rw [hothers b (Or.inr hbQ)]; exact hI.aFree x hx b (hQmemR b hbQ)
  · exact hI.aPair

/-- free, case: the freed block is adjacent to the next free block
only.  That block is absorbed into the freed one. -/
theorem free_leaf_fwd {s : St} {R : List Nat} {A : List (Nat × Nat)} (hI : Inv s R A)
    {bp p : Nat} {P Q : List Nat}
    (hC : s.base :: R = P ++ p :: Q)
    (hsz : 1 ≤ (s.mem bp).size)
    (hbp : s.base < bp)
    (hbrk : bp + (s.mem bp).size ≤ s.brk)
    (hdF : ∀ a ∈ s.base :: R, a + (s.mem a).size ≤ bp ∨ bp + (s.mem bp).size ≤ a)
    (hdA : ∀ x ∈ A, x.1 + x.2 ≤ bp ∨ bp + (s.mem bp).size ≤ x.1)
    (hnotin : bp ∉ s.base :: R)
    (hpbp : p < bp)
    (hPlt : ∀ y ∈ P, y < bp) (hQgt : ∀ y ∈ Q, bp < y)
    (hb : ¬ p + (s.mem p).size = bp)
    (hf : bp + (s.mem bp).size = (s.mem p).ptr) :
    ∃ R' q0 Q', Q = q0 :: Q' ∧ s.base :: R' = P ++ p :: bp :: Q' ∧
      Inv (freeCore s bp p) R' A := by
  have hqD : (s.mem p).ptr = Q.headD s.base :=
    circle_next s (s.base :: R) s.base p P Q hI.circ hC
  obtain ⟨q0, Q', rfl⟩ : ∃ q0 Q', Q = q0 :: Q' := by
    cases Q with
    | nil =>
      exfalso
      rw [hqD] at hf
      simp only [List.headD_nil] at hf
      omega
    | cons q0 Q' => exact ⟨q0, Q', rfl⟩
  obtain ⟨R', hshape⟩ := head_base hC (bp :: Q')
  refine ⟨R', q0, Q', rfl, hshape, ?_⟩
  have hq0 : (s.mem p).ptr = q0 := by simpa using hqD
  have hfq : bp + (s.mem bp).size = q0 := by rw [hf, hq0]
  have hpbp' : p ≠ bp := Nat.ne_of_lt hpbp
  have hpC : p ∈ s.base :: R := by
    rw [hC]; exact List.mem_append_right P (List.mem_cons_self p _)
  have hq0C : q0 ∈ s.base :: R := by
    rw [hC]
    exact List.mem_append_right P (List.mem_cons_of_mem p (List.mem_cons_self q0 Q'))
  have hq0R : q0 ∈ R := by
    rcases List.mem_cons.1 hq0C with h | h
    · exfalso; have := hQgt q0 (List.mem_cons_self q0 Q'); omega
    · exact h
  have hplesz : p + (s.mem p).size ≤ bp := by
    rcases hdF p hpC with h | h
    · exact h
    · omega
  have hndC : (P ++ p :: q0 :: Q').Nodup := hC ▸ hI.nodup
  have hpnotP : p ∉ P := by
    intro hmem
    exact (List.nodup_append.1 hndC).2.2 hmem (List.mem_cons_self p _)
  have hmemP : ∀ a ∈ P, a ∈ s.base :: R := fun a ha => by
    rw [hC]; exact List.mem_append_left _ ha
  have hmemQ' : ∀ a ∈ Q', a ∈ s.base :: R := fun a ha => by
    rw [hC]
    exact List.mem_append_right _ (List.mem_cons_of_mem p (List.mem_cons_of_mem q0 ha))
  have hothers : ∀ a, a ∈ P ∨ a ∈ Q' → (freeCore s bp p).mem a = s.mem a := by
    intro a ha
    have ha1 : a ≠ bp := by
      intro h; subst h
      exact hnotin (by rcases ha with h | h; exacts [hmemP _ h, hmemQ' _ h])
    have ha2 : a ≠ p := by
      rcases ha with h | h
      · intro he; subst he; exact hpnotP h
      · intro he; subst he
        have hnd2 : (a :: q0 :: Q').Nodup := (List.nodup_append.1 hndC).2.1
        exact (List.nodup_cons.1 hnd2).1 (List.mem_cons_of_mem q0 h)
    exact freeCore_mem_other s bp p a ha1 ha2
  have hmem_p : (freeCore s bp p).mem p = ⟨bp, (s.mem p).size⟩ :=
    freeCore_mem_p_nobwd s bp p hpbp' hb
  have hmem_bp : (freeCore s bp p).mem bp =
      ⟨(s.mem q0).ptr, (s.mem bp).size + (s.mem q0).size⟩ := by
    have := freeCore_mem_bp_fwd s bp p hpbp' hf
    rw [hq0] at this
    exact this
  obtain ⟨hchP, hchQ⟩ := chain_extract (hC ▸ hI.circ)
  rw [hq0, isChain_cons] at hchQ
  have hchQ'0 : isChain s ((s.mem q0).ptr) Q' s.base := hchQ.2
  have hchP' : isChain (freeCore s bp p) s.base P p :=
    isChain_congr (fun a ha => by rw [hothers a (Or.inl ha)]) hchP
  have hchQ'' : isChain (freeCore s bp p) ((s.mem q0).ptr) Q' s.base :=
    isChain_congr (fun a ha => by rw [hothers a (Or.inr ha)]) hchQ'0
  obtain ⟨hgP, hgQ, hgPp, hgPQ, hgpQ⟩ := pairwise_extract (hC ▸ hI.gap)
  have hq0Q' : ∀ z ∈ Q', q0 + (s.mem q0).size < z := (List.pairwise_cons.1 hgQ).1
  have hgQ' : List.Pairwise (fun a b => a + (s.mem a).size < b) Q' :=
    (List.pairwise_cons.1 hgQ).2
  have hg' : List.Pairwise (fun a b => a + (((freeCore s bp p).mem a).size) < b)
      (P ++ p :: (bp :: Q')) := by
    apply pairwise_build
    · exact hgP.imp_of_mem (fun {a b} ha hb' hr => by rw [hothers a (Or.inl ha)]; exact hr)
    · rw [List.pairwise_cons]
      constructor
      · intro z hz
        rw [hmem_bp]
        show bp + ((s.mem bp).size + (s.mem q0).size) < z
        have := hq0Q' z hz
        omega
      · exact hgQ'.imp_of_mem (fun {a b} ha hb' hr => by
          rw [hothers a (Or.inr ha)]; exact hr)
    · intro y hy; rw [hothers y (Or.inl hy)]; exact hgPp y hy
    · intro y hy z hz
      rw [hothers y (Or.inl hy)]
      rcases List.mem_cons.1 hz with rfl | hz'
      · have := hgPp y hy; omega
      · exact hgPQ y hy z (List.mem_cons_of_mem q0 hz')
    · intro z hz
      rw [hmem_p]
      rcases List.mem_cons.1 hz with rfl | hz'
      · show p + (s.mem p).size < z; omega
      · show p + (s.mem p).size < z
        have := hgpQ z (List.mem_cons_of_mem q0 hz')
        omega
  have hnd' : (s.base :: R').Nodup := by
    rw [hshape]
    exact (hg'.imp (fun {a b} h => by omega : ∀ {a b : Nat},
      a + (((freeCore s bp p).mem a).size) < b → a ≠ b))
  have hbase_notR' : s.base ∉ R' := (List.nodup_cons.1 hnd').1
  have hclass : ∀ a ∈ R', (a ∈ P ∧ a ≠ s.base) ∨ a = p ∨ a = bp ∨ a ∈ Q' := by
    intro a ha
    have haC : a ∈ P ++ p :: bp :: Q' := by
      rw [← hshape]; exact List.mem_cons_of_mem _ ha
    have hane : a ≠ s.base := fun he => hbase_notR' (he ▸ ha)
    rcases List.mem_append.1 haC with h | h
    · exact Or.inl ⟨h, hane⟩
    · rcases List.mem_cons.1 h with rfl | h2
      · exact Or.inr (Or.inl rfl)
      rcases List.mem_cons.1 h2 with rfl | h3
      · exact Or.inr (Or.inr (Or.inl rfl))
      · exact Or.inr (Or.inr (Or.inr h3))
  have hPmemR : ∀ a ∈ P, a ≠ s.base → a ∈ R := by
    intro a ha hane
    rcases List.mem_cons.1 (hmemP a ha) with h | h
    · exact absurd h hane
    · exact h
  have hQmemR : ∀ a ∈ Q', a ∈ R := by
    intro a ha
    rcases List.mem_cons.1 (hmemQ' a ha) with h | h
    · exfalso
      have h1 := hQgt a (List.mem_cons_of_mem q0 ha)
      omega
    · exact h
  refine ⟨?_, ?_, ?_, ?_, ?_, ?_, ?_, ?_, ?_, ?_, ?_, ?_⟩
  · simp only [freeCore_base]
    rw [hshape]
    apply chain_build hchP'
    rw [isChain_cons]
    constructor
    · rw [hmem_p]
    · rw [hmem_bp]; exact hchQ''
  · simp only [freeCore_base]
    rw [hshape]
    exact hg'
  · simp only [freeCore_base]
    by_cases hpb : p = s.base
    · rw [← hpb, hmem_p]
      show (s.mem p).size = 0
      rw [hpb]; exact hI.base_size
    · rw [freeCore_mem_other s bp p s.base (by omega) (fun he => hpb he.symm)]
      exact hI.base_size
  · simp only [freeCore_base]; exact hI.base_pos
  · simp only [freeCore_base, freeCore_brk]; exact hI.base_brk
  · simp only [freeCore_base, freeCore_freep]
    rw [hshape]
    exact List.mem_append_right P (List.mem_cons_self p (bp :: Q'))
  · intro a ha
    rcases hclass a ha with ⟨haP, hane⟩ | rfl | rfl | haQ
    · rw [hothers a (Or.inl haP)]; exact hI.size_pos a (hPmemR a haP hane)
    · rw [hmem_p]
      have hne : a ≠ s.base := fun he => hbase_notR' (he ▸ ha)
      have haR : a ∈ R := by
        rcases List.mem_cons.1 hpC with h | h
        · exact absurd h hne
        · exact h
      exact hI.size_pos a haR
    · rw [hmem_bp]
      show 1 ≤ (s.mem a).size + (s.mem q0).size
      omega
    · rw [hothers a (Or.inr haQ)]; exact hI.size_pos a (hQmemR a haQ)
  · intro a ha
    simp only [freeCore_brk]
    rcases hclass a ha with ⟨haP, hane⟩ | rfl | rfl | haQ
    · rw [hothers a (Or.inl haP)]; exact hI.heap a (hPmemR a haP hane)
    · rw [hmem_p]
      show a + (s.mem a).size ≤ s.brk
      omega
    · rw [hmem_bp]
      show a + ((s.mem a).size + (s.mem q0).size) ≤ s.brk
      have := hI.heap q0 hq0R
      omega
    · rw [hothers a (Or.inr haQ)]; exact hI.heap a (hQmemR a haQ)
  · intro x hx
    simp only [freeCore_base, freeCore_brk]
    exact hI.aRange x hx
  · intro x hx
    have hx1 : x.1 ≠ bp := by
      have h1 := hdA x hx
      have h2 := (hI.aRange x hx).1
      omega
    have hx2 : x.1 ≠ p := alloc_ne_block hI hx hpC
    rw [freeCore_mem_other s bp p x.1 hx1 hx2]
    exact hI.aSize x hx
  · intro x hx b hb'
    rcases hclass b hb' with ⟨hbP, hbne⟩ | rfl | rfl | hbQ
    · rw [hothers b (Or.inl hbP)]; exact hI.aFree x hx b (hPmemR b hbP hbne)
    · rw [hmem_p]
      have hne : b ≠ s.base := fun he => hbase_notR' (he ▸ hb')
      have hbR : b ∈ R := by
        rcases List.mem_cons.1 hpC with h | h
        · exact absurd h hne
        · exact h
      exact hI.aFree x hx b hbR
    · rw [hmem_bp]
      show x.1 + x.2 ≤ b ∨ b + ((s.mem b).size + (s.mem q0).size) ≤ x.1
      rcases hdA x hx with h | h
      · exact Or.inl h
      · rcases hI.aFree x hx q0 hq0R with h2 | h2
        · exfalso
          have h3 := (hI.aRange x hx).1
          omega
        · right; omega
    · rw [hothers b (Or.inr hbQ)]; exact hI.aFree x hx b (hQmemR b hbQ)
  · exact hI.aPair

/-- free, case: the freed block is adjacent to its predecessor only.
It is absorbed into the predecessor; the free list keeps the same
block addresses. -/
theorem free_leaf_bwd {s : St} {R : List Nat} {A : List (Nat × Nat)} (hI : Inv s R A)
    {bp p : Nat} {P Q : List Nat}
    (hC : s.base :: R = P ++ p :: Q)
    (hsz : 1 ≤ (s.mem bp).size)
    (hbp : s.base < bp)
    (hbrk : bp + (s.mem bp).size ≤ s.brk)
    (hdF : ∀ a ∈ s.base :: R, a + (s.mem a).size ≤ bp ∨ bp + (s.mem bp).size ≤ a)
    (hdA : ∀ x ∈ A, x.1 + x.2 ≤ bp ∨ bp + (s.mem bp).size ≤ x.1)
    (hnotin : bp ∉ s.base :: R)
    (hpbp : p < bp)
    (hPlt : ∀ y ∈ P, y < bp) (hQgt : ∀ y ∈ Q, bp < y)
    (hb : p + (s.mem p).size = bp)
    (hf : ¬ bp + (s.mem bp).size = (s.mem p).ptr) :
    Inv (freeCore s bp p) R A := by
  have hpbp' : p ≠ bp := Nat.ne_of_lt hpbp
  have hpC : p ∈ s.base :: R := by
    rw [hC]; exact List.mem_append_right P (List.mem_cons_self p Q)
  have hpnotbase : p ≠ s.base := by
    intro he
    have h0 : (s.mem p).size = 0 := by rw [he]; exact hI.base_size
    omega
  have hpR : p ∈ R := by
    rcases List.mem_cons.1 hpC with h | h
    · exact absurd h hpnotbase
    · exact h
  have hndC : (P ++ p :: Q).Nodup := hC ▸ hI.nodup
  have hpnotP : p ∉ P := by
    intro hmem
    exact (List.nodup_append.1 hndC).2.2 hmem (List.mem_cons_self p Q)
  have hmemP : ∀ a ∈ P, a ∈ s.base :: R := fun a ha => by
    rw [hC]; exact List.mem_append_left _ ha
  have hmemQ : ∀ a ∈ Q, a ∈ s.base :: R := fun a ha => by
    rw [hC]; exact List.mem_append_right _ (List.mem_cons_of_mem p ha)
  have hothers : ∀ a, a ∈ P ∨ a ∈ Q → (freeCore s bp p).mem a = s.mem a := by
    intro a ha
    have ha1 : a ≠ bp := by
      intro h; subst h
      exact hnotin (by rcases ha with h | h; exacts [hmemP _ h, hmemQ _ h])
    have ha2 : a ≠ p := by
      rcases ha with h | h
      · intro he; subst he; exact hpnotP h
      · intro he; subst he
        have hnd2 : (a :: Q).Nodup := (List.nodup_append.1 hndC).2.1
        exact (List.nodup_cons.1 hnd2).1 h
    exact freeCore_mem_other s bp p a ha1 ha2
  have hmem_p : (freeCore s bp p).mem p =
      ⟨(s.mem p).ptr, (s.mem p).size + (s.mem bp).size⟩ :=
    freeCore_mem_p_bwd_nofwd s bp p hpbp' hb hf
  obtain ⟨hchP, hchQ⟩ := chain_extract (hC ▸ hI.circ)
  have hchP' : isChain (freeCore s bp p) s.base P p :=
    isChain_congr (fun a ha => by rw [hothers a (Or.inl ha)]) hchP
  have hchQ' : isChain (freeCore s bp p) ((s.mem p).ptr) Q s.base :=
    isChain_congr (fun a ha => by rw [hothers a (Or.inr ha)]) hchQ
  obtain ⟨hgP, hgQ, hgPp, hgPQ, hgpQ⟩ := pairwise_extract (hC ▸ hI.gap)
  have hbpQ : ∀ z ∈ Q, bp + (s.mem bp).size < z := by
    intro z hz
    have hle : bp + (s.mem bp).size ≤ z := by
      rcases hdF z (hmemQ z hz) with h | h
      · have := hQgt z hz; omega
      · exact h
    cases Q with
    | nil => cases hz
    | cons q0 Q' =>
      have hq0 : (s.mem p).ptr = q0 := by
        have := circle_next s (s.base :: R) s.base p P (q0 :: Q') hI.circ hC
        simpa using this
      have hleq0 : bp + (s.mem bp).size ≤ q0 := by
        rcases hdF q0 (hmemQ q0 (List.mem_cons_self q0 Q')) with h | h
        · have := hQgt q0 (List.mem_cons_self q0 Q'); omega
        · exact h
      rw [hq0] at hf
      rcases List.mem_cons.1 hz with rfl | hz'
      · omega
      · have hq0z : q0 + (s.mem q0).size < z := (List.pairwise_cons.1 hgQ).1 z hz'
        omega
  have hg' : List.Pairwise (fun a b => a + (((freeCore s bp p).mem a).size) < b)
      (P ++ p :: Q) := by
    apply pairwise_build
    · exact hgP.imp_of_mem (fun {a b} ha hb' hr => by rw [hothers a (Or.inl ha)]; exact hr)
    · exact hgQ.imp_of_mem (fun {a b} ha hb' hr => by rw [hothers a (Or.inr ha)]; exact hr)
    · intro y hy; rw [hothers y (Or.inl hy)]; exact hgPp y hy
    · intro y hy z hz
      rw [hothers y (Or.inl hy)]
      exact hgPQ y hy z hz
    · intro z hz
      rw [hmem_p]
      show p + ((s.mem p).size + (s.mem bp).size) < z
      have := hbpQ z hz
      omega
  refine ⟨?_, ?_, ?_, ?_, ?_, ?_, ?_, ?_, ?_, ?_, ?_, ?_⟩
  · simp only [freeCore_base]
    rw [hC]
    apply chain_build hchP'
    rw [hmem_p]
    exact hchQ'
  · simp only [freeCore_base]
    rw [hC]
    exact hg'
  · simp only [freeCore_base]
    rw [freeCore_mem_other s bp p s.base (by omega) (fun he => hpnotbase he.symm)]
    exact hI.base_size
  · simp only [freeCore_base]; exact hI.base_pos
  · simp only [freeCore_base, freeCore_brk]; exact hI.base_brk
  · simp only [freeCore_base, freeCore_freep]
    exact hpC
  · intro a ha
    have haC : a ∈ P ++ p :: Q := by rw [← hC]; exact List.mem_cons_of_mem _ ha
    rcases List.mem_append.1 haC with h | h
    · rw [hothers a (Or.inl h)]
      exact hI.size_pos a ha
    · rcases List.mem_cons.1 h with rfl | h2
      · rw [hmem_p]
        show 1 ≤ (s.mem a).size + (s.mem bp).size
        omega
      · rw [hothers a (Or.inr h2)]
        exact hI.size_pos a ha
  · intro a ha
    simp only [freeCore_brk]
    have haC : a ∈ P ++ p :: Q := by rw [← hC]; exact List.mem_cons_of_mem _ ha
    rcases List.mem_append.1 haC with h | h
    · rw [hothers a (Or.inl h)]
      exact hI.heap a ha
    · rcases List.mem_cons.1 h with rfl | h2
      · rw [hmem_p]
        show a + ((s.mem a).size + (s.mem bp).size) ≤ s.brk
        omega
      · rw [hothers a (Or.inr h2)]
        exact hI.heap a ha
  · intro x hx
    simp only [freeCore_base, freeCore_brk]
    exact hI.aRange x hx
  · intro x hx
    have hx1 : x.1 ≠ bp := by
      have h1 := hdA x hx
      have h2 := (hI.aRange x hx).1
      omega
    have hx2 : x.1 ≠ p := alloc_ne_block hI hx hpC
    rw [freeCore_mem_other s bp p x.1 hx1 hx2]
    exact hI.aSize x hx
  · intro x hx b hb'
    have hbC : b ∈ P ++ p :: Q := by rw [← hC]; exact List.mem_cons_of_mem _ hb'
    rcases List.mem_append.1 hbC with h | h
    · rw [hothers b (Or.inl h)]
      exact hI.aFree x hx b hb'
    · rcases List.mem_cons.1 h with rfl | h2
      · rw [hmem_p]
        show x.1 + x.2 ≤ b ∨ b + ((s.mem b).size + (s.mem bp).size) ≤ x.1
        rcases hI.aFree x hx b hb' with h3 | h3
        · exact Or.inl h3
        · rcases hdA x hx with h4 | h4
          · exfalso
            have h5 := (hI.aRange x hx).1
            omega
          · right; omega
      · rw [hothers b (Or.inr h2)]
        exact hI.aFree x hx b hb'
  · exact hI.aPair

/-- free, case: the freed block is adjacent to both neighbours.  All
three coalesce into the predecessor. -/
theorem free_leaf_both {s : St} {R : List Nat} {A : List (Nat × Nat)} (hI : Inv s R A)
    {bp p : Nat} {P Q : List Nat}
    (hC : s.base :: R = P ++ p :: Q)
    (hsz : 1 ≤ (s.mem bp).size)
    (hbp : s.base < bp)
    (hbrk : bp + (s.mem bp).size ≤ s.brk)
    (hdF : ∀ a ∈ s.base :: R, a + (s.mem a).size ≤ bp ∨ bp + (s.mem bp).size ≤ a)
    (hdA : ∀ x ∈ A, x.1 + x.2 ≤ bp ∨ bp + (s.mem bp).size ≤ x.1)
    (hnotin : bp ∉ s.base :: R)
    (hpbp : p < bp)
    (hPlt : ∀ y ∈ P, y < bp) (hQgt : ∀ y ∈ Q, bp < y)
    (hb : p + (s.mem p).size = bp)
    (hf : bp + (s.mem bp).size = (s.mem p).ptr) :
    ∃ R' q0 Q', Q = q0 :: Q' ∧ s.base :: R' = P ++ p :: Q' ∧
      Inv (freeCore s bp p) R' A := by
  have hqD : (s.mem p).ptr = Q.headD s.base :=
    circle_next s (s.base :: R) s.base p P Q hI.circ hC
  obtain ⟨q0, Q', rfl⟩ : ∃ q0 Q', Q = q0 :: Q' := by
    cases Q with
    | nil =>
      exfalso
      rw [hqD] at hf
      simp only [List.headD_nil] at hf
      omega
    | cons q0 Q' => exact ⟨q0, Q', rfl⟩
  obtain ⟨R', hshape⟩ := head_base hC Q'
  refine ⟨R', q0, Q', rfl, hshape, ?_⟩
  have hq0 : (s.mem p).ptr = q0 := by simpa using hqD
  have hfq : bp + (s.mem bp).size = q0 := by rw [hf, hq0]
  have hpbp' : p ≠ bp := Nat.ne_of_lt hpbp
  have hpC : p ∈ s.base :: R := by
    rw [hC]; exact List.mem_append_right P (List.mem_cons_self p _)
  have hpnotbase : p ≠ s.base := by
    intro he
    have h0 : (s.mem p).size = 0 := by rw [he]; exact hI.base_size
    omega
  have hpR : p ∈ R := by
    rcases List.mem_cons.1 hpC with h | h
    · exact absurd h hpnotbase
    · exact h
  have hq0C : q0 ∈ s.base :: R := by
    rw [hC]
    exact List.mem_append_right P (List.mem_cons_of_mem p (List.mem_cons_self q0 Q'))
  have hq0R : q0 ∈ R := by
    rcases List.mem_cons.1 hq0C with h | h
    · exfalso; have := hQgt q0 (List.mem_cons_self q0 Q'); omega
    · exact h
  have hndC : (P ++ p :: q0 :: Q').Nodup := hC ▸ hI.nodup
  have hpnotP : p ∉ P := by
    intro hmem
    exact (List.nodup_append.1 hndC).2.2 hmem (List.mem_cons_self p _)
  have hmemP : ∀ a ∈ P, a ∈ s.base :: R := fun a ha => by
    rw [hC]; exact List.mem_append_left _ ha
  have hmemQ' : ∀ a ∈ Q', a ∈ s.base :: R := fun a ha => by
    rw [hC]
    exact List.mem_append_right _ (List.mem_cons_of_mem p (List.mem_cons_of_mem q0 ha))
  have hothers : ∀ a, a ∈ P ∨ a ∈ Q' → (freeCore s bp p).mem a = s.mem a := by
    intro a ha
    have ha1 : a ≠ bp := by
      intro h; subst h
      exact hnotin (by rcases ha with h | h; exacts [hmemP _ h, hmemQ' _ h])
    have ha2 : a ≠ p := by
      rcases ha with h | h
      · intro he; subst he; exact hpnotP h
      · intro he; subst he
        have hnd2 : (a :: q0 :: Q').Nodup := (List.nodup_append.1 hndC).2.1
        exact (List.nodup_cons.1 hnd2).1 (List.mem_cons_of_mem q0 h)
    exact freeCore_mem_other s bp p a ha1 ha2
  have hmem_p : (freeCore s bp p).mem p =
      ⟨(s.mem q0).ptr, (s.mem p).size + ((s.mem bp).size + (s.mem q0).size)⟩ := by
    have := freeCore_mem_p_bwd_fwd s bp p hpbp' hb hf
    rw [hq0] at this
    exact this
  obtain ⟨hchP, hchQ⟩ := chain_extract (hC ▸ hI.circ)
  rw [hq0, isChain_cons] at hchQ
  have hchQ'0 : isChain s ((s.mem q0).ptr) Q' s.base := hchQ.2
  have hchP' : isChain (freeCore s bp p) s.base P p :=
    isChain_congr (fun a ha => by rw [hothers a (Or.inl ha)]) hchP
  have hchQ'' : isChain (freeCore s bp p) ((s.mem q0).ptr) Q' s.base :=
    isChain_congr (fun a ha => by rw [hothers a (Or.inr ha)]) hchQ'0
  obtain ⟨hgP, hgQ, hgPp, hgPQ, hgpQ⟩ := pairwise_extract (hC ▸ hI.gap)
  have hq0Q' : ∀ z ∈ Q', q0 + (s.mem q0).size < z := (List.pairwise_cons.1 hgQ).1
  have hgQ' : List.Pairwise (fun a b => a + (s.mem a).size < b) Q' :=
    (List.pairwise_cons.1 hgQ).2
  have hg' : List.Pairwise (fun a b => a + (((freeCore s bp p).mem a).size) < b)
      (P ++ p :: Q') := by
    apply pairwise_build
    · exact hgP.imp_of_mem (fun {a b} ha hb' hr => by rw [hothers a (Or.inl ha)]; exact hr)
    · exact hgQ'.imp_of_mem (fun {a b} ha hb' hr => by rw [hothers a (Or.inr ha)]; exact hr)
    · intro y hy; rw [hothers y (Or.inl hy)]; exact hgPp y hy
    · intro y hy z hz
      rw [hothers y (Or.inl hy)]
      exact hgPQ y hy z (List.mem_cons_of_mem q0 hz)
    · intro z hz
      rw [hmem_p]
      show p + ((s.mem p).size + ((s.mem bp).size + (s.mem q0).size)) < z
      have := hq0Q' z hz
      omega
  have hnd' : (s.base :: R').Nodup := by
    rw [hshape]
    exact (hg'.imp (fun {a b} h => by omega : ∀ {a b : Nat},
      a + (((freeCore s bp p).mem a).size) < b → a ≠ b))
  have hbase_notR' : s.base ∉ R' := (List.nodup_cons.1 hnd').1
  have hclass : ∀ a ∈ R', (a ∈ P ∧ a ≠ s.base) ∨ a = p ∨ a ∈ Q' := by
    intro a ha
    have haC : a ∈ P ++ p :: Q' := by
      rw [← hshape]; exact List.mem_cons_of_mem _ ha
    have hane : a ≠ s.base := fun he => hbase_notR' (he ▸ ha)
    rcases List.mem_append.1 haC with h | h
    · exact Or.inl ⟨h, hane⟩
    · rcases List.mem_cons.1 h with rfl | h2
      · exact Or.inr (Or.inl rfl)
      · exact Or.inr (Or.inr h2)
  have hPmemR : ∀ a ∈ P, a ≠ s.base → a ∈ R := by
    intro a ha hane
    rcases List.mem_cons.1 (hmemP a ha) with h | h
    · exact absurd h hane
    · exact h
  have hQmemR : ∀ a ∈ Q', a ∈ R := by
    intro a ha
    rcases List.mem_cons.1 (hmemQ' a ha) with h | h
    · exfalso
      have h1 := hQgt a (List.mem_cons_of_mem q0 ha)
      omega
    · exact h
  refine ⟨?_, ?_, ?_, ?_, ?_, ?_, ?_, ?_, ?_, ?_, ?_, ?_⟩
  · simp only [freeCore_base]
    rw [hshape]
    apply chain_build hchP'
    rw [hmem_p]
    exact hchQ''
  · simp only [freeCore_base]
    rw [hshape]
    exact hg'
  · simp only [freeCore_base]
    rw [freeCore_mem_other s bp p s.base (by omega) (fun he => hpnotbase he.symm)]
    exact hI.base_size
  · simp only [freeCore_base]; exact hI.base_pos
  · simp only [freeCore_base, freeCore_brk]; exact hI.base_brk
  · simp only [freeCore_base, freeCore_freep]
    rw [hshape]
    exact List.mem_append_right P (List.mem_cons_self p Q')
  · intro a ha
    rcases hclass a ha with ⟨haP, hane⟩ | rfl | haQ
    · rw [hothers a (Or.inl haP)]; exact hI.size_pos a (hPmemR a haP hane)
    · rw [hmem_p]
      show 1 ≤ (s.mem a).size + ((s.mem bp).size + (s.mem q0).size)
      omega
    · rw [hothers a (Or.inr haQ)]; exact hI.size_pos a (hQmemR a haQ)
  · intro a ha
    simp only [freeCore_brk]
    rcases hclass a ha with ⟨haP, hane⟩ | rfl | haQ
    · rw [hothers a (Or.inl haP)]; exact hI.heap a (hPmemR a haP hane)
    · rw [hmem_p]
      show a + ((s.mem a).size + ((s.mem bp).size + (s.mem q0).size)) ≤ s.brk
      have := hI.heap q0 hq0R
      omega
    · rw [hothers a (Or.inr haQ)]; exact hI.heap a (hQmemR a haQ)
  · intro x hx
    simp only [freeCore_base, freeCore_brk]
    exact hI.aRange x hx
  · intro x hx
    have hx1 : x.1 ≠ bp := by
      have h1 := hdA x hx
      have h2 := (hI.aRange x hx).1
      omega
    have hx2 : x.1 ≠ p := alloc_ne_block hI hx hpC
    rw [freeCore_mem_other s bp p x.1 hx1 hx2]
    exact hI.aSize x hx
  · intro x hx b hb'
    rcases hclass b hb' with ⟨hbP, hbne⟩ | rfl | hbQ
    · rw [hothers b (Or.inl hbP)]; exact hI.aFree x hx b (hPmemR b hbP hbne)
    · rw [hmem_p]
      show x.1 + x.2 ≤ b ∨ b + ((s.mem b).size + ((s.mem bp).size + (s.mem q0).size)) ≤ x.1
      rcases hI.aFree x hx b hpR with h3 | h3
      · exact Or.inl h3
      · rcases hI.aFree x hx q0 hq0R with h4 | h4
        · exfalso
          have h5 := (hI.aRange x hx).1
          rcases hdA x hx with h6 | h6 <;> omega
        · right; omega
    · rw [hothers b (Or.inr hbQ)]; exact hI.aFree x hx b (hQmemR b hbQ)
  · exact hI.aPair

/-- Main specification of free: on a block disjoint from the free list
and the live allocations, free terminates within one traversal, splices
or coalesces the block at the unique straddling position, preserves the
invariant, and leaves a block at least as large as the freed one. -/
theorem free_spec {s : St} {R : List Nat} {A : List (Nat × Nat)} (hI : Inv s R A)
    {bp : Nat}
    (hsz : 1 ≤ (s.mem bp).size)
    (hbp : s.base < bp)
    (hbrk : bp + (s.mem bp).size ≤ s.brk)
    (hdF : ∀ a ∈ s.base :: R, a + (s.mem a).size ≤ bp ∨ bp + (s.mem bp).size ≤ a)
    (hdA : ∀ x ∈ A, x.1 + x.2 ≤ bp ∨ bp + (s.mem bp).size ≤ x.1)
    (F : Nat) (hF : R.length + 1 ≤ F) :
    ∃ p R',
      free s (bp + 1) F = some (freeCore s bp p) ∧
      p ∈ s.base :: R ∧ p < bp ∧ (∀ y ∈ s.base :: R, y < bp → y ≤ p) ∧
      Inv (freeCore s bp p) R' A ∧
      (∀ y, y ∈ s.base :: R' ↔
        ((y ∈ s.base :: R ∧ (bp + (s.mem bp).size = (s.mem p).ptr → y ≠ (s.mem p).ptr))
          ∨ (¬ p + (s.mem p).size = bp ∧ y = bp))) ∧
      (∃ b ∈ s.base :: R', (s.mem bp).size ≤ ((freeCore s bp p).mem b).size) ∧
      (p + (s.mem p).size = bp → ¬ bp + (s.mem bp).size = (s.mem p).ptr → R' = R) := by
  have hnot : bp ∉ s.base :: R := by
    intro hmem
    rcases hdF bp hmem with h | h <;> omega
  obtain ⟨p, P, Q, hfs, hC, hpx, hPlt, hQgt⟩ := findSpot_main hI hbp hnot F hF
  have hfree : free s (bp + 1) F = some (freeCore s bp p) := by
    unfold free
    have : bp + 1 - 1 = bp := by omega
    rw [this, hfs]
    rfl
  have hpC : p ∈ s.base :: R := by
    rw [hC]; exact List.mem_append_right P (List.mem_cons_self p Q)
  have hmax : ∀ y ∈ s.base :: R, y < bp → y ≤ p := by
    intro y hy hylt
    have hy' : y ∈ P ++ p :: Q := hC ▸ hy
    rcases List.mem_append.1 hy' with h | h
    · exact Nat.le_of_lt (sorted_rel_earlier hI.sorted hC y h)
    · rcases List.mem_cons.1 h with rfl | h2
      · exact Nat.le_refl y
      · exfalso; have := hQgt y h2; omega
  have hndC : (P ++ p :: Q).Nodup := hC ▸ hI.nodup
  by_cases hb : p + (s.mem p).size = bp
  · by_cases hf : bp + (s.mem bp).size = (s.mem p).ptr
    · -- both merges
      obtain ⟨R', q0, Q', hQeq, hshape, hInv'⟩ :=
        free_leaf_both hI hC hsz hbp hbrk hdF hdA hnot hpx hPlt hQgt hb hf
      subst hQeq
      have hq0 : (s.mem p).ptr = q0 := by
        have := circle_next s (s.base :: R) s.base p P (q0 :: Q') hI.circ hC
        simpa using this
      have hq0notP : q0 ∉ P := by
        intro hmem
        exact (List.nodup_append.1 hndC).2.2 hmem
          (List.mem_cons_of_mem p (List.mem_cons_self q0 Q'))
      have hpq0 : p ≠ q0 := by
        have hnd2 : (p :: q0 :: Q').Nodup := (List.nodup_append.1 hndC).2.1
        intro he
        exact (List.nodup_cons.1 hnd2).1 (he ▸ List.mem_cons_self q0 Q')
      have hq0notQ' : q0 ∉ Q' := by
        have hnd2 : (p :: q0 :: Q').Nodup := (List.nodup_append.1 hndC).2.1
        exact (List.nodup_cons.1 (List.nodup_cons.1 hnd2).2).1
      refine ⟨p, R', hfree, hpC, hpx, hmax, hInv', ?_, ?_, ?_⟩
      · intro y
        rw [hshape, hC, hq0]
        simp only [List.mem_append, List.mem_cons]
        constructor
        · rintro (h | rfl | h)
          · exact Or.inl ⟨Or.inl h, fun _ he => hq0notP (he ▸ h)⟩
          · exact Or.inl ⟨Or.inr (Or.inl rfl), fun _ he => hpq0 he⟩
          · exact Or.inl ⟨Or.inr (Or.inr (Or.inr h)), fun _ he => hq0notQ' (he ▸ h)⟩
        · rintro (⟨h1, h2⟩ | ⟨h1, rfl⟩)
          · rcases h1 with h | h | h | h
            · exact Or.inl h
            · exact Or.inr (Or.inl h)
            · exact absurd h (h2 (by rw [← hq0]; exact hf))
            · exact Or.inr (Or.inr h)
          · exact absurd hb h1
      · refine ⟨p, ?_, ?_⟩
        · rw [hshape]; exact List.mem_append_right P (List.mem_cons_self p Q')
        · rw [freeCore_mem_p_bwd_fwd s bp p (Nat.ne_of_lt hpx) hb hf]
          show (s.mem bp).size ≤
            (s.mem p).size + ((s.mem bp).size + (s.mem ((s.mem p).ptr)).size)
          omega
      · intro _ hnf
        exact absurd hf hnf
    · -- backward merge only
      have hInv' := free_leaf_bwd hI hC hsz hbp hbrk hdF hdA hnot hpx hPlt hQgt hb hf
      refine ⟨p, R, hfree, hpC, hpx, hmax, hInv', ?_, ?_, fun _ _ => rfl⟩
      · intro y
        constructor
        · intro h
          exact Or.inl ⟨h, fun hfwd => absurd hfwd hf⟩
        · rintro (⟨h1, -⟩ | ⟨h1, rfl⟩)
          · exact h1
          · exact absurd hb h1
      · refine ⟨p, hpC, ?_⟩
        rw [freeCore_mem_p_bwd_nofwd s bp p (Nat.ne_of_lt hpx) hb hf]
        show (s.mem bp).size ≤ (s.mem p).size + (s.mem bp).size
        omega
  · by_cases hf : bp + (s.mem bp).size = (s.mem p).ptr
    · -- forward merge only
      obtain ⟨R', q0, Q', hQeq, hshape, hInv'⟩ :=
        free_leaf_fwd hI hC hsz hbp hbrk hdF hdA hnot hpx hPlt hQgt hb hf
      subst hQeq
      have hq0 : (s.mem p).ptr = q0 := by
        have := circle_next s (s.base :: R) s.base p P (q0 :: Q') hI.circ hC
        simpa using this
      have hq0notP : q0 ∉ P := by
        intro hmem
        exact (List.nodup_append.1 hndC).2.2 hmem
          (List.mem_cons_of_mem p (List.mem_cons_self q0 Q'))
      have hpq0 : p ≠ q0 := by
        have hnd2 : (p :: q0 :: Q').Nodup := (List.nodup_append.1 hndC).2.1
        intro he
        exact (List.nodup_cons.1 hnd2).1 (he ▸ List.mem_cons_self q0 Q')
      have hq0notQ' : q0 ∉ Q' := by
        have hnd2 : (p :: q0 :: Q').Nodup := (List.nodup_append.1 hndC).2.1
        exact (List.nodup_cons.1 (List.nodup_cons.1 hnd2).2).1
      have hbpq0 : bp ≠ q0 := by
        intro he
        exact hnot (he ▸ (by
          rw [hC]
          exact List.mem_append_right P (List.mem_cons_of_mem p (List.mem_cons_self q0 Q'))))
      refine ⟨p, R', hfree, hpC, hpx, hmax, hInv', ?_, ?_, ?_⟩
      · intro y
        rw [hshape, hC, hq0]
        simp only [List.mem_append, List.mem_cons]
        constructor
        · rintro (h | rfl | rfl | h)
          · exact Or.inl ⟨Or.inl h, fun _ he => hq0notP (he ▸ h)⟩
          · exact Or.inl ⟨Or.inr (Or.inl rfl), fun _ he => hpq0 he⟩
          · exact Or.inr ⟨hb, rfl⟩
          · exact Or.inl ⟨Or.inr (Or.inr (Or.inr h)), fun _ he => hq0notQ' (he ▸ h)⟩
        · rintro (⟨h1, h2⟩ | ⟨-, rfl⟩)
          · rcases h1 with h | h | h | h
            · exact Or.inl h
            · exact Or.inr (Or.inl h)
            · exact absurd h (h2 (by rw [← hq0]; exact hf))
            · exact Or.inr (Or.inr (Or.inr h))
          · exact Or.inr (Or.inr (Or.inl rfl))
      · refine ⟨bp, ?_, ?_⟩
        · rw [hshape]
          exact List.mem_append_right P (List.mem_cons_of_mem p (List.mem_cons_self bp Q'))
        · rw [freeCore_mem_bp_fwd s bp p (Nat.ne_of_lt hpx) hf]
          show (s.mem bp).size ≤ (s.mem bp).size + (s.mem ((s.mem p).ptr)).size
          omega
      · intro hbwd _
        exact absurd hbwd hb
    · -- no merge
      obtain ⟨R', hshape, hInv'⟩ :=
        free_leaf_neither hI hC hsz hbp hbrk hdF hdA hnot hpx hPlt hQgt hb hf
      refine ⟨p, R', hfree, hpC, hpx, hmax, hInv', ?_, ?_, ?_⟩
      · intro y
        rw [hshape, hC]
        simp only [List.mem_append, List.mem_cons]
        constructor
        · rintro (h | rfl | rfl | h)
          · exact Or.inl ⟨Or.inl h, fun hfwd => absurd hfwd hf⟩
          · exact Or.inl ⟨Or.inr (Or.inl rfl), fun hfwd => absurd hfwd hf⟩
          · exact Or.inr ⟨hb, rfl⟩
          · exact Or.inl ⟨Or.inr (Or.inr h), fun hfwd => absurd hfwd hf⟩
        · rintro (⟨h1, -⟩ | ⟨-, rfl⟩)
          · rcases h1 with h | h | h
            · exact Or.inl h
            · exact Or.inr (Or.inl h)
            · exact Or.inr (Or.inr (Or.inr h))
          · exact Or.inr (Or.inr (Or.inl rfl))
      · refine ⟨bp, ?_, ?_⟩
        · rw [hshape]
          exact List.mem_append_right P (List.mem_cons_of_mem p (List.mem_cons_self bp Q))
        · rw [freeCore_mem_bp_nofwd s bp p (Nat.ne_of_lt hpx) hf]
      · intro hbwd _
        exact absurd hbwd hb

/-! ### The malloc search loop -/

theorem mallocLoop_exact {n f : Nat} {s : St} {pv p : Nat}
    (hfit : n ≤ (s.mem p).size) (heq : (s.mem p).size = n) :
    mallocLoop n (f + 1) s pv p =
      some ({ setPtr s pv ((s.mem p).ptr) with freep := pv }, p + 1) := by
  unfold mallocLoop
  rw [if_pos hfit, if_pos heq]

theorem mallocLoop_split {n f : Nat} {s : St} {pv p : Nat}
    (hfit : n ≤ (s.mem p).size) (hne : ¬ (s.mem p).size = n) :
    mallocLoop n (f + 1) s pv p =
      some ({ setSize (setSize s p ((s.mem p).size - n))
                (p + ((s.mem p).size - n)) n with freep := pv },
            p + ((s.mem p).size - n) + 1) := by
  unfold mallocLoop
  rw [if_pos hfit, if_neg hne]
  simp

theorem mallocLoop_nofit {n f : Nat} {s : St} {pv p : Nat}
    (hnf : ¬ n ≤ (s.mem p).size) (hnp : ¬ p = s.freep) :
    mallocLoop n (f + 1) s pv p = mallocLoop n f s p ((s.mem p).ptr) := by
  conv_lhs => rw [mallocLoop]
  rw [if_neg hnf, if_neg hnp]

theorem mallocLoop_grow {n f : Nat} {s : St} {pv p : Nat}
    (hnf : ¬ n ≤ (s.mem p).size) (hp : p = s.freep) :
    mallocLoop n (f + 1) s pv p =
      match morecore s n f with
      | none => none
      | some (s', pN) =>
        if pN = 0 then some (s', 0)
        else mallocLoop n f s' pN ((s'.mem pN).ptr) := by
  conv_lhs => rw [mallocLoop]
  rw [if_neg hnf, if_pos hp]

theorem free_mono {s : St} {ap f f' : Nat} {x : St}
    (h : free s ap f = some x) (hle : f ≤ f') : free s ap f' = some x := by
  unfold free at h ⊢
  cases hfs : findSpot s (ap - 1) f s.freep with
  | none => rw [hfs] at h; cases h
  | some p =>
    rw [hfs] at h
    rw [findSpot_mono s (ap - 1) f f' s.freep p hfs hle]
    exact h

theorem morecore_mono {s : St} {n f f' : Nat} {x : St × Nat}
    (h : morecore s n f = some x) (hle : f ≤ f') : morecore s n f' = some x := by
  unfold morecore at h ⊢
  dsimp only at h ⊢
  cases hsb : sbrk s (if n < 4096 then 4096 else n) with
  | none => rw [hsb] at h; exact h
  | some y =>
    rw [hsb] at h
    obtain ⟨s1, p⟩ := y
    simp only at h ⊢
    cases hfr : free (setSize s1 p (if n < 4096 then 4096 else n)) (p + 1) f with
    | none => rw [hfr] at h; cases h
    | some s3 =>
      rw [hfr] at h
      rw [free_mono hfr hle]
      exact h

theorem mallocLoop_mono {n : Nat} :
    ∀ (f : Nat) {f' : Nat} {s : St} {pv p : Nat} {x : St × Nat},
      mallocLoop n f s pv p = some x → f ≤ f' →
      mallocLoop n f' s pv p = some x := by
  intro f
  induction f with
  | zero => intro f' s pv p x h; cases h
  | succ g ih =>
    intro f' s pv p x h hle
    obtain ⟨g', rfl⟩ : ∃ g', f' = g' + 1 := ⟨f' - 1, by omega⟩
    by_cases hfit : n ≤ (s.mem p).size
    · by_cases heq : (s.mem p).size = n
      · rw [mallocLoop_exact hfit heq] at h ⊢; exact h
      · rw [mallocLoop_split hfit heq] at h ⊢; exact h
    · by_cases hp : p = s.freep
      · rw [mallocLoop_grow hfit hp] at h ⊢
        cases hm : morecore s n g with
        | none => rw [hm] at h; cases h
        | some y =>
          rw [hm] at h
          rw [morecore_mono hm (by omega)]
          obtain ⟨s2, pN⟩ := y
          simp only at h ⊢
          by_cases hz : pN = 0
          · rw [if_pos hz] at h ⊢; exact h
          · rw [if_neg hz] at h ⊢
            exact ih h (by omega)
      · rw [mallocLoop_nofit hfit hp] at h ⊢
        exact ih h (by omega)

theorem mallocLoop_skip {n : Nat} {s : St} :
    ∀ (V : List Nat) (pv p r f : Nat), isChain s p V r →
      (∀ x ∈ V, (s.mem x).size < n) → (∀ x ∈ V, x ≠ s.freep) →
      mallocLoop n (V.length + f) s pv p = mallocLoop n f s (V.getLastD pv) r := by
  intro V
  induction V with
  | nil =>
    intro pv p r f h _ _
    cases h
    simp [List.getLastD]
  | cons a W ih =>
    intro pv p r f h hsz hnp
    rw [isChain_cons] at h
    obtain ⟨rfl, hrest⟩ := h
    have hlen : W.length + f + 1 = (p :: W).length + f := by
      simp [Nat.add_comm, Nat.add_assoc]
    rw [← hlen, mallocLoop_nofit
      (by have := hsz p (List.mem_cons_self p W); omega)
      (hnp p (List.mem_cons_self p W))]
    rw [ih p ((s.mem p).ptr) r f hrest
      (fun x hx => hsz x (List.mem_cons_of_mem p hx))
      (fun x hx => hnp x (List.mem_cons_of_mem p hx))]
    rw [List.getLastD_cons]

/-- Any two distinct blocks of the free list occupy disjoint address
ranges. -/
theorem Inv.block_disjoint {s : St} {R : List Nat} {A : List (Nat × Nat)} (hI : Inv s R A)
    {a b : Nat} (ha : a ∈ s.base :: R) (hb : b ∈ s.base :: R) (hne : a ≠ b) :
    a + (s.mem a).size ≤ b ∨ b + (s.mem b).size ≤ a := by
  have hpw : List.Pairwise
      (fun x y => x + (s.mem x).size ≤ y ∨ y + (s.mem y).size ≤ x) (s.base :: R) :=
    hI.gap.imp (fun {x y} h => Or.inl (Nat.le_of_lt h))
  have hsym : Symmetric (fun x y => x + (s.mem x).size ≤ y ∨ y + (s.mem y).size ≤ x) :=
    fun x y h => h.symm
  exact hpw.forall hsym ha hb hne

/-- Invariant preservation for malloc's exact-fit branch: the block at
p (linked from pv) is unlinked whole and handed to the caller. -/
theorem alloc_exact_inv {s : St} {R : List Nat} {A : List (Nat × Nat)} (hI : Inv s R A)
    {pv p n : Nat}
    (hn : 1 ≤ n) (hpv : pv ∈ s.base :: R) (hlink : (s.mem pv).ptr = p)
    (hfit : (s.mem p).size = n) :
    Inv { setPtr s pv ((s.mem p).ptr) with freep := pv } (R.erase p) ((p, n) :: A) ∧
      p ∈ R ∧ s.base < p := by
  have hpmem : p ∈ s.base :: R := hlink ▸ hI.ptr_mem pv hpv
  have hpnb : p ≠ s.base := by
    intro he
    have h0 := hI.base_size
    rw [← he] at h0
    omega
  have hpR : p ∈ R := by
    rcases List.mem_cons.1 hpmem with h | h
    · exact absurd h hpnb
    · exact h
  have hbasep : s.base < p := hI.base_lt p hpR
  have hpvp : pv ≠ p := by
    intro he
    have := isChain_no_selfloop s (s.base :: R) s.base p hI.circ hI.nodup hpmem hpnb
    rw [he] at hlink
    exact this hlink
  obtain ⟨U, W, hU⟩ := List.append_of_mem hpv
  have hnext : (s.mem pv).ptr = W.headD s.base :=
    circle_next s (s.base :: R) s.base pv U W hI.circ hU
  obtain ⟨W', hU2⟩ : ∃ W', s.base :: R = U ++ pv :: p :: W' := by
    cases W with
    | nil =>
      exfalso
      rw [hlink] at hnext
      simp only [List.headD_nil] at hnext
      exact hpnb hnext
    | cons w W' =>
      rw [hlink] at hnext
      simp only [List.headD_cons] at hnext
      exact ⟨W', by rw [hU, ← hnext]⟩
  have hnd : (U ++ pv :: p :: W').Nodup := hU2 ▸ hI.nodup
  have hpnotU : p ∉ U := by
    intro hmem
    exact (List.nodup_append.1 hnd).2.2 hmem
      (List.mem_cons_of_mem pv (List.mem_cons_self p W'))
  have hpvnotU : pv ∉ U := by
    intro hmem
    exact (List.nodup_append.1 hnd).2.2 hmem (List.mem_cons_self pv _)
  have hpvnotW' : pv ∉ W' := by
    have h2 : (pv :: p :: W').Nodup := (List.nodup_append.1 hnd).2.1
    intro hmem
    exact (List.nodup_cons.1 h2).1 (List.mem_cons_of_mem p hmem)
  have hE : s.base :: R.erase p = U ++ pv :: W' := by
    have h1 : (s.base :: R).erase p = s.base :: R.erase p :=
      List.erase_cons_tail (by simp [Ne.symm hpnb])
    rw [← h1, hU2, List.erase_append_right _ hpnotU]
    congr 1
    rw [List.erase_cons_tail (by simp [hpvp]), List.erase_cons_head]
  obtain ⟨hchU, hch2⟩ := chain_extract (hU2 ▸ hI.circ)
  rw [hlink, isChain_cons] at hch2
  have hchW' : isChain s ((s.mem p).ptr) W' s.base := hch2.2
  have hsz' : ∀ a, (({ setPtr s pv ((s.mem p).ptr) with freep := pv } : St).mem a).size
      = (s.mem a).size := fun a => by
    show ((setPtr s pv ((s.mem p).ptr)).mem a).size = (s.mem a).size
    simp
  have hmemo : ∀ a, a ≠ pv →
      ({ setPtr s pv ((s.mem p).ptr) with freep := pv } : St).mem a = s.mem a :=
    fun a ha => by
      show (setPtr s pv ((s.mem p).ptr)).mem a = s.mem a
      simp [ha]
  refine ⟨⟨?_, ?_, ?_, ?_, ?_, ?_, ?_, ?_, ?_, ?_, ?_, ?_⟩, hpR, hbasep⟩
  · show isChain _ s.base (s.base :: R.erase p) s.base
    rw [hE]
    apply chain_build
    · exact isChain_congr (fun a ha => by rw [hmemo a (fun he => hpvnotU (he ▸ ha))]) hchU
    · have hpvptr : (({ setPtr s pv ((s.mem p).ptr) with freep := pv } : St).mem pv).ptr
          = (s.mem p).ptr := by
        show ((setPtr s pv ((s.mem p).ptr)).mem pv).ptr = (s.mem p).ptr
        simp
      rw [hpvptr]
      exact isChain_congr (fun a ha => by
        rw [hmemo a (fun he => hpvnotW' (he ▸ ha))]) hchW'
  · show List.Pairwise _ (s.base :: R.erase p)
    have hsub : List.Sublist (s.base :: R.erase p) (s.base :: R) :=
      (List.erase_sublist p R).cons₂ s.base
    exact (hI.gap.sublist hsub).imp (fun {a b} h => by rw [hsz' a]; exact h)
  · show (({ setPtr s pv ((s.mem p).ptr) with freep := pv } : St).mem s.base).size = 0
    rw [hsz' s.base]; exact hI.base_size
  · exact hI.base_pos
  · exact hI.base_brk
  · show pv ∈ s.base :: R.erase p
    rcases List.mem_cons.1 hpv with h | h
    · exact h ▸ List.mem_cons_self _ _
    · exact List.mem_cons_of_mem _ ((List.mem_erase_of_ne hpvp).2 h)
  · intro a ha
    rw [hsz' a]
    exact hI.size_pos a (List.mem_of_mem_erase ha)
  · intro a ha
    rw [hsz' a]
    exact hI.heap a (List.mem_of_mem_erase ha)
  · intro x hx
    rcases List.mem_cons.1 hx with rfl | hx'
    · refine ⟨hn, hbasep, ?_⟩
      show p + n ≤ s.brk
      have := hI.heap p hpR
      omega
    · exact hI.aRange x hx'
  · intro x hx
    rcases List.mem_cons.1 hx with rfl | hx'
    · show (({ setPtr s pv ((s.mem p).ptr) with freep := pv } : St).mem p).size = n
      rw [hsz' p]; exact hfit
    · rw [hsz' x.1]; exact hI.aSize x hx'
  · intro x hx b hb
    have hbR : b ∈ R := List.mem_of_mem_erase hb
    have hbne : b ≠ p := by
      have hRnd : R.Nodup := (List.nodup_cons.1 hI.nodup).2
      exact ((hRnd.mem_erase_iff).1 hb).1
    rw [hsz' b]
    rcases List.mem_cons.1 hx with rfl | hx'
    · have := hI.block_disjoint (List.mem_cons_of_mem _ hpR)
        (List.mem_cons_of_mem _ hbR) (fun he => hbne he.symm)
      rw [hfit] at this
      exact this
    · exact hI.aFree x hx' b hbR
  · rw [List.pairwise_cons]
    constructor
    · intro x hx
      rcases hI.aFree x hx p hpR with h | h
      · exact Or.inr h
      · rw [hfit] at h
        exact Or.inl h
    · exact hI.aPair

/-- Invariant preservation for malloc's split branch: the block at p is
shrunk from its tail and a fresh block of exactly n units is carved
there and handed to the caller. -/
theorem alloc_split_inv {s : St} {R : List Nat} {A : List (Nat × Nat)} (hI : Inv s R A)
    {pv p n : Nat}
    (hn : 1 ≤ n) (hpv : pv ∈ s.base :: R) (hlink : (s.mem pv).ptr = p)
    (hfit : n ≤ (s.mem p).size) (hne : ¬ (s.mem p).size = n) :
    Inv { setSize (setSize s p ((s.mem p).size - n)) (p + ((s.mem p).size - n)) n
            with freep := pv } R ((p + ((s.mem p).size - n), n) :: A) ∧
      p ∈ R ∧ s.base < p + ((s.mem p).size - n) := by
  have hpmem : p ∈ s.base :: R := hlink ▸ hI.ptr_mem pv hpv
  have hpnb : p ≠ s.base := by
    intro he
    have h0 := hI.base_size
    rw [← he] at h0
    omega
  have hpR : p ∈ R := by
    rcases List.mem_cons.1 hpmem with h | h
    · exact absurd h hpnb
    · exact h
  have hbasep : s.base < p := hI.base_lt p hpR
  have hlt : n < (s.mem p).size := by omega
  have hpne2 : p ≠ p + ((s.mem p).size - n) := by omega
  have hp2not : ∀ y ∈ s.base :: R, y ≠ p + ((s.mem p).size - n) := by
    intro y hy
    by_cases hyp : y = p
    · subst hyp; omega
    · have := hI.block_disjoint hy hpmem hyp
      have hys := hI.pos y hy
      omega
  have hszpp : (({ setSize (setSize s p ((s.mem p).size - n))
      (p + ((s.mem p).size - n)) n with freep := pv } : St).mem p).size
      = (s.mem p).size - n := by
    show (((setSize (setSize s p ((s.mem p).size - n))
      (p + ((s.mem p).size - n)) n)).mem p).size = _
    rw [setSize_mem_ne _ _ _ _ hpne2, setSize_mem_same]
  have hszp2 : (({ setSize (setSize s p ((s.mem p).size - n))
      (p + ((s.mem p).size - n)) n with freep := pv } : St).mem
        (p + ((s.mem p).size - n))).size = n := by
    show (((setSize (setSize s p ((s.mem p).size - n))
      (p + ((s.mem p).size - n)) n)).mem (p + ((s.mem p).size - n))).size = n
    rw [setSize_mem_same]
  have hmem_o : ∀ a, a ≠ p → a ≠ p + ((s.mem p).size - n) →
      ({ setSize (setSize s p ((s.mem p).size - n))
        (p + ((s.mem p).size - n)) n with freep := pv } : St).mem a = s.mem a := by
    intro a h1 h2
    show ((setSize (setSize s p ((s.mem p).size - n))
      (p + ((s.mem p).size - n)) n)).mem a = s.mem a
    rw [setSize_mem_ne _ _ _ _ h2, setSize_mem_ne _ _ _ _ h1]
  have hptr' : ∀ a, (({ setSize (setSize s p ((s.mem p).size - n))
      (p + ((s.mem p).size - n)) n with freep := pv } : St).mem a).ptr
      = (s.mem a).ptr := by
    intro a
    show (((setSize (setSize s p ((s.mem p).size - n))
      (p + ((s.mem p).size - n)) n)).mem a).ptr = _
    simp
  refine ⟨⟨?_, ?_, ?_, ?_, ?_, ?_, ?_, ?_, ?_, ?_, ?_, ?_⟩, hpR, by omega⟩
  · show isChain _ s.base (s.base :: R) s.base
    exact isChain_congr (fun a _ => hptr' a) hI.circ
  · show List.Pairwise _ (s.base :: R)
    refine hI.gap.imp_of_mem (fun {a b} ha hb hr => ?_)
    by_cases hap : a = p
    · subst hap
      rw [hszpp]
      omega
    · rw [congrArg Header.size (hmem_o a hap (hp2not a ha))]
      exact hr
  · show (({ setSize (setSize s p ((s.mem p).size - n))
      (p + ((s.mem p).size - n)) n with freep := pv } : St).mem s.base).size = 0
    rw [congrArg Header.size
      (hmem_o s.base (Ne.symm hpnb) (hp2not s.base (List.mem_cons_self _ _)))]
    exact hI.base_size
  · exact hI.base_pos
  · exact hI.base_brk
  · exact hpv
  · intro a ha
    by_cases hap : a = p
    · subst hap
      rw [hszpp]
      omega
    · rw [congrArg Header.size (hmem_o a hap (hp2not a (List.mem_cons_of_mem _ ha)))]
      exact hI.size_pos a ha
  · intro a ha
    show a + _ ≤ s.brk
    by_cases hap : a = p
    · subst hap
      rw [hszpp]
      have := hI.heap a ha
      omega
    · rw [congrArg Header.size (hmem_o a hap (hp2not a (List.mem_cons_of_mem _ ha)))]
      exact hI.heap a ha
  · intro x hx
    rcases List.mem_cons.1 hx with rfl | hx'
    · refine ⟨hn, by show s.base < p + ((s.mem p).size - n); omega, ?_⟩
      show p + ((s.mem p).size - n) + n ≤ s.brk
      have := hI.heap p hpR
      omega
    · exact hI.aRange x hx'
  · intro x hx
    rcases List.mem_cons.1 hx with rfl | hx'
    · exact hszp2
    · have hx1 : x.1 ≠ p := alloc_ne_block hI hx' hpmem
      have hx2 : x.1 ≠ p + ((s.mem p).size - n) := by
        rcases hI.aFree x hx' p hpR with h | h
        · have := (hI.aRange x hx').1
          omega
        · omega
      rw [congrArg Header.size (hmem_o x.1 hx1 hx2)]
      exact hI.aSize x hx'
  · intro x hx b hb
    rcases List.mem_cons.1 hx with rfl | hx'
    · by_cases hbp : b = p
      · subst hbp
        right
        rw [hszpp]
      · rw [congrArg Header.size (hmem_o b hbp (hp2not b (List.mem_cons_of_mem _ hb)))]
        rcases hI.block_disjoint hpmem (List.mem_cons_of_mem _ hb)
          (fun he => hbp he.symm) with h | h
        · left
          show p + ((s.mem p).size - n) + n ≤ b
          omega
        · right
          show b + (s.mem b).size ≤ p + ((s.mem p).size - n)
          omega
    · by_cases hbp : b = p
      · subst hbp
        rw [hszpp]
        rcases hI.aFree x hx' b hpR with h | h
        · exact Or.inl h
        · right; omega
      · rw [congrArg Header.size (hmem_o b hbp (hp2not b (List.mem_cons_of_mem _ hb)))]
        exact hI.aFree x hx' b hb
  · rw [List.pairwise_cons]
    constructor
    · intro x hx
      rcases hI.aFree x hx p hpR with h | h
      · right
        show x.1 + x.2 ≤ p + ((s.mem p).size - n)
        omega
      · left
        show p + ((s.mem p).size - n) + n ≤ x.1
        omega
    · exact hI.aPair

/-- The invariant survives extending the break and writing the size of
the fresh header at the old break. -/
theorem grow_inv {s : St} {R : List Nat} {A : List (Nat × Nat)} (hI : Inv s R A)
    (nu : Nat) :
    Inv (setSize { s with brk := s.brk + nu } s.brk nu) R A := by
  have hne : ∀ a ∈ s.base :: R, a ≠ s.brk := by
    intro a ha
    rcases List.mem_cons.1 ha with rfl | ha'
    · have := hI.base_brk; omega
    · have h1 := hI.heap a ha'
      have h2 := hI.size_pos a ha'
      omega
  have hAne : ∀ x ∈ A, x.1 ≠ s.brk := by
    intro x hx
    have := (hI.aRange x hx).2.2
    have := (hI.aRange x hx).1
    omega
  have hmemo : ∀ a, a ≠ s.brk →
      (setSize { s with brk := s.brk + nu } s.brk nu).mem a = s.mem a := by
    intro a ha
    rw [setSize_mem_ne _ _ _ _ ha]
  refine ⟨?_, ?_, ?_, ?_, ?_, ?_, ?_, ?_, ?_, ?_, ?_, ?_⟩
  · exact isChain_congr (fun a _ => by simp) hI.circ
  · exact hI.gap.imp_of_mem (fun {a b} ha hb hr => by
      rw [congrArg Header.size (hmemo a (hne a ha))]; exact hr)
  · show ((setSize { s with brk := s.brk + nu } s.brk nu).mem s.base).size = 0
    rw [congrArg Header.size (hmemo s.base (hne s.base (List.mem_cons_self _ _)))]
    exact hI.base_size
  · exact hI.base_pos
  · show s.base < s.brk + nu
    have := hI.base_brk; omega
  · exact hI.freep_mem
  · intro a ha
    rw [congrArg Header.size (hmemo a (hne a (List.mem_cons_of_mem _ ha)))]
    exact hI.size_pos a ha
  · intro a ha
    show a + _ ≤ s.brk + nu
    rw [congrArg Header.size (hmemo a (hne a (List.mem_cons_of_mem _ ha)))]
    have := hI.heap a ha
    omega
  · intro x hx
    have h := hI.aRange x hx
    exact ⟨h.1, h.2.1, by show x.1 + x.2 ≤ s.brk + nu; omega⟩
  · intro x hx
    rw [congrArg Header.size (hmemo x.1 (hAne x hx))]
    exact hI.aSize x hx
  · intro x hx b hb
    rw [congrArg Header.size (hmemo b (hne b (List.mem_cons_of_mem _ hb)))]
    exact hI.aFree x hx b hb
  · exact hI.aPair

/-- What morecore does when it returns: either sbrk failed and the
state is untouched with a null result, or the fresh span has been
folded into the free list through free, preserving the invariant and
leaving a block of at least the granted size. -/
theorem morecore_post {s : St} {R : List Nat} {A : List (Nat × Nat)} (hI : Inv s R A)
    {n f : Nat} {s2 : St} {pN : Nat}
    (h : morecore s n f = some (s2, pN)) :
    (pN = 0 ∧ s2 = s) ∨
    (∃ R2, Inv s2 R2 A ∧ pN = s2.freep ∧ s2.base = s.base ∧ s2.brkMax = s.brkMax ∧
      s.brk ≤ s2.brk ∧
      ∃ b ∈ s2.base :: R2, (if n < 4096 then 4096 else n) ≤ (s2.mem b).size) := by
  unfold morecore at h
  dsimp only at h
  by_cases hsb : s.brk + (if n < 4096 then 4096 else n) ≤ s.brkMax
  · rw [show sbrk s (if n < 4096 then 4096 else n) =
        some ({ s with brk := s.brk + (if n < 4096 then 4096 else n) }, s.brk) from
        by unfold sbrk; rw [if_pos hsb]] at h
    simp only at h
    have hImid := grow_inv hI (if n < 4096 then 4096 else n)
    have hnu1 : 1 ≤ (if n < 4096 then 4096 else n) := by split <;> omega
    have hszbrk : ((setSize { s with brk := s.brk + (if n < 4096 then 4096 else n) }
        s.brk (if n < 4096 then 4096 else n)).mem s.brk).size
        = (if n < 4096 then 4096 else n) := by
      rw [setSize_mem_same]
    cases hfr : free (setSize { s with brk := s.brk + (if n < 4096 then 4096 else n) }
        s.brk (if n < 4096 then 4096 else n)) (s.brk + 1) f with
    | none => rw [hfr] at h; cases h
    | some s3 =>
      rw [hfr] at h
      simp only [Option.some.injEq, Prod.mk.injEq] at h
      obtain ⟨rfl, rfl⟩ := h
      right
      have hszpin : 1 ≤ ((setSize { s with brk :=
          s.brk + (if n < 4096 then 4096 else n) } s.brk
          (if n < 4096 then 4096 else n)).mem s.brk).size := by
        rw [hszbrk]; exact hnu1
      obtain ⟨pstar, R2, hfreeF, hpmem, hplt, hpmax, hInv2, hiff, hbig, hRR⟩ :=
        free_spec hImid hszpin
          (by show s.base < s.brk; exact hI.base_brk)
          (by rw [hszbrk]; show s.brk + _ ≤ s.brk + _; omega)
          (by
            intro a ha
            left
            have hbase_eq : (setSize { s with brk :=
                s.brk + (if n < 4096 then 4096 else n) } s.brk
                (if n < 4096 then 4096 else n)).base = s.base := rfl
            rw [hbase_eq] at ha
            have hane : a ≠ s.brk := by
              rcases List.mem_cons.1 ha with rfl | ha'
              · have := hI.base_brk; omega
              · have h1 := hI.heap a ha'
                have h2 := hI.size_pos a ha'
                omega
            rw [congrArg Header.size (setSize_mem_ne _ _ _ _ hane)]
            show a + (s.mem a).size ≤ s.brk
            rcases List.mem_cons.1 ha with rfl | ha'
            · rw [hI.base_size]
              have := hI.base_brk; omega
            · exact hI.heap a ha')
          (by
            intro x hx
            left
            exact (hI.aRange x hx).2.2)
          (max f (R.length + 1)) (by omega)
      have hfreef : free (setSize { s with brk := s.brk + (if n < 4096 then 4096 else n) }
          s.brk (if n < 4096 then 4096 else n)) (s.brk + 1) (max f (R.length + 1))
          = some s3 := free_mono hfr (by omega)
      have hs3 : s3 = freeCore (setSize { s with brk :=
          s.brk + (if n < 4096 then 4096 else n) } s.brk (if n < 4096 then 4096 else n))
          s.brk pstar := by
        rw [hfreef] at hfreeF
        exact Option.some.inj hfreeF
      refine ⟨R2, hs3 ▸ hInv2, rfl, ?_, ?_, ?_, ?_⟩
      · rw [hs3]; simp
      · rw [hs3]; simp
      · rw [hs3]; simp
      · obtain ⟨b, hbmem, hble⟩ := hbig
        refine ⟨b, ?_, ?_⟩
        · rw [hs3]
          simpa using hbmem
        · rw [hs3]
          rw [hszbrk] at hble
          exact hble
  · rw [show sbrk s (if n < 4096 then 4096 else n) = none from
        by unfold sbrk; rw [if_neg hsb]] at h
    simp only [Option.some.injEq, Prod.mk.injEq] at h
    left
    exact ⟨h.2.symm, h.1.symm⟩

/-- Whenever the next-fit loop returns a non-null pointer, the block
handed out has exactly the requested unit count, lies above the
sentinel, and the invariant still holds with the new allocation
recorded. -/
theorem mallocLoop_post {n : Nat} (hn : 1 ≤ n) :
    ∀ (f : Nat) (s : St) (R : List Nat) (A : List (Nat × Nat)) (pv p : Nat),
      Inv s R A → pv ∈ s.base :: R → (s.mem pv).ptr = p →
      ∀ {s' : St} {r : Nat}, mallocLoop n f s pv p = some (s', r) → r ≠ 0 →
      ∃ R', Inv s' R' ((r - 1, n) :: A) ∧ (s'.mem (r - 1)).size = n ∧
        s.base < r - 1 ∧ s'.base = s.base ∧ s'.brkMax = s.brkMax ∧ s.brk ≤ s'.brk := by
  intro f
  induction f with
  | zero => intro s R A pv p _ _ _ s' r h hr; cases h
  | succ g ih =>
    intro s R A pv p hI hpv hlink s' r h hr
    by_cases hfit : n ≤ (s.mem p).size
    · by_cases heq : (s.mem p).size = n
      · rw [mallocLoop_exact hfit heq] at h
        simp only [Option.some.injEq, Prod.mk.injEq] at h
        obtain ⟨h1, h2⟩ := h
        subst h1
        subst h2
        have hr1 : p + 1 - 1 = p := by omega
        obtain ⟨hExact, hpR, hbp⟩ := alloc_exact_inv hI hn hpv hlink heq
        refine ⟨R.erase p, by rw [hr1]; exact hExact, ?_, by rw [hr1]; exact hbp,
          rfl, rfl, Nat.le_refl _⟩
        show ((setPtr s pv ((s.mem p).ptr)).mem (p + 1 - 1)).size = n
        rw [hr1]
        simp only [setPtr_size]
        exact heq
      · rw [mallocLoop_split hfit heq] at h
        simp only [Option.some.injEq, Prod.mk.injEq] at h
        obtain ⟨h1, h2⟩ := h
        subst h1
        subst h2
        have hr1 : p + ((s.mem p).size - n) + 1 - 1 = p + ((s.mem p).size - n) := by omega
        obtain ⟨hSplit, hpR, hbp2⟩ := alloc_split_inv hI hn hpv hlink hfit heq
        refine ⟨R, by rw [hr1]; exact hSplit, ?_, by rw [hr1]; exact hbp2,
          rfl, rfl, Nat.le_refl _⟩
        show ((setSize (setSize s p ((s.mem p).size - n))
          (p + ((s.mem p).size - n)) n).mem (p + ((s.mem p).size - n) + 1 - 1)).size = n
        rw [hr1, setSize_mem_same]
    · by_cases hp : p = s.freep
      · rw [mallocLoop_grow hfit hp] at h
        cases hm : morecore s n g with
        | none => rw [hm] at h; cases h
        | some y =>
          rw [hm] at h
          obtain ⟨s2, pN⟩ := y
          simp only at h
          by_cases hz : pN = 0
          · rw [if_pos hz] at h
            simp only [Option.some.injEq, Prod.mk.injEq] at h
            exact absurd h.2.symm hr
          · rw [if_neg hz] at h
            rcases morecore_post hI hm with ⟨hz', -⟩ | ⟨R2, hI2, hpN, hb2, hbm2, hbrk2, -⟩
            · exact absurd hz' hz
            · have hpv2 : pN ∈ s2.base :: R2 := by rw [hpN]; exact hI2.freep_mem
              obtain ⟨R', hInv', hsz, hbase, hbeq, hbm, hbrk⟩ :=
                ih s2 R2 A pN ((s2.mem pN).ptr) hI2 hpv2 rfl h hr
              exact ⟨R', hInv', hsz, hb2 ▸ hbase, hb2 ▸ hbeq, hbm2 ▸ hbm,
                Nat.le_trans hbrk2 hbrk⟩
      · rw [mallocLoop_nofit hfit hp] at h
        exact ih s R A p ((s.mem p).ptr) hI (hlink ▸ hI.ptr_mem pv hpv) rfl h hr

theorem nunits_pos (nb : Nat) : 1 ≤ nunitsOf nb :=
  Nat.le_add_left 1 _

/-- On an initialized allocator, malloc is the next-fit loop started at
the cursor. -/
theorem malloc_eq_loop {s : St} (hs : s.freep ≠ 0) (nb f : Nat) :
    malloc s nb f = mallocLoop (nunitsOf nb) f s s.freep ((s.mem s.freep).ptr) := by
  unfold malloc
  rw [if_neg hs]

/-- On an uninitialized allocator, malloc first builds the sentinel-only
circular list and then runs the loop from the sentinel. -/
theorem malloc_eq_init {s : St} (hs : s.freep = 0) (nb f : Nat) :
    malloc s nb f =
      mallocLoop (nunitsOf nb) f
        { setSize (setPtr s s.base s.base) s.base 0 with freep := s.base }
        s.base
        (({ setSize (setPtr s s.base s.base) s.base 0 with freep := s.base } : St).mem
          s.base).ptr := by
  unfold malloc
  rw [if_pos hs]

/-- malloc on an invariant-satisfying state: a non-null result is a
fresh block of exactly nunits units, and the invariant is preserved. -/
theorem malloc_post {s : St} {R : List Nat} {A : List (Nat × Nat)} (hI : Inv s R A)
    {nb f : Nat} {s' : St} {r : Nat}
    (h : malloc s nb f = some (s', r)) (hr : r ≠ 0) :
    ∃ R', Inv s' R' ((r - 1, nunitsOf nb) :: A) ∧
      (s'.mem (r - 1)).size = nunitsOf nb ∧
      s.base < r - 1 ∧ s'.base = s.base ∧ s'.brkMax = s.brkMax ∧ s.brk ≤ s'.brk := by
  rw [malloc_eq_loop (by have := hI.freep_pos; omega) nb f] at h
  exact mallocLoop_post (nunits_pos nb) f s R A s.freep ((s.mem s.freep).ptr)
    hI hI.freep_mem rfl h hr

theorem mallocSeq_nonzero {f : Nat} :
    ∀ (nbs : List Nat) (s : St) {s' : St} {rs : List Nat},
      mallocSeq f s nbs = some (s', rs) → ∀ b ∈ rs, b ≠ 0 := by
  intro nbs
  induction nbs with
  | nil =>
    intro s s' rs h
    simp only [mallocSeq, Option.some.injEq, Prod.mk.injEq] at h
    rw [← h.2]
    intro b hb
    cases hb
  | cons nb rest ih =>
    intro s s' rs h
    unfold mallocSeq at h
    cases hm : malloc s nb f with
    | none => rw [hm] at h; cases h
    | some y =>
      rw [hm] at h
      obtain ⟨s1, r⟩ := y
      simp only at h
      by_cases hr0 : r = 0
      · rw [if_pos hr0] at h; cases h
      · rw [if_neg hr0] at h
        cases hrest : mallocSeq f s1 rest with
        | none => rw [hrest] at h; cases h
        | some y2 =>
          rw [hrest] at h
          obtain ⟨s2, rs2⟩ := y2
          simp only [Option.map_some', Option.some.injEq, Prod.mk.injEq] at h
          obtain ⟨-, hrs⟩ := h
          rw [← hrs]
          intro b hb
          rcases List.mem_cons.1 hb with rfl | hb'
          · exact hr0
          · exact ih s1 hrest b hb'

theorem mallocSeq_A_facts {f : Nat} :
    ∀ (nbs : List Nat) (s : St) (R : List Nat) (A : List (Nat × Nat)),
      Inv s R A → ∀ {s' : St} {rs : List Nat},
      mallocSeq f s nbs = some (s', rs) →
      ∀ x ∈ A, (s'.mem x.1).size = x.2 ∧
        ∀ b ∈ rs, x.1 + x.2 ≤ b - 1 ∨ (b - 1) + (s'.mem (b - 1)).size ≤ x.1 := by
  intro nbs
  induction nbs with
  | nil =>
    intro s R A hI s' rs h
    simp only [mallocSeq, Option.some.injEq, Prod.mk.injEq] at h
    obtain ⟨rfl, hrs⟩ := h
    intro x hx
    refine ⟨hI.aSize x hx, ?_⟩
    rw [← hrs]
    intro b hb
    cases hb
  | cons nb rest ih =>
    intro s R A hI s' rs h
    unfold mallocSeq at h
    cases hm : malloc s nb f with
    | none => rw [hm] at h; cases h
    | some y =>
      rw [hm] at h
      obtain ⟨s1, r⟩ := y
      simp only at h
      by_cases hr0 : r = 0
      · rw [if_pos hr0] at h; cases h
      · rw [if_neg hr0] at h
        cases hrest : mallocSeq f s1 rest with
        | none => rw [hrest] at h; cases h
        | some y2 =>
          rw [hrest] at h
          obtain ⟨s2, rs2⟩ := y2
          simp only [Option.map_some', Option.some.injEq, Prod.mk.injEq] at h
          obtain ⟨rfl, hrs⟩ := h
          obtain ⟨R1, hI1, hsz1, hbase1, -, -, -⟩ := malloc_post hI hm hr0
          intro x hx
          have hxA1 : x ∈ (r - 1, nunitsOf nb) :: A := List.mem_cons_of_mem _ hx
          obtain ⟨hszx, hdisjx⟩ := ih s1 R1 _ hI1 hrest x hxA1
          obtain ⟨hszr, -⟩ := ih s1 R1 _ hI1 hrest (r - 1, nunitsOf nb)
            (List.mem_cons_self _ _)
          refine ⟨hszx, ?_⟩
          rw [← hrs]
          intro b hb
          rcases List.mem_cons.1 hb with rfl | hb'
          · rcases (List.pairwise_cons.1 hI1.aPair).1 x hx with h1 | h1
            · right
              show (b - 1) + (s2.mem (b - 1)).size ≤ x.1
              rw [hszr]
              exact h1
            · exact Or.inl h1
          · exact hdisjx b hb'

theorem mallocSeq_pairwise {f : Nat} :
    ∀ (nbs : List Nat) (s : St) (R : List Nat) (A : List (Nat × Nat)),
      Inv s R A → ∀ {s' : St} {rs : List Nat},
      mallocSeq f s nbs = some (s', rs) →
      List.Pairwise (fun a b => (a - 1) + (s'.mem (a - 1)).size ≤ b - 1 ∨
        (b - 1) + (s'.mem (b - 1)).size ≤ a - 1) rs := by
  intro nbs
  induction nbs with
  | nil =>
    intro s R A hI s' rs h
    simp only [mallocSeq, Option.some.injEq, Prod.mk.injEq] at h
    rw [← h.2]
    exact List.Pairwise.nil
  | cons nb rest ih =>
    intro s R A hI s' rs h
    unfold mallocSeq at h
    cases hm : malloc s nb f with
    | none => rw [hm] at h; cases h
    | some y =>
      rw [hm] at h
      obtain ⟨s1, r⟩ := y
      simp only at h
      by_cases hr0 : r = 0
      · rw [if_pos hr0] at h; cases h
      · rw [if_neg hr0] at h
        cases hrest : mallocSeq f s1 rest with
        | none => rw [hrest] at h; cases h
        | some y2 =>
          rw [hrest] at h
          obtain ⟨s2, rs2⟩ := y2
          simp only [Option.map_some', Option.some.injEq, Prod.mk.injEq] at h
          obtain ⟨rfl, hrs⟩ := h
          obtain ⟨R1, hI1, -, -, -, -, -⟩ := malloc_post hI hm hr0
          rw [← hrs]
          rw [List.pairwise_cons]
          constructor
          · intro b hb
            obtain ⟨hszr, hdisjr⟩ := mallocSeq_A_facts rest s1 R1 _ hI1 hrest
              (r - 1, nunitsOf nb) (List.mem_cons_self _ _)
            rcases hdisjr b hb with h1 | h1
            · left
              show (r - 1) + (s2.mem (r - 1)).size ≤ b - 1
              rw [hszr]
              exact h1
            · exact Or.inr h1
          · exact ih s1 R1 _ hI1 hrest

theorem first_sat {pred : Nat → Prop} [DecidablePred pred] :
    ∀ (V : List Nat), (∃ a ∈ V, pred a) →
    ∃ V1 x V2, V = V1 ++ x :: V2 ∧ pred x ∧ ∀ y ∈ V1, ¬ pred y := by
  intro V
  induction V with
  | nil => rintro ⟨a, ha, -⟩; cases ha
  | cons a W ih =>
    intro hex
    by_cases hpa : pred a
    · exact ⟨[], a, W, rfl, hpa, fun y hy => absurd hy (List.not_mem_nil y)⟩
    · have hex' : ∃ b ∈ W, pred b := by
        obtain ⟨b, hb, hpb⟩ := hex
        rcases List.mem_cons.1 hb with rfl | hb'
        · exact absurd hpb hpa
        · exact ⟨b, hb', hpb⟩
      obtain ⟨V1, x, V2, heq, hpx, hny⟩ := ih hex'
      refine ⟨a :: V1, x, V2, by rw [heq]; rfl, hpx, ?_⟩
      intro y hy
      rcases List.mem_cons.1 hy with rfl | hy'
      · exact hpa
      · exact hny y hy'

theorem last_in_tail :
    ∀ (V1 T : List Nat) (fp x : Nat) (V2 : List Nat),
      T ++ [fp] = V1 ++ x :: V2 → fp ∈ x :: V2 := by
  intro V1
  induction V1 with
  | nil =>
    intro T fp x V2 h
    have : fp ∈ T ++ [fp] := List.mem_append_right T (List.mem_singleton_self fp)
    rw [h] at this
    exact this
  | cons v V1' ih =>
    intro T fp x V2 h
    cases T with
    | nil =>
      exfalso
      simp only [List.nil_append, List.cons_append] at h
      injection h with h1 h2
      exact List.cons_ne_nil x V2 (List.append_eq_nil.1 h2.symm).2
    | cons t T' =>
      simp only [List.cons_append, List.cons.injEq] at h
      exact ih T' fp x V2 h.2

/-- The next-fit search started at the cursor, when some block of the
circle fits, finds a fitting block without invoking the Growth
Provider, and unlinks it (exact fit) or carves its tail (split). -/
theorem mallocLoop_from_fit {s : St} {R : List Nat} {A : List (Nat × Nat)} (hI : Inv s R A)
    {n : Nat} (hfit : ∃ a ∈ s.base :: R, n ≤ (s.mem a).size)
    (F : Nat) (hF : R.length + 2 ≤ F) :
    ∃ x pv, x ∈ s.base :: R ∧ pv ∈ s.base :: R ∧ (s.mem pv).ptr = x ∧
      n ≤ (s.mem x).size ∧
      (((s.mem x).size = n ∧
         mallocLoop n F s s.freep ((s.mem s.freep).ptr) =
           some ({ setPtr s pv ((s.mem x).ptr) with freep := pv }, x + 1)) ∨
       (n < (s.mem x).size ∧
         mallocLoop n F s s.freep ((s.mem s.freep).ptr) =
           some ({ setSize (setSize s x ((s.mem x).size - n))
                     (x + ((s.mem x).size - n)) n with freep := pv },
                 x + ((s.mem x).size - n) + 1))) := by
  obtain ⟨P0, Q0, hC0⟩ := List.append_of_mem hI.freep_mem
  have hrot : isChain s s.freep ((s.freep :: Q0) ++ P0) s.freep :=
    isChain_rotate s P0 Q0 s.base s.freep (hC0 ▸ hI.circ)
  rw [List.cons_append, isChain_cons] at hrot
  have hchT : isChain s ((s.mem s.freep).ptr) (Q0 ++ P0) s.freep := hrot.2
  have hchV : isChain s ((s.mem s.freep).ptr) ((Q0 ++ P0) ++ [s.freep])
      ((s.mem s.freep).ptr) := by
    rw [isChain_append]
    exact ⟨s.freep, hchT, rfl, rfl⟩
  have hmemV : ∀ y, y ∈ (Q0 ++ P0) ++ [s.freep] ↔ y ∈ s.base :: R := by
    intro y
    rw [hC0]
    simp only [List.mem_append, List.mem_cons, List.mem_singleton]
    tauto
  have hndC0 : (s.freep :: (P0 ++ Q0)).Nodup :=
    (List.perm_middle).nodup (hC0 ▸ hI.nodup)
  have hfpT : s.freep ∉ Q0 ++ P0 := by
    have h1 := (List.nodup_cons.1 hndC0).1
    intro hmem
    apply h1
    rcases List.mem_append.1 hmem with h | h
    · exact List.mem_append_right P0 h
    · exact List.mem_append_left Q0 h
  have hndT : (Q0 ++ P0).Nodup :=
    (List.perm_append_comm).nodup (List.nodup_cons.1 hndC0).2
  have hndV : ((Q0 ++ P0) ++ [s.freep]).Nodup := by
    rw [List.nodup_append]
    exact ⟨hndT, List.nodup_singleton _,
      fun y hy hmem => hfpT (by rwa [List.mem_singleton.1 hmem] at hy)⟩
  have hfitV : ∃ a ∈ (Q0 ++ P0) ++ [s.freep], n ≤ (s.mem a).size := by
    obtain ⟨a, ha, hfa⟩ := hfit
    exact ⟨a, (hmemV a).2 ha, hfa⟩
  obtain ⟨V1, x, V2, hVeq, hfx, hnofit⟩ := first_sat _ hfitV
  have hxC : x ∈ s.base :: R := (hmemV x).1
    (by rw [hVeq]; exact List.mem_append_right _ (List.mem_cons_self _ _))
  have hfpx : s.freep ∈ x :: V2 := last_in_tail V1 (Q0 ++ P0) s.freep x V2 hVeq
  have hfpnotV1 : s.freep ∉ V1 := by
    rw [hVeq] at hndV
    intro hmem
    exact (List.nodup_append.1 hndV).2.2 hmem hfpx
  have hchtoX : isChain s ((s.mem s.freep).ptr) V1 x := by
    have hc := hchV
    rw [hVeq, isChain_append] at hc
    obtain ⟨m, h1, h2⟩ := hc
    rw [isChain_cons] at h2
    exact h2.1 ▸ h1
  have hpvlink : (s.mem (V1.getLastD s.freep)).ptr = x := by
    rcases List.eq_nil_or_concat V1 with hV1 | ⟨V1', ℓ, hV1⟩
    · rw [hV1] at hchtoX ⊢
      exact hchtoX
    · rw [List.concat_eq_append] at hV1
      rw [hV1] at hchtoX ⊢
      rw [List.getLastD_concat]
      exact isChain_last s V1' ((s.mem s.freep).ptr) x ℓ hchtoX
  have hpvC : V1.getLastD s.freep ∈ s.base :: R := by
    rcases List.eq_nil_or_concat V1 with hV1 | ⟨V1', ℓ, hV1⟩
    · rw [hV1]; exact hI.freep_mem
    · rw [List.concat_eq_append] at hV1
      rw [hV1, List.getLastD_concat]
      refine (hmemV ℓ).1 ?_
      rw [hVeq, hV1]
      exact List.mem_append_left _ (List.mem_append_right _ (List.mem_singleton_self ℓ))
  have hsizes : ∀ y ∈ V1, (s.mem y).size < n := fun y hy => by
    have := hnofit y hy; omega
  have hneq : ∀ y ∈ V1, y ≠ s.freep := fun y hy he => hfpnotV1 (he ▸ hy)
  have hlenV : ((Q0 ++ P0) ++ [s.freep]).length = R.length + 1 := by
    have hl : (P0 ++ s.freep :: Q0).length = (s.base :: R).length := by rw [hC0]
    simp only [List.length_append, List.length_cons, List.length_nil] at hl ⊢
    omega
  have hV1len : V1.length ≤ R.length := by
    have h2 : V1.length < ((Q0 ++ P0) ++ [s.freep]).length := by
      rw [hVeq]
      simp only [List.length_append, List.length_cons, List.length_nil]
      omega
    omega
  have hlen : V1.length + (F - V1.length) = F := by omega
  have hskip := mallocLoop_skip V1 s.freep ((s.mem s.freep).ptr) x (F - V1.length)
    hchtoX hsizes hneq
  rw [hlen] at hskip
  obtain ⟨g, hg⟩ : ∃ g, F - V1.length = g + 1 := ⟨F - V1.length - 1, by omega⟩
  refine ⟨x, V1.getLastD s.freep, hxC, hpvC, hpvlink, hfx, ?_⟩
  by_cases heqn : (s.mem x).size = n
  · left
    refine ⟨heqn, ?_⟩
    rw [hskip, hg, mallocLoop_exact hfx heqn]
  · right
    refine ⟨by omega, ?_⟩
    rw [hskip, hg, mallocLoop_split hfx heqn]

/-- No two distinct blocks of the list are address-adjacent. -/
def NoAdjacent (s : St) (L : List Nat) : Prop :=
  ∀ a ∈ L, ∀ b ∈ L, a ≠ b → a + (s.mem a).size ≠ b

theorem Inv.noAdjacent {s : St} {R : List Nat} {A : List (Nat × Nat)} (hI : Inv s R A) :
    NoAdjacent s (s.base :: R) := by
  intro a ha b hb hne
  have hpw : List.Pairwise
      (fun x y => x + (s.mem x).size < y ∨ y + (s.mem y).size < x) (s.base :: R) :=
    hI.gap.imp (fun {x y} h => Or.inl h)
  have hsym : Symmetric (fun x y => x + (s.mem x).size < y ∨ y + (s.mem y).size < x) :=
    fun x y h => h.symm
  have := hpw.forall hsym ha hb hne
  omega

/-- When sbrk cannot supply the requested span, morecore returns null
without touching the state. -/
theorem morecore_fail {s : St} {n : Nat}
    (h : s.brkMax < s.brk + (if n < 4096 then 4096 else n)) (g : Nat) :
    morecore s n g = some (s, 0) := by
  unfold morecore
  dsimp only
  rw [show sbrk s (if n < 4096 then 4096 else n) = none from by
    unfold sbrk; rw [if_neg (by omega)]]

/-- The next-fit loop, when no block of the circle fits and the Growth
Provider fails, returns null with the state untouched. -/
theorem mallocLoop_nofit_fail {s : St} {R : List Nat} {A : List (Nat × Nat)}
    (hI : Inv s R A) {n : Nat}
    (hnofit : ∀ a ∈ s.base :: R, (s.mem a).size < n)
    (hsbrk : s.brkMax < s.brk + (if n < 4096 then 4096 else n))
    (F : Nat) (hF : R.length + 2 ≤ F) :
    mallocLoop n F s s.freep ((s.mem s.freep).ptr) = some (s, 0) := by
  obtain ⟨P0, Q0, hC0⟩ := List.append_of_mem hI.freep_mem
  have hrot : isChain s s.freep ((s.freep :: Q0) ++ P0) s.freep :=
    isChain_rotate s P0 Q0 s.base s.freep (hC0 ▸ hI.circ)
  rw [List.cons_append, isChain_cons] at hrot
  have hchT : isChain s ((s.mem s.freep).ptr) (Q0 ++ P0) s.freep := hrot.2
  have hmemT : ∀ y ∈ Q0 ++ P0, y ∈ s.base :: R := by
    intro y hy
    rw [hC0]
    rcases List.mem_append.1 hy with h | h
    · exact List.mem_append_right P0 (List.mem_cons_of_mem _ h)
    · exact List.mem_append_left _ h
  have hndC0 : (s.freep :: (P0 ++ Q0)).Nodup :=
    (List.perm_middle).nodup (hC0 ▸ hI.nodup)
  have hfpT : s.freep ∉ Q0 ++ P0 := by
    have h1 := (List.nodup_cons.1 hndC0).1
    intro hmem
    apply h1
    rcases List.mem_append.1 hmem with h | h
    · exact List.mem_append_right P0 h
    · exact List.mem_append_left Q0 h
  have hTlen : (Q0 ++ P0).length = R.length := by
    have hl : (P0 ++ s.freep :: Q0).length = (s.base :: R).length := by rw [hC0]
    simp only [List.length_append, List.length_cons] at hl ⊢
    omega
  have hlen : (Q0 ++ P0).length + (F - R.length) = F := by omega
  have hskip := mallocLoop_skip (Q0 ++ P0) s.freep ((s.mem s.freep).ptr) s.freep
    (F - R.length) hchT (fun y hy => hnofit y (hmemT y hy))
    (fun y hy he => hfpT (he ▸ hy))
  rw [hlen] at hskip
  rw [hskip]
  obtain ⟨g, hg⟩ : ∃ g, F - R.length = g + 1 := ⟨F - R.length - 1, by omega⟩
  rw [hg, mallocLoop_grow
    (by have := hnofit s.freep hI.freep_mem; omega) rfl]
  rw [morecore_fail hsbrk g]
  rfl

/-- malloc on an initialized allocator: when no free block fits and
sbrk fails, malloc returns 0 and the state, hence the whole free list
and the cursor, is exactly as before. -/
theorem malloc_nofit_fail {s : St} {R : List Nat} {A : List (Nat × Nat)}
    (hI : Inv s R A) {nb : Nat}
    (hnofit : ∀ a ∈ s.base :: R, (s.mem a).size < nunitsOf nb)
    (hsbrk : s.brkMax < s.brk + (if nunitsOf nb < 4096 then 4096 else nunitsOf nb))
    (F : Nat) (hF : R.length + 2 ≤ F) :
    malloc s nb F = some (s, 0) := by
  rw [malloc_eq_loop (by have := hI.freep_pos; omega) nb F]
  exact mallocLoop_nofit_fail hI hnofit hsbrk F hF

/-- The state malloc builds on its first call: the sentinel base
self-linked with size zero, and the cursor on the sentinel. -/
def initSt (s : St) : St :=
  { setSize (setPtr s s.base s.base) s.base 0 with freep := s.base }

theorem init_inv {s : St} (hb : 0 < s.base) (hbrk : s.base < s.brk) :
    Inv (initSt s) [] [] := by
  refine ⟨?_, ?_, ?_, hb, hbrk, List.mem_singleton_self _, ?_, ?_, ?_, ?_, ?_, ?_⟩
  · refine ⟨rfl, ?_⟩
    show ((initSt s).mem s.base).ptr = s.base
    unfold initSt
    simp
  · exact List.pairwise_singleton _ _
  · show ((initSt s).mem s.base).size = 0
    unfold initSt
    simp
  · intro a ha; cases ha
  · intro a ha; cases ha
  · intro x hx; cases hx
  · intro x hx; cases hx
  · intro x hx; cases hx
  · exact List.Pairwise.nil

/-- malloc on the very first call when the Growth Provider fails: it
builds the sentinel-only list and then reports out of memory. -/
theorem malloc_init_fail {s : St} (hs : s.freep = 0) (hb : 0 < s.base)
    (hbrk : s.base < s.brk) {nb : Nat}
    (hsbrk : s.brkMax < s.brk + (if nunitsOf nb < 4096 then 4096 else nunitsOf nb))
    (F : Nat) (hF : 2 ≤ F) :
    malloc s nb F = some (initSt s, 0) := by
  rw [malloc_eq_init hs nb F]
  have hImid : Inv (initSt s) [] [] := init_inv hb hbrk
  have h := mallocLoop_nofit_fail hImid (n := nunitsOf nb)
    (by
      intro a ha
      rcases List.mem_cons.1 ha with rfl | ha'
      · have h0 : ((initSt s).mem (initSt s).base).size = 0 := hImid.base_size
        have := nunits_pos nb
        omega
      · cases ha')
    hsbrk F (by simpa using hF)
  exact h

/-- The next-fit loop when the circle has no fit but sbrk can grow the
region: the fresh span is folded in and the search succeeds. -/
theorem mallocLoop_grow_path {s : St} {R : List Nat} {A : List (Nat × Nat)}
    (hI : Inv s R A) {n : Nat}
    (hnofit : ∀ a ∈ s.base :: R, (s.mem a).size < n)
    (hsbrk : s.brk + (if n < 4096 then 4096 else n) ≤ s.brkMax)
    (F : Nat) (hF : 2 * R.length + 8 ≤ F) :
    ∃ s' r, mallocLoop n F s s.freep ((s.mem s.freep).ptr) = some (s', r) ∧ r ≠ 0 := by
  obtain ⟨P0, Q0, hC0⟩ := List.append_of_mem hI.freep_mem
  have hrot : isChain s s.freep ((s.freep :: Q0) ++ P0) s.freep :=
    isChain_rotate s P0 Q0 s.base s.freep (hC0 ▸ hI.circ)
  rw [List.cons_append, isChain_cons] at hrot
  have hchT : isChain s ((s.mem s.freep).ptr) (Q0 ++ P0) s.freep := hrot.2
  have hmemT : ∀ y ∈ Q0 ++ P0, y ∈ s.base :: R := by
    intro y hy
    rw [hC0]
    rcases List.mem_append.1 hy with h | h
    · exact List.mem_append_right P0 (List.mem_cons_of_mem _ h)
    · exact List.mem_append_left _ h
  have hndC0 : (s.freep :: (P0 ++ Q0)).Nodup :=
    (List.perm_middle).nodup (hC0 ▸ hI.nodup)
  have hfpT : s.freep ∉ Q0 ++ P0 := by
    have h1 := (List.nodup_cons.1 hndC0).1
    intro hmem
    apply h1
    rcases List.mem_append.1 hmem with h | h
    · exact List.mem_append_right P0 h
    · exact List.mem_append_left Q0 h
  have hTlen : (Q0 ++ P0).length = R.length := by
    have hl : (P0 ++ s.freep :: Q0).length = (s.base :: R).length := by rw [hC0]
    simp only [List.length_append, List.length_cons] at hl ⊢
    omega
  have hlen : (Q0 ++ P0).length + (F - R.length) = F := by omega
  have hskip := mallocLoop_skip (Q0 ++ P0) s.freep ((s.mem s.freep).ptr) s.freep
    (F - R.length) hchT (fun y hy => hnofit y (hmemT y hy))
    (fun y hy he => hfpT (he ▸ hy))
  rw [hlen] at hskip
  rw [hskip]
  obtain ⟨g, hg⟩ : ∃ g, F - R.length = g + 1 := ⟨F - R.length - 1, by omega⟩
  rw [hg, mallocLoop_grow (by have := hnofit s.freep hI.freep_mem; omega) rfl]
  -- morecore succeeds: sbrk grants the span, free folds it in
  have hImid := grow_inv hI (if n < 4096 then 4096 else n)
  have hnu1 : 1 ≤ (if n < 4096 then 4096 else n) := by split <;> omega
  have hszbrk : ((setSize { s with brk := s.brk + (if n < 4096 then 4096 else n) }
      s.brk (if n < 4096 then 4096 else n)).mem s.brk).size
      = (if n < 4096 then 4096 else n) := by
    rw [setSize_mem_same]
  have hszpin : 1 ≤ ((setSize { s with brk :=
      s.brk + (if n < 4096 then 4096 else n) } s.brk
      (if n < 4096 then 4096 else n)).mem s.brk).size := by
    rw [hszbrk]; exact hnu1
  obtain ⟨pstar, R3, hfreeg, hpmem, hplt, hpmax, hInv3, hiff, hbig, hRR⟩ :=
    free_spec hImid hszpin
      (by show s.base < s.brk; exact hI.base_brk)
      (by rw [hszbrk]; show s.brk + _ ≤ s.brk + _; omega)
      (by
        intro a ha
        left
        have hbase_eq : (setSize { s with brk :=
            s.brk + (if n < 4096 then 4096 else n) } s.brk
            (if n < 4096 then 4096 else n)).base = s.base := rfl
        rw [hbase_eq] at ha
        have hane : a ≠ s.brk := by
          rcases List.mem_cons.1 ha with rfl | ha'
          · have := hI.base_brk; omega
          · have h1 := hI.heap a ha'
            have h2 := hI.size_pos a ha'
            omega
        rw [congrArg Header.size (setSize_mem_ne _ _ _ _ hane)]
        show a + (s.mem a).size ≤ s.brk
        rcases List.mem_cons.1 ha with rfl | ha'
        · rw [hI.base_size]
          have := hI.base_brk; omega
        · exact hI.heap a ha')
      (by
        intro x hx
        left
        exact (hI.aRange x hx).2.2)
      g (by omega)
  have hmc : morecore s n g = some
      (freeCore (setSize { s with brk := s.brk + (if n < 4096 then 4096 else n) }
        s.brk (if n < 4096 then 4096 else n)) s.brk pstar,
       (freeCore (setSize { s with brk := s.brk + (if n < 4096 then 4096 else n) }
        s.brk (if n < 4096 then 4096 else n)) s.brk pstar).freep) := by
    unfold morecore
    dsimp only
    rw [show sbrk s (if n < 4096 then 4096 else n) =
        some ({ s with brk := s.brk + (if n < 4096 then 4096 else n) }, s.brk) from
        by unfold sbrk; rw [if_pos hsbrk]]
    simp only
    rw [hfreeg]
  rw [hmc]
  dsimp only
  have hfp3 : 0 < (freeCore (setSize { s with brk :=
      s.brk + (if n < 4096 then 4096 else n) } s.brk
      (if n < 4096 then 4096 else n)) s.brk pstar).freep := hInv3.freep_pos
  rw [if_neg (by omega)]
  -- now a fit exists in the grown circle
  have hR3len : R3.length ≤ R.length + 1 := by
    have hndR3 := hInv3.nodup
    have hsubR3 : ∀ y, y ∈ (freeCore (setSize { s with brk :=
        s.brk + (if n < 4096 then 4096 else n) } s.brk
        (if n < 4096 then 4096 else n)) s.brk pstar).base :: R3 →
        y ∈ s.brk :: s.base :: R := by
      intro y hy
      have hy2 := (hiff y).1 (by simpa using hy)
      rcases hy2 with ⟨h1, -⟩ | ⟨-, rfl⟩
      · exact List.mem_cons_of_mem _ (by simpa using h1)
      · exact List.mem_cons_self _ _
    have := (List.subperm_of_subset hndR3 (fun y hy => hsubR3 y hy)).length_le
    simp only [List.length_cons] at this
    omega
  have hfit3 : ∃ a ∈ (freeCore (setSize { s with brk :=
      s.brk + (if n < 4096 then 4096 else n) } s.brk
      (if n < 4096 then 4096 else n)) s.brk pstar).base :: R3,
      n ≤ ((freeCore (setSize { s with brk :=
        s.brk + (if n < 4096 then 4096 else n) } s.brk
        (if n < 4096 then 4096 else n)) s.brk pstar).mem a).size := by
    obtain ⟨b, hbmem, hble⟩ := hbig
    refine ⟨b, by simpa using hbmem, ?_⟩
    rw [hszbrk] at hble
    have hnle : n ≤ (if n < 4096 then 4096 else n) := by split <;> omega
    omega
  obtain ⟨x, pv, -, -, -, -, hcase⟩ :=
    mallocLoop_from_fit hInv3 hfit3 g (by omega)
  rcases hcase with ⟨-, heq⟩ | ⟨-, heq⟩
  · exact ⟨_, x + 1, heq, by omega⟩
  · exact ⟨_, _, heq, by omega⟩

/-- malloc succeeds whenever a free block fits or the region can grow. -/
theorem malloc_succeeds {s : St} {R : List Nat} {A : List (Nat × Nat)}
    (hI : Inv s R A) {nb : Nat}
    (havail : (∃ a ∈ s.base :: R, nunitsOf nb ≤ (s.mem a).size) ∨
      s.brk + (if nunitsOf nb < 4096 then 4096 else nunitsOf nb) ≤ s.brkMax)
    (F : Nat) (hF : 2 * R.length + 8 ≤ F) :
    ∃ s' r, malloc s nb F = some (s', r) ∧ r ≠ 0 := by
  rw [malloc_eq_loop (by have := hI.freep_pos; omega) nb F]
  by_cases hfit : ∃ a ∈ s.base :: R, nunitsOf nb ≤ (s.mem a).size
  · obtain ⟨x, pv, -, -, -, -, hcase⟩ :=
      mallocLoop_from_fit hI hfit F (by omega)
    rcases hcase with ⟨-, heq⟩ | ⟨-, heq⟩
    · exact ⟨_, x + 1, heq, by omega⟩
    · exact ⟨_, _, heq, by omega⟩
  · have hnofit : ∀ a ∈ s.base :: R, (s.mem a).size < nunitsOf nb := by
      intro a ha
      by_contra hc
      exact hfit ⟨a, ha, by omega⟩
    rcases havail with h | h
    · exact absurd h hfit
    · exact mallocLoop_grow_path hI hnofit h F hF

/-- The invariant is stable under forgetting a live allocation. -/
theorem Inv.dropA {s : St} {R : List Nat} {y : Nat × Nat} {A : List (Nat × Nat)}
    (hI : Inv s R (y :: A)) : Inv s R A :=
  ⟨hI.circ, hI.gap, hI.base_size, hI.base_pos, hI.base_brk, hI.freep_mem,
   hI.size_pos, hI.heap,
   fun x hx => hI.aRange x (List.mem_cons_of_mem y hx),
   fun x hx => hI.aSize x (List.mem_cons_of_mem y hx),
   fun x hx => hI.aFree x (List.mem_cons_of_mem y hx),
   (List.pairwise_cons.1 hI.aPair).2⟩

/-- Every non-null pointer the loop returns addresses the unit right
after a header whose size field is exactly the requested unit count. -/
theorem mallocLoop_size {n : Nat} :
    ∀ (f : Nat) (s : St) (pv p : Nat) {s' : St} {r : Nat},
      mallocLoop n f s pv p = some (s', r) → r ≠ 0 →
      (s'.mem (r - 1)).size = n ∧ 1 ≤ r := by
  intro f
  induction f with
  | zero => intro s pv p s' r h hr; cases h
  | succ g ih =>
    intro s pv p s' r h hr
    by_cases hfit : n ≤ (s.mem p).size
    · by_cases heq : (s.mem p).size = n
      · rw [mallocLoop_exact hfit heq] at h
        simp only [Option.some.injEq, Prod.mk.injEq] at h
        obtain ⟨h1, h2⟩ := h
        subst h1
        subst h2
        refine ⟨?_, by omega⟩
        show ((setPtr s pv ((s.mem p).ptr)).mem (p + 1 - 1)).size = n
        have hr1 : p + 1 - 1 = p := by omega
        rw [hr1]
        simp only [setPtr_size]
        exact heq
      · rw [mallocLoop_split hfit heq] at h
        simp only [Option.some.injEq, Prod.mk.injEq] at h
        obtain ⟨h1, h2⟩ := h
        subst h1
        subst h2
        refine ⟨?_, by omega⟩
        show ((setSize (setSize s p ((s.mem p).size - n))
          (p + ((s.mem p).size - n)) n).mem (p + ((s.mem p).size - n) + 1 - 1)).size = n
        have hr1 : p + ((s.mem p).size - n) + 1 - 1 = p + ((s.mem p).size - n) := by omega
        rw [hr1, setSize_mem_same]
    · by_cases hp : p = s.freep
      · rw [mallocLoop_grow hfit hp] at h
        cases hm : morecore s n g with
        | none => rw [hm] at h; cases h
        | some y =>
          rw [hm] at h
          obtain ⟨s2, pN⟩ := y
          simp only at h
          by_cases hz : pN = 0
          · rw [if_pos hz] at h
            simp only [Option.some.injEq, Prod.mk.injEq] at h
            exact absurd h.2.symm hr
          · rw [if_neg hz] at h
            exact ih s2 pN ((s2.mem pN).ptr) h hr
      · rw [mallocLoop_nofit hfit hp] at h
        exact ih s p ((s.mem p).ptr) h hr

/-- malloc-level version of mallocLoop_size, covering the lazy
initialization as well. -/
theorem malloc_size {s : St} {nb f : Nat} {s' : St} {r : Nat}
    (h : malloc s nb f = some (s', r)) (hr : r ≠ 0) :
    (s'.mem (r - 1)).size = nunitsOf nb ∧ 1 ≤ r := by
  by_cases hs : s.freep = 0
  · rw [malloc_eq_init hs nb f] at h
    exact mallocLoop_size f _ _ _ h hr
  · rw [malloc_eq_loop hs nb f] at h
    exact mallocLoop_size f _ _ _ h hr

theorem nunits_usable (nb : Nat) : nb ≤ (nunitsOf nb - 1) * hsize := by
  unfold nunitsOf hsize
  omega

theorem nunits_tight (nb : Nat) : (nunitsOf nb - 1) * hsize < nb + hsize := by
  unfold nunitsOf hsize
  omega

theorem nunits_lt_U32 {nb : Nat} (h : nb < U32) : nunitsOf nb < U32 := by
  unfold nunitsOf hsize U32 at *
  omega

/-! ### Example states used to exercise the theorems -/

/-- Memory of a two-block example heap: sentinel at 1, free blocks at
10 and 40, each of 20 units. -/
def exMem : Nat → Header := fun a =>
  if a = 1 then ⟨10, 0⟩
  else if a = 10 then ⟨40, 20⟩
  else if a = 40 then ⟨1, 20⟩
  else ⟨0, 0⟩

/-- Two free blocks, break exhausted. -/
def exSt : St := ⟨exMem, 1, 1, 60, 60⟩

/-- One free block of 5 units plus one live allocation of 4 units. -/
def exStA : St :=
  ⟨fun a =>
    if a = 1 then ⟨10, 0⟩
    else if a = 10 then ⟨1, 5⟩
    else if a = 20 then ⟨99, 4⟩
    else ⟨0, 0⟩, 1, 1, 30, 31⟩

/-- One free block of exactly 5 units (an exact fit for malloc(64)). -/
def exStB : St :=
  ⟨fun a =>
    if a = 1 then ⟨10, 0⟩
    else if a = 10 then ⟨1, 5⟩
    else ⟨0, 0⟩, 1, 1, 15, 15⟩

/-- Two free blocks of exactly 2 units each (exact fits for malloc(8)). -/
def exStC : St :=
  ⟨fun a =>
    if a = 1 then ⟨10, 0⟩
    else if a = 10 then ⟨20, 2⟩
    else if a = 20 then ⟨1, 2⟩
    else ⟨0, 0⟩, 1, 1, 22, 22⟩

/-- A single free block of 20 units: the unique fit for malloc(64). -/
def exStD : St :=
  ⟨fun a =>
    if a = 1 then ⟨10, 0⟩
    else if a = 10 then ⟨1, 20⟩
    else ⟨0, 0⟩, 1, 1, 30, 30⟩

/-- An uninitialized allocator (freep = 0) whose sbrk always fails. -/
def exSt0 : St := ⟨fun _ => ⟨0, 0⟩, 0, 1, 50, 50⟩

/-! ### The claims -/

/-- C10 (amended: no upper bound on nbytes is needed): for every uint
nbytes, the unit count (nbytes + sizeof(Header) - 1) / sizeof(Header)
+ 1 — computed in 64-bit arithmetic, since sizeof yields size_t —
incurs no wraparound, fits back into uint, and its predecessor is
exactly ceil(nbytes / sizeof(Header)): the unique k with
nbytes <= k * sizeof(Header) < nbytes + sizeof(Header). Exactness is
not limited to nbytes <= 2^32 - sizeof(Header). -/
theorem claim_C10 :
    (∀ nb : Nat, nb < U32 →
      nb ≤ (nunitsOf nb - 1) * hsize ∧ (nunitsOf nb - 1) * hsize < nb + hsize) ∧
    (∀ nb : Nat, nb < U32 → 1 ≤ nunitsOf nb ∧ nunitsOf nb < U32) := by
  constructor
  · intro nb _
    exact ⟨nunits_usable nb, nunits_tight nb⟩
  · intro nb h
    exact ⟨nunits_pos nb, nunits_lt_U32 h⟩

theorem claim_C10_witness :
    (64 ≤ (nunitsOf 64 - 1) * hsize ∧ (nunitsOf 64 - 1) * hsize < 64 + hsize) ∧
    (1 ≤ nunitsOf 64 ∧ nunitsOf 64 < U32) :=
  ⟨claim_C10.1 64 (by decide), claim_C10.2 64 (by decide)⟩

/-- C10's "exact only under this bound" clause is false of the program:
at nbytes = 2^32 - 1, above the claimed bound 2^32 - sizeof(Header),
the 64-bit computation still returns the exact count 268435457 =
ceil((2^32 - 1) / 16) + 1, with no wraparound. -/
theorem claim_C10_counterexample :
    U32 - hsize < U32 - 1 ∧ U32 - 1 < U32 ∧
    nunitsOf (U32 - 1) = 268435457 ∧
    U32 - 1 ≤ (nunitsOf (U32 - 1) - 1) * hsize ∧
    (nunitsOf (U32 - 1) - 1) * hsize < (U32 - 1) + hsize ∧
    nunitsOf (U32 - 1) < U32 := by
  refine ⟨by decide, by decide, by decide, by decide, by decide, by decide⟩

/-- C1: a non-null malloc result addresses the unit immediately
following the block's header, the block holds at least nbytes usable
bytes (the 64-bit unit-count computation never under-counts for any
nbytes), and the returned byte address (r * hsize in the unit-granular
model) is a multiple of sizeof(Header). -/
theorem claim_C1 {s : St} {nb F : Nat} {s' : St} {r : Nat}
    (h : malloc s nb F = some (s', r)) (hr : r ≠ 0) :
    r = (r - 1) + 1 ∧
    (s'.mem (r - 1)).size = nunitsOf nb ∧
    nb ≤ ((s'.mem (r - 1)).size - 1) * hsize ∧
    hsize ∣ r * hsize := by
  obtain ⟨hsz, hr1⟩ := malloc_size h hr
  refine ⟨by omega, hsz, ?_, Dvd.intro r (Nat.mul_comm hsize r)⟩
  rw [hsz]
  exact nunits_usable nb

theorem claim_C1_witness :
    (11 : Nat) = (11 - 1) + 1 ∧
    ((({ setPtr exStB 1 ((exStB.mem 10).ptr) with freep := 1 } : St).mem
        (11 - 1)).size = nunitsOf 64 ∧
      64 ≤ ((({ setPtr exStB 1 ((exStB.mem 10).ptr) with freep := 1 } : St).mem
        (11 - 1)).size - 1) * hsize ∧
      hsize ∣ 11 * hsize) := by
  have h := @claim_C1 exStB 64 3
    { setPtr exStB 1 ((exStB.mem 10).ptr) with freep := 1 } 11
    rfl (by decide)
  exact ⟨h.1, h.2.1, h.2.2.1, h.2.2.2⟩

theorem exSt_inv : Inv exSt [10, 40] [] :=
  ⟨by decide, by decide, by decide, by decide, by decide, by decide,
   by decide, by decide, by decide, by decide, by decide, by decide⟩

theorem exStA_inv : Inv exStA [10] [(20, 4)] :=
  ⟨by decide, by decide, by decide, by decide, by decide, by decide,
   by decide, by decide, by decide, by decide, by decide, by decide⟩

theorem exStD_inv : Inv exStD [10] [] :=
  ⟨by decide, by decide, by decide, by decide, by decide, by decide,
   by decide, by decide, by decide, by decide, by decide, by decide⟩

theorem exStC_inv : Inv exStC [10, 20] [] :=
  ⟨by decide, by decide, by decide, by decide, by decide, by decide,
   by decide, by decide, by decide, by decide, by decide, by decide⟩

/-- The state after the first exact-fit malloc(8) from exStC. -/
def exStC1 : St := { setPtr exStC 1 ((exStC.mem 10).ptr) with freep := 1 }

/-- The state after the second exact-fit malloc(8) from exStC. -/
def exStC2 : St := { setPtr exStC1 1 ((exStC1.mem 20).ptr) with freep := 1 }

/-- The invariant is stable under forgetting live allocations. -/
theorem Inv.subA {s : St} {R : List Nat} {A A' : List (Nat × Nat)}
    (hI : Inv s R A) (hsub : List.Sublist A' A) : Inv s R A' :=
  ⟨hI.circ, hI.gap, hI.base_size, hI.base_pos, hI.base_brk, hI.freep_mem,
   hI.size_pos, hI.heap,
   fun x hx => hI.aRange x (hsub.subset hx),
   fun x hx => hI.aSize x (hsub.subset hx),
   fun x hx => hI.aFree x (hsub.subset hx),
   hI.aPair.sublist hsub⟩

/-- The live-allocation list never records the same block twice. -/
theorem Inv.aNodup {s : St} {R : List Nat} {A : List (Nat × Nat)}
    (hI : Inv s R A) : A.Nodup := by
  refine List.Pairwise.imp_of_mem ?_ hI.aPair
  intro x y hx hy hrel
  have h1 := (hI.aRange x hx).1
  intro he
  rw [he] at h1 hrel
  rcases hrel with h2 | h2 <;> omega

/-- Freeing a live allocation succeeds and reestablishes the invariant
with that allocation removed from the live list. -/
theorem free_live {s : St} {R : List Nat} {A : List (Nat × Nat)} (hI : Inv s R A)
    {bp k : Nat} (hmem : (bp, k) ∈ A)
    (F : Nat) (hF : R.length + 1 ≤ F) :
    ∃ p R', free s (bp + 1) F = some (freeCore s bp p) ∧
      Inv (freeCore s bp p) R' (A.erase (bp, k)) := by
  have hA' : Inv s R (A.erase (bp, k)) := hI.subA (List.erase_sublist _ _)
  have hrange := hI.aRange (bp, k) hmem
  have hsize := hI.aSize (bp, k) hmem
  have hsz : 1 ≤ (s.mem bp).size := by rw [hsize]; exact hrange.1
  have hbp : s.base < bp := hrange.2.1
  have hbrk : bp + (s.mem bp).size ≤ s.brk := by rw [hsize]; exact hrange.2.2
  have hdF : ∀ a ∈ s.base :: R,
      a + (s.mem a).size ≤ bp ∨ bp + (s.mem bp).size ≤ a := by
    intro a ha
    rcases List.mem_cons.1 ha with rfl | ha'
    · left
      rw [hI.base_size]
      omega
    · rcases hI.aFree (bp, k) hmem a ha' with h | h
      · right; rw [hsize]; exact h
      · left; exact h
  have hdA : ∀ x ∈ A.erase (bp, k),
      x.1 + x.2 ≤ bp ∨ bp + (s.mem bp).size ≤ x.1 := by
    intro x hx
    have hx' := (List.Nodup.mem_erase_iff hI.aNodup).1 hx
    have hrel := hI.aPair.forall (fun u v h => h.symm) hx'.2 hmem hx'.1
    rcases hrel with h | h
    · left; exact h
    · right; rw [hsize]; exact h
  obtain ⟨p, R', hfree, -, -, -, hInv', -, -, -⟩ :=
    free_spec hA' hsz hbp hbrk hdF hdA F hF
  exact ⟨p, R', hfree, hInv'⟩

/-- C2: freeing a live block succeeds and afterwards no two distinct
blocks on the free list (sentinel included) are address-adjacent — any
adjacent pair has been merged; likewise after any successful malloc
(which folds freshly grown memory in through free) the resulting free
list has no two address-adjacent blocks. -/
theorem claim_C2 {s : St} {R : List Nat} {A : List (Nat × Nat)} (hI : Inv s R A)
    {bp k : Nat} (hmem : (bp, k) ∈ A)
    (F : Nat) (hF : R.length + 1 ≤ F) :
    (∃ s' R', free s (bp + 1) F = some s' ∧ Inv s' R' (A.erase (bp, k)) ∧
      NoAdjacent s' (s'.base :: R')) ∧
    (∀ (nb f : Nat) (s₁ : St) (r : Nat), malloc s nb f = some (s₁, r) → r ≠ 0 →
      ∃ R₁, NoAdjacent s₁ (s₁.base :: R₁) ∧
        isChain s₁ s₁.base (s₁.base :: R₁) s₁.base) := by
  constructor
  · obtain ⟨p, R', hfree, hInv'⟩ := free_live hI hmem F hF
    exact ⟨_, R', hfree, hInv', hInv'.noAdjacent⟩
  · intro nb f s₁ r h hr
    obtain ⟨R₁, hInv₁, -, -, -, -, -⟩ := malloc_post hI h hr
    exact ⟨R₁, hInv₁.noAdjacent, hInv₁.circ⟩

theorem claim_C2_witness :
    (∃ s' R', free exStA (20 + 1) 2 = some s' ∧
        Inv s' R' ([((20 : Nat), (4 : Nat))].erase (20, 4)) ∧
        NoAdjacent s' (s'.base :: R')) ∧
    (∀ (nb f : Nat) (s₁ : St) (r : Nat),
      malloc exStA nb f = some (s₁, r) → r ≠ 0 →
      ∃ R₁, NoAdjacent s₁ (s₁.base :: R₁) ∧
        isChain s₁ s₁.base (s₁.base :: R₁) s₁.base) :=
  claim_C2 exStA_inv (by decide) 2 (by decide)

/-- C4: a run of successful malloc calls with no intervening free hands
out pairwise disjoint address ranges: each returned pointer through its
block's usable size stays clear of every other returned range. -/
theorem claim_C4 {s : St} {R : List Nat} {A : List (Nat × Nat)} (hI : Inv s R A)
    {f : Nat} {nbs : List Nat} {s' : St} {rs : List Nat}
    (h : mallocSeq f s nbs = some (s', rs)) :
    List.Pairwise (fun a b =>
      a + ((s'.mem (a - 1)).size - 1) ≤ b ∨
      b + ((s'.mem (b - 1)).size - 1) ≤ a) rs := by
  have hpw := mallocSeq_pairwise nbs s R A hI h
  have hnz := mallocSeq_nonzero nbs s h
  refine hpw.imp_of_mem ?_
  intro a b ha hb hrel
  have ha1 : a ≠ 0 := hnz a ha
  have hb1 : b ≠ 0 := hnz b hb
  rcases hrel with h1 | h1
  · left; omega
  · right; omega

theorem claim_C4_witness :
    List.Pairwise (fun a b =>
      a + ((exStC2.mem (a - 1)).size - 1) ≤ b ∨
      b + ((exStC2.mem (b - 1)).size - 1) ≤ a) [11, 21] :=
  @claim_C4 exStC [10, 20] [] exStC_inv 3 [8, 8] exStC2 [11, 21] rfl

/-- C8: malloc(0) on a state with an available or growable block
succeeds with a non-null pointer backed by a minimal one-unit block,
distinct from (and range-disjoint with) every live allocation. -/
theorem claim_C8 {s : St} {R : List Nat} {A : List (Nat × Nat)} (hI : Inv s R A)
    (havail : R ≠ [] ∨ s.brk + 4096 ≤ s.brkMax)
    (F : Nat) (hF : 2 * R.length + 8 ≤ F) :
    ∃ s' r, malloc s 0 F = some (s', r) ∧ r ≠ 0 ∧
      (s'.mem (r - 1)).size = 1 ∧
      ∀ x ∈ A, r ≠ x.1 + 1 ∧ (x.1 + x.2 ≤ r - 1 ∨ r ≤ x.1) := by
  have hn0 : nunitsOf 0 = 1 := rfl
  have havail' : (∃ a ∈ s.base :: R, nunitsOf 0 ≤ (s.mem a).size) ∨
      s.brk + (if nunitsOf 0 < 4096 then 4096 else nunitsOf 0) ≤ s.brkMax := by
    rcases havail with h | h
    · obtain ⟨a, ha⟩ := List.exists_mem_of_ne_nil R h
      left
      refine ⟨a, List.mem_cons_of_mem _ ha, ?_⟩
      have := hI.size_pos a ha
      omega
    · right
      have hif : (if nunitsOf 0 < 4096 then 4096 else nunitsOf 0) = 4096 := rfl
      rw [hif]
      exact h
  obtain ⟨s', r, hm, hr⟩ := malloc_succeeds hI havail' F hF
  obtain ⟨R', hInv', hsz, hblt, -, -, -⟩ := malloc_post hI hm hr
  refine ⟨s', r, hm, hr, by rw [hsz, hn0], ?_⟩
  intro x hx
  have hrel := (List.pairwise_cons.1 hInv'.aPair).1 x hx
  have hx2 := (hInv'.aRange x (List.mem_cons_of_mem _ hx)).1
  have hb0 := hI.base_pos
  rw [hn0] at hrel
  constructor
  · intro he
    rcases hrel with h1 | h1 <;> omega
  · rcases hrel with h1 | h1
    · right; omega
    · left; exact h1

theorem claim_C8_witness :
    ∃ s' r, malloc exStA 0 10 = some (s', r) ∧ r ≠ 0 ∧
      (s'.mem (r - 1)).size = 1 ∧
      ∀ x ∈ [((20 : Nat), (4 : Nat))],
        r ≠ x.1 + 1 ∧ (x.1 + x.2 ≤ r - 1 ∨ r ≤ x.1) :=
  claim_C8 exStA_inv (Or.inl (by decide)) 10 (by decide)

/-- C9: once the list exists, the sentinel keeps size 0 and stays on the
circular chain across every malloc and free, and malloc never hands the
sentinel out: the needed unit count is at least 1, the chosen block's
size is that count, and the block is distinct from the sentinel. -/
theorem claim_C9 {s : St} {R : List Nat} {A : List (Nat × Nat)} (hI : Inv s R A) :
    (∀ (nb f : Nat) (s' : St) (r : Nat),
      malloc s nb f = some (s', r) → r ≠ 0 →
      1 ≤ nunitsOf nb ∧ (s'.mem (r - 1)).size = nunitsOf nb ∧
      r - 1 ≠ s'.base ∧ (s'.mem s'.base).size = 0 ∧
      ∃ R', isChain s' s'.base (s'.base :: R') s'.base) ∧
    (∀ (bp k : Nat), (bp, k) ∈ A → ∀ (F : Nat), R.length + 1 ≤ F →
      ∃ s', free s (bp + 1) F = some s' ∧ (s'.mem s'.base).size = 0 ∧
        ∃ R', isChain s' s'.base (s'.base :: R') s'.base) := by
  constructor
  · intro nb f s' r h hr
    obtain ⟨R', hInv', hsz, hblt, hbase, -, -⟩ := malloc_post hI h hr
    refine ⟨nunits_pos nb, hsz, ?_, hInv'.base_size, ⟨R', hInv'.circ⟩⟩
    rw [hbase]
    have := hI.base_pos
    omega
  · intro bp k hmem F hF
    obtain ⟨p, R', hfree, hInv'⟩ := free_live hI hmem F hF
    exact ⟨_, hfree, hInv'.base_size, ⟨R', hInv'.circ⟩⟩

theorem claim_C9_witness :
    (∀ (nb f : Nat) (s' : St) (r : Nat),
      malloc exStA nb f = some (s', r) → r ≠ 0 →
      1 ≤ nunitsOf nb ∧ (s'.mem (r - 1)).size = nunitsOf nb ∧
      r - 1 ≠ s'.base ∧ (s'.mem s'.base).size = 0 ∧
      ∃ R', isChain s' s'.base (s'.base :: R') s'.base) ∧
    (∀ (bp k : Nat), (bp, k) ∈ [((20 : Nat), (4 : Nat))] →
      ∀ (F : Nat), [(10 : Nat)].length + 1 ≤ F →
      ∃ s', free exStA (bp + 1) F = some s' ∧ (s'.mem s'.base).size = 0 ∧
        ∃ R', isChain s' s'.base (s'.base :: R') s'.base) :=
  claim_C9 exStA_inv

/-- C3 (amended: once the free list is initialized): when no free block
fits and the Growth Provider fails, malloc returns the distinguished
out-of-memory value 0 and the state — every block's link and size, and
the cursor freep — is exactly the pre-call state. -/
theorem claim_C3 {s : St} {R : List Nat} {A : List (Nat × Nat)} (hI : Inv s R A)
    {nb : Nat}
    (hnofit : ∀ a ∈ s.base :: R, (s.mem a).size < nunitsOf nb)
    (hsbrk : s.brkMax < s.brk + (if nunitsOf nb < 4096 then 4096 else nunitsOf nb))
    (F : Nat) (hF : R.length + 2 ≤ F) :
    malloc s nb F = some (s, 0) :=
  malloc_nofit_fail hI hnofit hsbrk F hF

theorem claim_C3_witness : malloc exSt 400 4 = some (exSt, 0) :=
  claim_C3 exSt_inv (by decide) (by decide) 4 (by decide)

/-- C3 as stated fails on the very first malloc call: even though sbrk
fails and 0 is returned, the lazy initialization has moved the cursor
freep from 0 to the sentinel, mutating the free list. -/
theorem claim_C3_counterexample :
    exSt0.freep = 0 ∧
    malloc exSt0 1 3 = some (initSt exSt0, 0) ∧
    (initSt exSt0).freep = 1 ∧ (1 : Nat) ≠ 0 :=
  ⟨rfl, malloc_init_fail rfl (by decide) (by decide) (by decide) 3 (by decide),
   rfl, by decide⟩

/-- C6: a visited block of exactly the needed unit count is unlinked
whole (the predecessor's link skips to the block's successor) and its
memory returned; a strictly larger block is shrunk by the needed count
and a block of exactly that count is carved from its tail, leaving the
remaining block's start address, link and contents at other addresses
unchanged; in both cases the cursor lands on the predecessor. -/
theorem claim_C6 {n f : Nat} {s : St} {pv p : Nat}
    (hfit : n ≤ (s.mem p).size) :
    ((s.mem p).size = n →
      ∃ s', mallocLoop n (f + 1) s pv p = some (s', p + 1) ∧
        (s'.mem pv).ptr = (s.mem p).ptr ∧
        (∀ a, a ≠ pv → s'.mem a = s.mem a) ∧
        (s'.mem p).size = (s.mem p).size ∧
        s'.freep = pv) ∧
    ((s.mem p).size ≠ n →
      ∃ s', mallocLoop n (f + 1) s pv p =
          some (s', p + ((s.mem p).size - n) + 1) ∧
        (s'.mem p).size = (s.mem p).size - n ∧
        (s'.mem p).ptr = (s.mem p).ptr ∧
        (s'.mem (p + ((s.mem p).size - n))).size = n ∧
        s'.freep = pv) := by
  constructor
  · intro heq
    refine ⟨_, mallocLoop_exact hfit heq, ?_, ?_, ?_, rfl⟩
    · show ((setPtr s pv ((s.mem p).ptr)).mem pv).ptr = (s.mem p).ptr
      simp
    · intro a ha
      show (setPtr s pv ((s.mem p).ptr)).mem a = s.mem a
      exact setPtr_mem_ne s pv _ a ha
    · show ((setPtr s pv ((s.mem p).ptr)).mem p).size = (s.mem p).size
      simp
  · intro hne
    have hlt : n < (s.mem p).size := Nat.lt_of_le_of_ne hfit (fun h => hne h.symm)
    have hp2 : p ≠ p + ((s.mem p).size - n) := by omega
    refine ⟨_, mallocLoop_split hfit hne, ?_, ?_, ?_, rfl⟩
    · show ((setSize (setSize s p ((s.mem p).size - n))
        (p + ((s.mem p).size - n)) n).mem p).size = (s.mem p).size - n
      rw [setSize_mem_ne _ _ _ _ hp2]
      simp
    · show ((setSize (setSize s p ((s.mem p).size - n))
        (p + ((s.mem p).size - n)) n).mem p).ptr = (s.mem p).ptr
      simp
    · show ((setSize (setSize s p ((s.mem p).size - n))
        (p + ((s.mem p).size - n)) n).mem (p + ((s.mem p).size - n))).size = n
      simp

theorem claim_C6_witness :
    ((exSt.mem 10).size = 9 →
      ∃ s', mallocLoop 9 (0 + 1) exSt 1 10 = some (s', 10 + 1) ∧
        (s'.mem 1).ptr = (exSt.mem 10).ptr ∧
        (∀ a, a ≠ 1 → s'.mem a = exSt.mem a) ∧
        (s'.mem 10).size = (exSt.mem 10).size ∧
        s'.freep = 1) ∧
    ((exSt.mem 10).size ≠ 9 →
      ∃ s', mallocLoop 9 (0 + 1) exSt 1 10 =
          some (s', 10 + ((exSt.mem 10).size - 9) + 1) ∧
        (s'.mem 10).size = (exSt.mem 10).size - 9 ∧
        (s'.mem 10).ptr = (exSt.mem 10).ptr ∧
        (s'.mem (10 + ((exSt.mem 10).size - 9))).size = 9 ∧
        s'.freep = 1) :=
  @claim_C6 9 0 exSt 1 10 (by decide)

/-- C7: on any free list satisfying the circularity invariant (which
always holds at least the sentinel), free's insertion-point scan started
at the cursor terminates within fuel equal to the number of list nodes —
one full traversal — and stops at the unique predecessor below the
block: every node below the block is at most the result, so wrapping
blocks above the highest or below the lowest node also stop there. -/
theorem claim_C7 {s : St} {R : List Nat} {A : List (Nat × Nat)} (hI : Inv s R A)
    {bp : Nat} (hbp : s.base < bp) (hnot : bp ∉ s.base :: R) :
    ∃ p, findSpot s bp (R.length + 1) s.freep = some p ∧
      p ∈ s.base :: R ∧ p < bp ∧
      (∀ y ∈ s.base :: R, y < bp → y ≤ p) := by
  obtain ⟨p, P, Q, h1, hC, hlt, hP, hQ⟩ :=
    findSpot_main hI hbp hnot (R.length + 1) (Nat.le_refl _)
  refine ⟨p, h1, ?_, hlt, ?_⟩
  · rw [hC]
    exact List.mem_append_right P (List.mem_cons_self p Q)
  · intro y hy hylt
    have hy' : y ∈ P ++ p :: Q := hC ▸ hy
    rcases List.mem_append.1 hy' with h | h
    · exact Nat.le_of_lt (sorted_rel_earlier hI.sorted hC y h)
    · rcases List.mem_cons.1 h with rfl | h2
      · exact Nat.le_refl y
      · exfalso; have := hQ y h2; omega

theorem claim_C7_witness :
    ∃ p, findSpot exSt 35 3 exSt.freep = some p ∧
      p ∈ (1 : Nat) :: [10, 40] ∧ p < 35 ∧
      (∀ y ∈ (1 : Nat) :: [10, 40], y < 35 → y ≤ p) :=
  claim_C7 exSt_inv (by decide) (by decide)

/-- C5 (amended: when exactly one block of the free list fits the
request): p1 = malloc(64); free(p1); p2 = malloc(64) gives p2 = p1, and
no call moves the program break — the Growth Provider is never
invoked. -/
theorem claim_C5 {s : St} {R : List Nat} {A : List (Nat × Nat)} (hI : Inv s R A)
    {x : Nat} (hx : x ∈ s.base :: R)
    (hfitx : nunitsOf 64 ≤ (s.mem x).size)
    (huniq : ∀ y ∈ s.base :: R, y ≠ x → (s.mem y).size < nunitsOf 64)
    (F : Nat) (hF : 2 * R.length + 8 ≤ F) :
    ∃ s1 p1 s2 s3 p2, malloc s 64 F = some (s1, p1) ∧ p1 ≠ 0 ∧
      free s1 p1 F = some s2 ∧ malloc s2 64 F = some (s3, p2) ∧
      p2 = p1 ∧ s1.brk = s.brk ∧ s2.brk = s.brk ∧ s3.brk = s.brk := by
  have hn : 1 ≤ nunitsOf 64 := nunits_pos 64
  have hfp : s.freep ≠ 0 := by have := hI.freep_pos; omega
  obtain ⟨x', pv, hx'C, hpvC, hlink, hfx', hcase⟩ :=
    mallocLoop_from_fit hI ⟨x, hx, hfitx⟩ F (by omega)
  have hxx : x = x' := by
    by_contra hne
    have := huniq x' hx'C (fun he => hne he.symm)
    omega
  subst hxx
  have hxbase : x ≠ s.base := by
    intro he
    rw [he, hI.base_size] at hfitx
    omega
  have hxR : x ∈ R := by
    rcases List.mem_cons.1 hx with he | h
    · exact absurd he hxbase
    · exact h
  have hbx : s.base < x := hI.base_lt x hxR
  have hheapx : x + (s.mem x).size ≤ s.brk := hI.heap x hxR
  have hbnotR : s.base ∉ R := (List.nodup_cons.1 hI.nodup).1
  have hRnd : R.Nodup := (List.nodup_cons.1 hI.nodup).2
  rcases hcase with ⟨heqn, heq⟩ | ⟨hlt, heq⟩
  · -- exact fit: the block is unlinked whole, freed back, and picked again
    obtain ⟨hInv1, hxR1, hbx1⟩ := alloc_exact_inv hI hn hpvC hlink heqn
    set s1 : St := { setPtr s pv ((s.mem x).ptr) with freep := pv } with hs1def
    have hI1 : Inv s1 (R.erase x) A := hInv1.dropA
    have hsz1 : ∀ a, (s1.mem a).size = (s.mem a).size := fun a =>
      setPtr_size s pv ((s.mem x).ptr) a
    have hszx : 1 ≤ (s1.mem x).size := by rw [hsz1, heqn]; omega
    have hbrkx : x + (s1.mem x).size ≤ s1.brk := by
      rw [hsz1]
      exact hheapx
    have hdF1 : ∀ a ∈ s1.base :: R.erase x,
        a + (s1.mem a).size ≤ x ∨ x + (s1.mem x).size ≤ a := by
      intro a ha
      rw [hsz1 a, hsz1 x]
      rcases List.mem_cons.1 ha with rfl | ha'
      · left
        have h0 : (s.mem s.base).size = 0 := hI.base_size
        show s.base + (s.mem s.base).size ≤ x
        omega
      · have haR : a ∈ R := (List.erase_sublist x R).subset ha'
        have hane : a ≠ x := by
          intro he
          rw [he] at ha'
          exact ((List.Nodup.mem_erase_iff hRnd).1 ha').1 rfl
        rcases hI.block_disjoint (List.mem_cons_of_mem _ haR) hx hane with h | h
        · left; exact h
        · right; exact h
    have hdA1 : ∀ u ∈ A, u.1 + u.2 ≤ x ∨ x + (s1.mem x).size ≤ u.1 := by
      intro u hu
      rw [hsz1]
      rcases hI.aFree u hu x hxR with h | h
      · left; exact h
      · right; exact h
    have hFf : (R.erase x).length + 1 ≤ F := by
      have := (List.erase_sublist x R).length_le
      omega
    obtain ⟨pst, R2, hfree2, hpstC, hpstlt, hpstmax, hInv2, hiff2, hbig2, hRR2⟩ :=
      free_spec hI1 hszx hbx1 hbrkx hdF1 hdA1 F hFf
    have hpstne : pst ≠ x := by omega
    have hpst_origC : pst ∈ s.base :: R := by
      rcases List.mem_cons.1 hpstC with h | h
      · exact List.mem_cons.2 (Or.inl h)
      · exact List.mem_cons.2 (Or.inr ((List.erase_sublist x R).subset h))
    have hnadj := hI.noAdjacent
    have hbwdF : ¬ (pst + (s1.mem pst).size = x) := by
      rw [hsz1]
      exact hnadj pst hpst_origC x hx hpstne
    have hq := hI1.ptr_mem pst hpstC
    have hxnotin : x ∉ s1.base :: R.erase x := by
      intro hxe
      rcases List.mem_cons.1 hxe with h | h
      · exact hxbase h
      · exact ((List.Nodup.mem_erase_iff hRnd).1 h).1 rfl
    have hfwdF : ¬ (x + (s1.mem x).size = (s1.mem pst).ptr) := by
      intro hf
      have hqC : (s1.mem pst).ptr ∈ s.base :: R := by
        rcases List.mem_cons.1 hq with h | h
        · exact List.mem_cons.2 (Or.inl h)
        · exact List.mem_cons.2 (Or.inr ((List.erase_sublist x R).subset h))
      have hqnex : x ≠ (s1.mem pst).ptr := by
        intro he
        rw [← he] at hq
        exact hxnotin hq
      have hne' := hnadj x hx ((s1.mem pst).ptr) hqC hqnex
      rw [hsz1] at hf
      exact hne' hf
    have hsz2 : ∀ a, ((freeCore s1 x pst).mem a).size = (s.mem a).size := by
      intro a
      by_cases hax : a = x
      · rw [hax, freeCore_mem_bp_nofwd s1 x pst hpstne hfwdF]
        exact hsz1 x
      · by_cases hap : a = pst
        · rw [hap, freeCore_mem_p_nobwd s1 x pst hpstne hbwdF]
          exact hsz1 pst
        · rw [freeCore_mem_other s1 x pst a hax hap]
          exact hsz1 a
    have hx2C : x ∈ s1.base :: R2 := (hiff2 x).2 (Or.inr ⟨hbwdF, rfl⟩)
    have hsub2 : ∀ y ∈ s1.base :: R2, y ≠ x → y ∈ s.base :: R := by
      intro y hy hne
      rcases (hiff2 y).1 hy with ⟨hy1, -⟩ | ⟨-, hy2⟩
      · rcases List.mem_cons.1 hy1 with h | h
        · exact List.mem_cons.2 (Or.inl h)
        · exact List.mem_cons.2 (Or.inr ((List.erase_sublist x R).subset h))
      · exact absurd hy2 hne
    have hnd2 : (s1.base :: R2).Nodup := by
      have h := hInv2.nodup
      rw [freeCore_base] at h
      exact h
    have hlen2 : (s1.base :: R2).length ≤ (x :: s.base :: R).length := by
      refine List.Subperm.length_le (List.subperm_of_subset hnd2 ?_)
      intro y hy
      by_cases hyx : y = x
      · rw [hyx]; exact List.mem_cons_self _ _
      · exact List.mem_cons_of_mem _ (hsub2 y hy hyx)
    have hs2fp : (freeCore s1 x pst).freep ≠ 0 := by
      have := hInv2.freep_pos
      omega
    have hx2C' : x ∈ (freeCore s1 x pst).base :: R2 := by
      rw [freeCore_base]
      exact hx2C
    have hfit2 : nunitsOf 64 ≤ ((freeCore s1 x pst).mem x).size := by
      rw [hsz2 x]
      omega
    obtain ⟨x3, pv3, hx3C, hpv3C, hlink3, hf3, hcase3⟩ :=
      mallocLoop_from_fit hInv2 ⟨x, hx2C', hfit2⟩ F
        (by simp only [List.length_cons] at hlen2; omega)
    have hx3x : x = x3 := by
      by_contra hne
      have hx3C' : x3 ∈ s1.base :: R2 := by
        have h := hx3C
        rw [freeCore_base] at h
        exact h
      have hy := hsub2 x3 hx3C' (fun he => hne he.symm)
      have hlt3 := huniq x3 hy (fun he => hne he.symm)
      rw [hsz2 x3] at hf3
      omega
    subst hx3x
    rcases hcase3 with ⟨heqn3, heq3⟩ | ⟨hlt3, heq3⟩
    · have hm1 := heq
      rw [← malloc_eq_loop hfp 64 F] at hm1
      have hm2 := heq3
      rw [← malloc_eq_loop hs2fp 64 F] at hm2
      refine ⟨_, x + 1, _, _, x + 1, hm1, by omega, hfree2, hm2, rfl, rfl, ?_, ?_⟩
      · show (freeCore s1 x pst).brk = s.brk
        rw [freeCore_brk]
        exact rfl
      · show (freeCore s1 x pst).brk = s.brk
        rw [freeCore_brk]
        exact rfl
    · rw [hsz2 x, heqn] at hlt3
      omega
  · -- split fit: the tail is carved, freed back and merged, and carved again
    obtain ⟨hInv1, hxR1, hbx2⟩ := alloc_split_inv hI hn hpvC hlink hfx' (by omega)
    set x2 := x + ((s.mem x).size - nunitsOf 64) with hx2def
    set s1 : St := { setSize (setSize s x ((s.mem x).size - nunitsOf 64))
        x2 (nunitsOf 64) with freep := pv } with hs1def
    have hlt' : 1 ≤ (s.mem x).size - nunitsOf 64 := by omega
    have hxnex2 : x ≠ x2 := by omega
    have hI1 : Inv s1 R A := hInv1.dropA
    have hs1x_size : (s1.mem x).size = (s.mem x).size - nunitsOf 64 := by
      show ((setSize (setSize s x ((s.mem x).size - nunitsOf 64))
        x2 (nunitsOf 64)).mem x).size = (s.mem x).size - nunitsOf 64
      rw [setSize_mem_ne _ _ _ _ hxnex2]
      simp
    have hs1x2_size : (s1.mem x2).size = nunitsOf 64 := by
      show ((setSize (setSize s x ((s.mem x).size - nunitsOf 64))
        x2 (nunitsOf 64)).mem x2).size = nunitsOf 64
      simp
    have hs1_other : ∀ a, a ≠ x → a ≠ x2 → s1.mem a = s.mem a := by
      intro a ha1 ha2
      show (setSize (setSize s x ((s.mem x).size - nunitsOf 64))
        x2 (nunitsOf 64)).mem a = s.mem a
      rw [setSize_mem_ne _ _ _ _ ha2, setSize_mem_ne _ _ _ _ ha1]
    have hs1_ptr : ∀ a, (s1.mem a).ptr = (s.mem a).ptr := by
      intro a
      show ((setSize (setSize s x ((s.mem x).size - nunitsOf 64))
        x2 (nunitsOf 64)).mem a).ptr = (s.mem a).ptr
      rw [setSize_ptr, setSize_ptr]
    have hszx2 : 1 ≤ (s1.mem x2).size := by rw [hs1x2_size]; omega
    have hb2 : s.base < x2 := hbx2
    have hbrkx2 : x2 + (s1.mem x2).size ≤ s1.brk := by
      rw [hs1x2_size]
      show x2 + nunitsOf 64 ≤ s.brk
      omega
    have hdF1 : ∀ a ∈ s1.base :: R,
        a + (s1.mem a).size ≤ x2 ∨ x2 + (s1.mem x2).size ≤ a := by
      intro a ha
      rcases List.mem_cons.1 ha with rfl | haR
      · left
        have h0 : (s1.mem s1.base).size = 0 := hI1.base_size
        have hb2' : s1.base < x2 := hb2
        omega
      · by_cases hax : a = x
        · left
          rw [hax, hs1x_size]
        · have hax2 : a ≠ x2 := by
            intro he
            rcases hI.block_disjoint (List.mem_cons_of_mem _ haR) hx hax with h | h <;>
              omega
          rw [hs1_other a hax hax2, hs1x2_size]
          rcases hI.block_disjoint (List.mem_cons_of_mem _ haR) hx hax with h | h
          · left; omega
          · right; omega
    have hdA1 : ∀ u ∈ A, u.1 + u.2 ≤ x2 ∨ x2 + (s1.mem x2).size ≤ u.1 := by
      intro u hu
      rw [hs1x2_size]
      rcases hI.aFree u hu x hxR with h | h
      · left; omega
      · right; omega
    obtain ⟨pst, R2, hfree2, hpstC, hpstlt, hpstmax, hInv2, hiff2, hbig2, hRR2⟩ :=
      free_spec hI1 hszx2 hb2 hbrkx2 hdF1 hdA1 F (by omega)
    have hxlt2 : x < x2 := by omega
    have hxle : x ≤ pst := hpstmax x hx hxlt2
    have hpstx : x = pst := by
      by_contra hne
      rcases hI1.block_disjoint hpstC hx (fun he => hne he.symm) with h | h
      · omega
      · rw [hs1x_size] at h
        omega
    subst hpstx
    have hbwdT : x + (s1.mem x).size = x2 := by
      rw [hs1x_size]
    have hq0C : (s.mem x).ptr ∈ s.base :: R := hI.ptr_mem x hx
    have hfwdF : ¬ (x2 + (s1.mem x2).size = (s1.mem x).ptr) := by
      intro hf
      rw [hs1x2_size, hs1_ptr] at hf
      by_cases hqx : (s.mem x).ptr = x
      · rw [hqx] at hf
        omega
      · have hne' := hI.noAdjacent x hx ((s.mem x).ptr) hq0C (fun he => hqx he.symm)
        omega
    have hR2R : R = R2 := (hRR2 hbwdT hfwdF).symm
    subst hR2R
    have hs2x : (freeCore s1 x2 x).mem x =
        ⟨(s1.mem x).ptr, (s1.mem x).size + (s1.mem x2).size⟩ :=
      freeCore_mem_p_bwd_nofwd s1 x2 x hxnex2 hbwdT hfwdF
    have hs2x_size : ((freeCore s1 x2 x).mem x).size = (s.mem x).size := by
      rw [hs2x]
      show (s1.mem x).size + (s1.mem x2).size = (s.mem x).size
      rw [hs1x_size, hs1x2_size]
      omega
    have hs2_other : ∀ a, a ≠ x2 → a ≠ x → (freeCore s1 x2 x).mem a = s.mem a := by
      intro a ha2 hax
      rw [freeCore_mem_other s1 x2 x a ha2 hax]
      exact hs1_other a hax ha2
    have hs2fp : (freeCore s1 x2 x).freep ≠ 0 := by
      have := hInv2.freep_pos
      omega
    have hxC2 : x ∈ (freeCore s1 x2 x).base :: R := by
      rw [freeCore_base]
      exact hx
    have hfit2 : nunitsOf 64 ≤ ((freeCore s1 x2 x).mem x).size := by
      rw [hs2x_size]
      exact hfx'
    obtain ⟨x3, pv3, hx3C, hpv3C, hlink3, hf3, hcase3⟩ :=
      mallocLoop_from_fit hInv2 ⟨x, hxC2, hfit2⟩ F (by omega)
    have hx3x : x = x3 := by
      by_contra hne
      have hne' : x3 ≠ x := fun he => hne he.symm
      have hy3 : x3 ∈ s.base :: R := by
        have h := hx3C
        rw [freeCore_base] at h
        exact h
      have hx3x2 : x3 ≠ x2 := by
        intro he
        rcases List.mem_cons.1 hy3 with h | h
        · omega
        · rcases hI.block_disjoint (List.mem_cons_of_mem _ h) hx hne' with hd | hd <;>
            omega
      have hlt3 := huniq x3 hy3 hne'
      rw [hs2_other x3 hx3x2 hne'] at hf3
      omega
    subst hx3x
    rcases hcase3 with ⟨heqn3, heq3⟩ | ⟨hlt3, heq3⟩
    · rw [hs2x_size] at heqn3
      omega
    · have hp2eq : x + (((freeCore s1 x2 x).mem x).size - nunitsOf 64) + 1 = x2 + 1 := by
        rw [hs2x_size]
      have hm1 := heq
      rw [← malloc_eq_loop hfp 64 F] at hm1
      have hm2 := heq3
      rw [← malloc_eq_loop hs2fp 64 F] at hm2
      refine ⟨_, x2 + 1, _, _, _, hm1, by omega, hfree2, hm2, hp2eq, rfl, ?_, ?_⟩
      · show (freeCore s1 x2 x).brk = s.brk
        rw [freeCore_brk]
        exact rfl
      · simp only [setSize_brk, freeCore_brk]

theorem claim_C5_witness :
    ∃ s1 p1 s2 s3 p2, malloc exStD 64 10 = some (s1, p1) ∧ p1 ≠ 0 ∧
      free s1 p1 10 = some s2 ∧ malloc s2 64 10 = some (s3, p2) ∧
      p2 = p1 ∧ s1.brk = exStD.brk ∧ s2.brk = exStD.brk ∧ s3.brk = exStD.brk :=
  claim_C5 exStD_inv (x := 10) (by decide) (by decide) (by decide) 10 (by decide)

/-- C5 as stated fails when a second fitting block exists: from a heap
with two 20-unit blocks at 10 and 40, malloc(64) carves the tail of
block 10 and returns 26; free(26) merges it back but leaves the next-fit
cursor on block 10, so the second malloc(64) carves block 40 instead and
returns 56, not 26. -/
theorem claim_C5_counterexample :
    (malloc exSt 64 9).map Prod.snd = some 26 ∧
    (((malloc exSt 64 9).bind (fun q => free q.1 q.2 9)).bind
        (fun s2 => malloc s2 64 9)).map Prod.snd = some 56 ∧
    (26 : Nat) ≠ 56 := by
  refine ⟨?_, ?_, by decide⟩ <;> decide

end UMalloc
